import Mathlib

/-!
A shallow embedding of the leaf integer-array component of Realm core
(`realm/array.hpp`): the variable-bit-width packed integer array, its
reference/tag overlay, accessor operations, and the conditional scan
engine (`find_optimized` with its bit-trick fast paths), together with
proofs relating the accelerated scan to a naive per-element scan and
settling the other specified properties.

Machine integers are modelled as `Nat` bit patterns (with explicit
`% 2 ^ 64` where 64-bit wraparound matters) and signed values as `Int`.
The backing buffer is modelled as a single `Nat` holding the packed
little-endian bit stream, which on the little-endian target platforms
coincides with the byte/int16/int32/int64 loads performed by the source.
The SSE fast path is compiled out on the reference configuration
(`REALM_COMPILER_SSE` undefined), so the scalar/bit-trick path embedded
here is the complete release-mode scan.
-/

namespace Realm

/-- The set of supported element widths, from the source's width dispatch
(widths 0, 1, 2, 4, 8, 16, 32, 64). -/
def supportedWidth (w : Nat) : Prop :=
  w = 0 ∨ w = 1 ∨ w = 2 ∨ w = 4 ∨ w = 8 ∨ w = 16 ∨ w = 32 ∨ w = 64

instance (w : Nat) : Decidable (supportedWidth w) := by
  unfold supportedWidth; infer_instance

/-- `Array::lbound_for_width` (array.hpp): minimum representable value for a
given bit width.  The unreachable branch is mapped to 0. -/
def lbound_for_width (width : Nat) : Int :=
  if width = 32 then -0x80000000
  else if width = 16 then -0x8000
  else if width < 8 then 0
  else if width = 8 then -0x80
  else if width = 64 then -0x8000000000000000
  else 0

/-- `Array::ubound_for_width` (array.hpp): maximum representable value for a
given bit width.  The unreachable branch is mapped to 0. -/
def ubound_for_width (width : Nat) : Int :=
  if width = 32 then 0x7FFFFFFF
  else if width = 16 then 0x7FFF
  else if width = 0 then 0
  else if width = 1 then 1
  else if width = 2 then 3
  else if width = 4 then 15
  else if width = 8 then 0x7F
  else if width = 64 then 0x7FFFFFFFFFFFFFFF
  else 0

/-- `realm::no0` (array.hpp): maps 0 to 1 and is the identity elsewhere;
used to avoid division by zero in width arithmetic. -/
def no0 (v : Nat) : Nat := if v = 0 then 1 else v

/-- Two's-complement decode of a `w`-bit pattern into its signed value
(the effect of the source's sign-extending `int8_t`/`int16_t`/`int32_t`/
`int64_t` loads). -/
def signedOfBits (w : Nat) (raw : Nat) : Int :=
  if raw < 2 ^ (w - 1) then (raw : Int) else (raw : Int) - 2 ^ w

/-- The `w`-bit lane of a packed little-endian bit stream starting at bit
`w * ndx`. -/
def laneBits (w : Nat) (data : Nat) (ndx : Nat) : Nat :=
  (data >>> (w * ndx)) % 2 ^ w

/-- `Array::get_universal<w>` (array.hpp): width-dispatched element read
from the packed buffer.  Sub-byte widths extract masked bit groups from the
byte at `ndx * w / 8` (low-bit-first packing, so on the little-endian
target this is bit group `[w * ndx, w * ndx + w)` of the stream); widths
8/16/32/64 are sign-extended native loads at byte offset `ndx * w / 8`. -/
def get_universal (w : Nat) (data : Nat) (ndx : Nat) : Int :=
  if w = 0 then
    0
  else if w = 1 then
    ((((data >>> (8 * (ndx >>> 3))) % 2 ^ 8) >>> (ndx % 8)) &&& 0x01 : Nat)
  else if w = 2 then
    ((((data >>> (8 * (ndx >>> 2))) % 2 ^ 8) >>> ((ndx % 4) * 2)) &&& 0x03 : Nat)
  else if w = 4 then
    ((((data >>> (8 * (ndx >>> 1))) % 2 ^ 8) >>> ((ndx % 2) * 4)) &&& 0x0F : Nat)
  else if w = 8 then
    signedOfBits 8 ((data >>> (8 * ndx)) % 2 ^ 8)
  else if w = 16 then
    signedOfBits 16 ((data >>> (8 * (ndx * 2))) % 2 ^ 16)
  else if w = 32 then
    signedOfBits 32 ((data >>> (8 * (ndx * 4))) % 2 ^ 32)
  else if w = 64 then
    signedOfBits 64 ((data >>> (8 * (ndx * 8))) % 2 ^ 64)
  else
    -1

/-- `Array::get<w>` (array.hpp): element read through `get_universal` on the
accessor's data buffer. -/
def getW (w : Nat) (data : Nat) (ndx : Nat) : Int := get_universal w data ndx

/-- The 64-bit word at byte offset `pb` of the packed buffer: the value of
the source's `*reinterpret_cast` 64-bit load on the little-endian target. -/
def read64 (data : Nat) (pb : Nat) : Nat := (data >>> (8 * pb)) % 2 ^ 64

/-! ### Reference/tag overlay (`RefOrTagged`, array.hpp) -/

/-- `realm::RefOrTagged` (array.hpp): one 64-bit slot holding either a
reference (even bit pattern) or a tagged integer (odd bit pattern).
`m_value` is the raw 64-bit two's complement pattern of the stored
`int_fast64_t`. -/
structure RefOrTagged where
  m_value : Nat
  isPattern : m_value < 2 ^ 64

namespace RefOrTagged

/-- `RefOrTagged::is_ref`: the least significant bit is clear. -/
def is_ref (r : RefOrTagged) : Bool := r.m_value &&& 1 == 0

/-- `RefOrTagged::is_tagged`: negation of `is_ref`. -/
def is_tagged (r : RefOrTagged) : Bool := !r.is_ref

/-- `RefOrTagged::get_as_ref`: decode the pattern as a reference
(`to_ref`, a bit-preserving conversion for the in-range patterns). -/
def get_as_ref (r : RefOrTagged) : Nat := r.m_value

/-- `RefOrTagged::get_as_int`: mask to 64 bits and shift right by one. -/
def get_as_int (r : RefOrTagged) : Nat :=
  (r.m_value &&& 0xFFFFFFFFFFFFFFFF) >>> 1

/-- `RefOrTagged::make_ref`: store the reference pattern unchanged
(`from_ref` is a bit-preserving conversion). -/
def make_ref (ref : Nat) (h : ref < 2 ^ 64) : RefOrTagged := ⟨ref, h⟩

/-- `RefOrTagged::make_tagged`: requires `i < 2^63` (`REALM_ASSERT`, a
fail-fast precondition, modelled as `Option.none` on violation) and encodes
`i` as `(i << 1) | 1`. -/
def make_tagged (i : Nat) : Option RefOrTagged :=
  if h : i < 2 ^ 63 then
    some ⟨((i <<< 1) % 2 ^ 64) ||| 1, by
      have h2 : (i <<< 1) % 2 ^ 64 < 2 ^ 64 := Nat.mod_lt _ (by norm_num)
      have h1 : (1 : Nat) < 2 ^ 64 := by norm_num
      exact Nat.or_lt_two_pow h2 h1⟩
  else
    none

end RefOrTagged

/-! ### Query state (aggregate sink) interface

The scan engine reports matches to an external aggregate sink
(`QueryStateBase`) through a virtual `match(index, value) -> continue?`
method; the sink also exposes `match_count()` and `limit()`.  The sink is
external to this component (its concrete subclasses live elsewhere), so it
is embedded as an abstract state type with the three operations of the
boundary contract. -/

/-- The aggregate-sink boundary contract consumed by the scan engine:
`mmatch` is `QueryStateBase::match`, `match_count` and `limit` are the
corresponding accessors. -/
structure SinkOps (σ : Type) where
  mmatch : σ → Nat → Int → σ × Bool
  match_count : σ → Nat
  sinkLimit : σ → Nat

/-- The behaviour the engine relies on from every `QueryStateBase`
implementation: a `match` call increments `match_count` by one, leaves
`limit` unchanged, and only asks to continue while the count is still
below the limit. -/
def SinkLawful {σ : Type} (S : SinkOps σ) : Prop :=
  ∀ s i v,
    S.match_count (S.mmatch s i v).1 = S.match_count s + 1 ∧
    S.sinkLimit (S.mmatch s i v).1 = S.sinkLimit s ∧
    ((S.mmatch s i v).2 = true →
      S.match_count (S.mmatch s i v).1 < S.sinkLimit (S.mmatch s i v).1)

/-- `QueryStateFindFirst` (array.hpp): the single-result sink.
`m_state` starts at `realm::not_found` and the limit is 1. -/
structure QueryStateFindFirst where
  m_match_count : Nat
  m_limit : Nat
  m_state : Nat

/-- `realm::not_found` = `npos` = `size_t(-1)`. -/
def not_found : Nat := 2 ^ 64 - 1

/-- `realm::npos` = `size_t(-1)`. -/
def npos : Nat := 2 ^ 64 - 1

/-- `QueryStateFindFirst::QueryStateFindFirst()`: count 0, limit 1,
`m_state = not_found`. -/
def QueryStateFindFirst.init : QueryStateFindFirst :=
  ⟨0, 1, not_found⟩

/-- `QueryStateFindFirst::match` (array.hpp): increments the match count,
records the index and returns `false` (stop the scan). -/
def QueryStateFindFirst.ops : SinkOps QueryStateFindFirst where
  mmatch := fun s i _ => (⟨s.m_match_count + 1, s.m_limit, i⟩, false)
  match_count := fun s => s.m_match_count
  sinkLimit := fun s => s.m_limit

/-- The result of an embedded scan: final sink state, the ordered list of
`(index, value)` reports delivered through `find_action`, and the boolean
the scan returns (`false` iff a `find_action` call stopped it). -/
structure ScanRes (σ : Type) where
  state : σ
  reports : List (Nat × Int)
  cont : Bool

/-- `Array::find_action` (array.hpp), in the no-callback instantiation:
forward the match to `state->match(index, value)`. -/
def find_action {σ : Type} (S : SinkOps σ) (s : σ) (index : Nat) (value : Int) :
    σ × Bool :=
  S.mmatch s index value

/-- `Array::find_action_pattern` (array.hpp): the pattern fast-path
callback is defined to always decline the chunk (`return false`; the
`st->match_pattern` forwarding is commented out in the source). -/
def find_action_pattern {σ : Type} (_index : Nat) (_pattern : Nat) (_st : σ) : Bool :=
  false

/-! ### Accessor state -/

/-- The cached accessor fields of `realm::Array` that the embedded
operations touch: element width, element count, packed data buffer, and
the cached representable bounds for the current width. -/
structure Arr where
  m_width : Nat
  m_size : Nat
  m_data : Nat
  m_lbound : Int
  m_ubound : Int

/-- Two's-complement encode of a signed value into its low `w` bits. -/
def encodeBits (w : Nat) (v : Int) : Nat := (v % (2 ^ w)).toNat

/-- Uniform element decode: sub-byte widths are unsigned, byte-and-wider
widths are two's complement (matches the branches of `get_universal`). -/
def decodeVal (w : Nat) (raw : Nat) : Int :=
  if w < 8 then (raw : Int) else signedOfBits w raw

/-- Modelled from the spec: the body of `Array::set<w>` is not part of the
source under examination (only its declaration is); per the spec the write
stores the value's `w`-bit two's complement pattern into bit slot
`[w*ndx, w*(ndx+1))` of the packed stream, leaving all other slots
untouched. -/
def setW (w : Nat) (data : Nat) (ndx : Nat) (v : Int) : Nat :=
  data % 2 ^ (w * ndx) +
    2 ^ (w * ndx) * (encodeBits w v + 2 ^ w * (data >>> (w * (ndx + 1))))

/-- Pack a list of `w`-bit patterns into a packed stream (element 0 in the
lowest bits, matching the buffer layout). -/
def packBits (w : Nat) : List Nat → Nat
  | [] => 0
  | x :: xs => x % 2 ^ w + 2 ^ w * packBits w xs

/-- The logical element values of an accessor's buffer. -/
def elemVals (w : Nat) (data : Nat) (n : Nat) : List Int :=
  (List.range n).map (fun i => decodeVal w (laneBits w data i))

/-- Modelled from the spec: `Array::move(begin, end, dest_begin)` (body not
in the source under examination) relocates the contiguous element range
`[begin, end)` onto `[dest, dest + (end - begin))` of the same buffer, a
forward block copy leaving all other elements unchanged. -/
def moveElems (l : List Int) (b e d : Nat) : List Int :=
  l.take d ++ ((l.drop b).take (e - b)) ++ l.drop (d + (e - b))

/-- `Array::move` on the packed accessor state. -/
def Arr.move (st : Arr) (b e d : Nat) : Arr :=
  { st with m_data :=
      packBits st.m_width ((moveElems (elemVals st.m_width st.m_data st.m_size) b e d).map
        (encodeBits st.m_width)) }

/-- `Array::erase(begin, end)` (array.hpp): for a non-empty range, move the
tail down over the erased range and shrink the size (also in the header,
which the `m_size` field models); for an empty range the body is skipped
entirely. -/
def Arr.erase (st : Arr) (b e : Nat) : Arr :=
  if b ≠ e then
    let st2 := st.move e st.m_size b
    { st2 with m_size := st.m_size - (e - b) }
  else
    st

/-- The supported widths in increasing order (the candidates considered
when growing the representation). -/
def widthCandidates : List Nat := [0, 1, 2, 4, 8, 16, 32, 64]

/-- Does width `w` represent the interval `[lo, hi]` and the value `v`? -/
def fitsWidth (w : Nat) (lo hi v : Int) : Bool :=
  decide (lbound_for_width w ≤ lo ∧ hi ≤ ubound_for_width w ∧
    lbound_for_width w ≤ v ∧ v ≤ ubound_for_width w)

/-- The smallest supported width that fits both the existing representable
bounds and the new value (64 always fits). -/
def smallestFittingWidth (lo hi v : Int) : Nat :=
  ((widthCandidates.filter (fun w => fitsWidth w lo hi v)).headD 64)

/-- Modelled from the spec: `Array::do_ensure_minimum_width` (body not in
the source under examination) re-encodes the whole array at the smallest
supported width that fits both the existing representable bounds and the
new value, updating the cached width and bounds. -/
def do_ensure_minimum_width (st : Arr) (value : Int) : Arr :=
  let w2 := smallestFittingWidth st.m_lbound st.m_ubound value
  { m_width := w2
    m_size := st.m_size
    m_data := packBits w2 ((elemVals st.m_width st.m_data st.m_size).map (encodeBits w2))
    m_lbound := lbound_for_width w2
    m_ubound := ubound_for_width w2 }

/-- `Array::ensure_minimum_width` (array.hpp): a no-op when the value is
already within the cached `[m_lbound, m_ubound]` range; otherwise delegate
to `do_ensure_minimum_width`. -/
def Arr.ensure_minimum_width (st : Arr) (value : Int) : Arr :=
  if st.m_lbound ≤ value ∧ value ≤ st.m_ubound then st
  else do_ensure_minimum_width st value

/-! ### Conditional scan engine -/

/-- The four scan predicates (`Equal`, `NotEqual`, `Greater`, `Less` of
query_conditions.hpp). -/
inductive Cond where
  | equal : Cond
  | notEqual : Cond
  | greater : Cond
  | less : Cond

/-- The predicate evaluation `cond()(element, search_value)`. -/
def condSat (c : Cond) (x v : Int) : Bool :=
  match c with
  | .equal => decide (x = v)
  | .notEqual => decide (x ≠ v)
  | .greater => decide (x > v)
  | .less => decide (x < v)

/-- Modelled from the spec: `cond::can_match(v, lbound, ubound)`
(query_conditions.hpp, not in the source under examination) — whether the
predicate can match any value representable at the current bounds. -/
def can_match (c : Cond) (v lb ub : Int) : Bool :=
  match c with
  | .equal => decide (lb ≤ v ∧ v ≤ ub)
  | .notEqual => !decide (v = lb ∧ v = ub)
  | .greater => decide (v < ub)
  | .less => decide (lb < v)

/-- Modelled from the spec: `cond::will_match(v, lbound, ubound)`
(query_conditions.hpp, not in the source under examination) — whether the
predicate must match every representable value. -/
def will_match (c : Cond) (v lb ub : Int) : Bool :=
  match c with
  | .equal => decide (v = lb ∧ v = ub)
  | .notEqual => decide (v < lb ∨ ub < v)
  | .greater => decide (v < lb)
  | .less => decide (ub < v)

/-- Modelled from the spec: `realm::round_up(p, align)` (utilities.hpp, not
in the source under examination) — round `p` up to the next multiple of
`align`. -/
def round_up (p align : Nat) : Nat :=
  if p % align = 0 then p else p + (align - p % align)

/-- Modelled from the spec: `Array::first_set_bit64` (body not in the
source under examination) — the index of the lowest set bit, by isolating
the lowest set bit and computing its position. -/
def fsbAux : Nat → Nat → Nat
  | _, 0 => 0
  | v, fuel + 1 => if v % 2 = 1 then 0 else 1 + fsbAux (v / 2) fuel

/-- `Array::first_set_bit64` over a 64-bit value. -/
def first_set_bit64 (v : Nat) : Nat := fsbAux v 64

/-- Bitwise complement on a 64-bit value (`~value` on `uint64_t`). -/
def bnot64 (v : Nat) : Nat := v ^^^ (2 ^ 64 - 1)

/-- The "warning free" `w`-bit mask of the source:
`width == 64 ? ~0ULL : ((1ULL << width) - 1ULL)`. -/
def maskW (w : Nat) : Nat :=
  if w = 64 then 2 ^ 64 - 1 else (1 <<< (if w = 64 then 0 else w)) - 1

/-- The two's-complement `uint64_t` bit pattern of an `int64_t` value. -/
def u64ofInt (v : Int) : Nat := (v % (2 ^ 64 : Int)).toNat

/-- `Array::lower_bits<width>` (array.hpp): chunk with the lower bit set in
each element. -/
def lower_bits (w : Nat) : Nat :=
  if w = 1 then 0xFFFFFFFFFFFFFFFF
  else if w = 2 then 0x5555555555555555
  else if w = 4 then 0x1111111111111111
  else if w = 8 then 0x0101010101010101
  else if w = 16 then 0x0001000100010001
  else if w = 32 then 0x0000000100000001
  else if w = 64 then 0x0000000000000001
  else 2 ^ 64 - 1

/-- `Array::test_zero<width>` (array.hpp): the has-zero-element bit trick
`(value - lower) & ~value & upper`, on 64-bit wraparound arithmetic. -/
def test_zero (w : Nat) (value : Nat) : Bool :=
  let lower := lower_bits w
  let upper := (lower_bits w * 1 <<< (if w = 0 then 0 else w - 1)) % 2 ^ 64
  let hasZeroByte := ((value + 2 ^ 64 - lower) % 2 ^ 64) &&& bnot64 value &&& upper
  decide (hasZeroByte ≠ 0)

/-- The linear tail of `Array::find_zero` (array.hpp):
`while (eq == (((v >> (width * start)) & mask) != 0)) start++`.  The C++
loop is unbounded; the fuel (70, more than the 64 one-bit lanes a 64-bit
chunk can hold) is provably never exhausted under the function's
documented precondition that a matching element exists. -/
def findZeroLinear (eq : Bool) (w : Nat) (v mask : Nat) : Nat → Nat → Nat
  | start, 0 => start
  | start, fuel + 1 =>
    if eq == decide ((v >>> (w * start)) &&& mask ≠ 0) then
      findZeroLinear eq w v mask (start + 1) fuel
    else start

/-- `Array::find_zero<eq, width>` (array.hpp): position of the first zero
(eq) or nonzero (not eq) element of a 64-bit chunk, with the bisection
prepass for widths up to 8. -/
def find_zero (eq : Bool) (w : Nat) (v : Nat) : Nat :=
  if eq == decide ((v >>> (w * 0)) &&& maskW w = 0) then 0
  else
    findZeroLinear eq w v (maskW w)
      (if w ≤ 8 then
        (if (if eq then !test_zero w (v ||| 0xffffffff00000000)
             else decide (v &&& 0x00000000ffffffff = 0)) then
          64 / no0 w / 2 +
            (if w ≤ 4 then
              (if (if eq then !test_zero w (v ||| 0xffff000000000000)
                   else decide (v &&& 0x0000ffffffffffff = 0)) then
                64 / no0 w / 4
              else 0)
            else 0)
        else
          (if w ≤ 4 then
            (if (if eq then !test_zero w (v ||| 0xffffffffffff0000)
                 else decide (v &&& 0x000000000000ffff = 0)) then
              64 / no0 w / 4
            else 0)
          else 0))
      else 0)
      70

/-- `Array::cascade<width, zero>` (array.hpp): per-lane zero/non-zero
indicator used only as the argument of the (always declining)
`find_action_pattern` callback. -/
def cascade (w : Nat) (zero : Bool) (a : Nat) : Nat :=
  let m1 : Nat := 0x5555555555555555
  if w = 1 then
    if zero then bnot64 a else a
  else if w = 2 then
    let c1 := (2 ^ 64 - 1) / 0x3 * 0x1
    let a1 := a ||| ((a >>> 1) &&& c1)
    let a2 := a1 &&& m1
    if zero then a2 ^^^ m1 else a2
  else if w = 4 then
    let m := (2 ^ 64 - 1) / 0xF * 0x1
    let c1 := (2 ^ 64 - 1) / 0xF * 0x7
    let c2 := (2 ^ 64 - 1) / 0xF * 0x3
    let a1 := a ||| ((a >>> 1) &&& c1)
    let a2 := a1 ||| ((a1 >>> 2) &&& c2)
    let a3 := a2 &&& m
    if zero then a3 ^^^ m else a3
  else if w = 8 then
    let m := (2 ^ 64 - 1) / 0xFF * 0x1
    let c1 := (2 ^ 64 - 1) / 0xFF * 0x7F
    let c2 := (2 ^ 64 - 1) / 0xFF * 0x3F
    let c3 := (2 ^ 64 - 1) / 0xFF * 0x0F
    let a1 := a ||| ((a >>> 1) &&& c1)
    let a2 := a1 ||| ((a1 >>> 2) &&& c2)
    let a3 := a2 ||| ((a2 >>> 4) &&& c3)
    let a4 := a3 &&& m
    if zero then a4 ^^^ m else a4
  else if w = 16 then
    let m := (2 ^ 64 - 1) / 0xFFFF * 0x1
    let c1 := (2 ^ 64 - 1) / 0xFFFF * 0x7FFF
    let c2 := (2 ^ 64 - 1) / 0xFFFF * 0x3FFF
    let c3 := (2 ^ 64 - 1) / 0xFFFF * 0x0FFF
    let c4 := (2 ^ 64 - 1) / 0xFFFF * 0x00FF
    let a1 := a ||| ((a >>> 1) &&& c1)
    let a2 := a1 ||| ((a1 >>> 2) &&& c2)
    let a3 := a2 ||| ((a2 >>> 4) &&& c3)
    let a4 := a3 ||| ((a3 >>> 8) &&& c4)
    let a5 := a4 &&& m
    if zero then a5 ^^^ m else a5
  else if w = 32 then
    let m := (2 ^ 64 - 1) / 0xFFFFFFFF * 0x1
    let c1 := (2 ^ 64 - 1) / 0xFFFFFFFF * 0x7FFFFFFF
    let c2 := (2 ^ 64 - 1) / 0xFFFFFFFF * 0x3FFFFFFF
    let c3 := (2 ^ 64 - 1) / 0xFFFFFFFF * 0x0FFFFFFF
    let c4 := (2 ^ 64 - 1) / 0xFFFFFFFF * 0x00FFFFFF
    let c5 := (2 ^ 64 - 1) / 0xFFFFFFFF * 0x0000FFFF
    let a1 := a ||| ((a >>> 1) &&& c1)
    let a2 := a1 ||| ((a1 >>> 2) &&& c2)
    let a3 := a2 ||| ((a2 >>> 4) &&& c3)
    let a4 := a3 ||| ((a3 >>> 8) &&& c4)
    let a5 := a4 ||| ((a4 >>> 16) &&& c5)
    let a6 := a5 &&& m
    if zero then a6 ^^^ m else a6
  else if w = 64 then
    if decide (a = 0) == zero then 1 else 0
  else
    2 ^ 64 - 1

/-- `Array::find_gtlt_magic<gt, width>` (array.hpp): the replicated magic
constant for the has-greater/has-less bit hack, on 64-bit wraparound
arithmetic. -/
def find_gtlt_magic (gt : Bool) (w : Nat) (v : Int) : Nat :=
  let mask1 := maskW w
  let mask2 := mask1 >>> 1
  let vu := u64ofInt v
  if gt then ((2 ^ 64 - 1) / no0 mask1 * ((mask2 + 2 ^ 64 - vu) % 2 ^ 64)) % 2 ^ 64
  else ((2 ^ 64 - 1) / no0 mask1 * vu) % 2 ^ 64

/-- The generic scalar scan loop shape shared by the head/tail loops of
`compare_equality` and `compare_relation` and by `find_all_will_match`
(array.hpp): for `cnt` successive indices starting at `start`, report the
element through `find_action` whenever `p` holds of it, stopping when the
sink declines to continue. -/
def scalarLoop {σ : Type} (S : SinkOps σ) (w : Nat) (data : Nat) (p : Int → Bool)
    (base : Nat) : Nat → Nat → σ → ScanRes σ
  | _, 0, s => ⟨s, [], true⟩
  | start, cnt + 1, s =>
    if p (getW w data start) then
      let m := S.mmatch s (start + base) (getW w data start)
      if m.2 then
        let r := scalarLoop S w data p base (start + 1) cnt m.1
        ⟨r.state, (start + base, getW w data start) :: r.reports, r.cont⟩
      else
        ⟨m.1, [(start + base, getW w data start)], false⟩
    else
      scalarLoop S w data p base (start + 1) cnt s

/-- The element test of `compare_equality`:
`eq ? (get<width>(start) == value) : (get<width>(start) != value)`. -/
def eqPred (eq : Bool) (value : Int) : Int → Bool :=
  fun x => if eq then decide (x = value) else !decide (x = value)

/-- The element test of `compare_relation`:
`gt ? (get<bitwidth>(start) > value) : (get<bitwidth>(start) < value)`. -/
def relPred (gt : Bool) (value : Int) : Int → Bool :=
  fun x => if gt then decide (x > value) else decide (x < value)

/-- Run a continuation on the state of a completed scan fragment,
concatenating reports; a stopped fragment short-circuits (the
`return false` propagation of the source). -/
def seqScan {σ : Type} (r : ScanRes σ) (f : σ → ScanRes σ) : ScanRes σ :=
  if r.cont then
    let r2 := f r.state
    ⟨r2.state, r.reports ++ r2.reports, r2.cont⟩
  else r

/-- The inner bit-trick loop of `Array::compare_equality` (array.hpp):
repeatedly locate the first matching lane of the xor-masked chunk, report
it, and shift it away; `a` counts consumed lanes and the loop breaks when
it passes the `64 / no0 width` lane count. -/
def innerLoopEq {σ : Type} (S : SinkOps σ) (eq : Bool) (w : Nat) (data : Nat)
    (base startC : Nat) (v2 a : Nat) (s : σ) : ScanRes σ :=
  if (if eq then test_zero w v2 else decide (v2 ≠ 0)) then
    if find_action_pattern (startC + base) (cascade w eq v2) s then
      ⟨s, [], true⟩
    else
      let t := find_zero eq w v2
      if h : 64 / no0 w ≤ a + t then
        ⟨s, [], true⟩
      else
        let m := S.mmatch s (a + t + startC + base) (getW w data (startC + (a + t)))
        if m.2 then
          let r := innerLoopEq S eq w data base startC (v2 >>> ((t + 1) * w)) (a + t + 1) m.1
          ⟨r.state, (a + t + startC + base, getW w data (startC + (a + t))) :: r.reports, r.cont⟩
        else
          ⟨m.1, [(a + t + startC + base, getW w data (startC + (a + t)))], false⟩
  else
    ⟨s, [], true⟩
termination_by 64 / no0 w + 1 - a
decreasing_by omega

/-- The chunk loop of `Array::compare_equality` (array.hpp): process whole
64-bit words while `p < e`, then fall through to the scalar tail loop from
the recomputed element index `(p - m_data) * 8 * 8 / no0(width)`. -/
def chunkLoopEq {σ : Type} (S : SinkOps σ) (eq : Bool) (w : Nat) (data : Nat)
    (value : Int) (valuemask : Nat) (base endIdx eb : Nat) (pb : Nat) (s : σ) :
    ScanRes σ :=
  if h : pb < eb then
    let chunk := read64 data pb
    let v2 := chunk ^^^ valuemask
    let startC := pb / 8 * 64 / no0 w
    let r := innerLoopEq S eq w data base startC v2 0 s
    seqScan r (fun s2 => chunkLoopEq S eq w data value valuemask base endIdx eb (pb + 8) s2)
  else
    scalarLoop S w data (eqPred eq value) base (pb / 8 * 64 / no0 w)
      (endIdx - pb / 8 * 64 / no0 w) s
termination_by eb - pb
decreasing_by omega

/-- `Array::compare_equality<eq, width>` (array.hpp): scalar head up to a
64-bit boundary, bit-trick chunk loop for widths other than 32/64, scalar
tail. -/
def compare_equality {σ : Type} (S : SinkOps σ) (eq : Bool) (w : Nat) (data : Nat)
    (value : Int) (start endIdx base : Nat) (s : σ) : ScanRes σ :=
  let ee0 := round_up start (64 / no0 w)
  let ee := if ee0 > endIdx then endIdx else ee0
  let r1 := scalarLoop S w data (eqPred eq value) base start (ee - start) s
  seqScan r1 (fun s1 =>
    if ee ≥ endIdx then
      ⟨s1, [], true⟩
    else if w ≠ 32 ∧ w ≠ 64 then
      let mask := maskW w
      let valuemask := ((2 ^ 64 - 1) / no0 mask * (u64ofInt value &&& mask)) % 2 ^ 64
      chunkLoopEq S eq w data value valuemask base endIdx (endIdx * w / 8 - 8)
        (ee * w / 8) s1
    else
      scalarLoop S w data (eqPred eq value) base ee (endIdx - ee) s1)

/-- The per-lane comparison loop `Array::find_gtlt` (array.hpp): decode
each lane of the chunk at its width (sign-extending at widths at least 8)
and report the lanes that compare greater (gt) or less. -/
def findGtltLoop {σ : Type} (S : SinkOps σ) (gt : Bool) (w : Nat) (v : Int)
    (base : Nat) : Nat → Nat → Nat → σ → ScanRes σ
  | _, _, 0, s => ⟨s, [], true⟩
  | cur, i, cnt + 1, s =>
    let v2 := decodeVal w (cur &&& maskW w)
    if (if gt then decide (v2 > v) else decide (v2 < v)) then
      let m := S.mmatch s (i + base) v2
      if m.2 then
        let r := findGtltLoop S gt w v base (cur >>> w) (i + 1) cnt m.1
        ⟨r.state, (i + base, v2) :: r.reports, r.cont⟩
      else
        ⟨m.1, [(i + base, v2)], false⟩
    else
      findGtltLoop S gt w v base (cur >>> w) (i + 1) cnt s

/-- `Array::find_gtlt<gt, width>` (array.hpp): compare all
`64 / no0 width` lanes of a 64-bit chunk against `v`. -/
def find_gtlt {σ : Type} (S : SinkOps σ) (gt : Bool) (w : Nat) (v : Int)
    (chunk base : Nat) (s : σ) : ScanRes σ :=
  findGtltLoop S gt w v base chunk 0 (64 / no0 w) s

/-- The extraction loop of `Array::find_gtlt_fast` (array.hpp): while the
indicator word `m` is non-zero, report the lane marked by its lowest set
bit and shift the indicator down; fuel is one more than the 64 lanes a
chunk can hold and is provably never exhausted for positive widths. -/
def findGtltFastLoop {σ : Type} (S : SinkOps σ) (w : Nat) (chunk mask1 base : Nat) :
    Nat → Nat → Nat → σ → ScanRes σ
  | _, _, 0, s => ⟨s, [], true⟩
  | m, p, fuel + 1, s =>
    if m ≠ 0 then
      if find_action_pattern base (m >>> (no0 w - 1)) s then
        ⟨s, [], true⟩
      else
        let t := first_set_bit64 m / no0 w
        let p2 := p + t
        let val : Int := ((chunk >>> (p2 * w)) &&& mask1 : Nat)
        let mm := S.mmatch s (p2 + base) val
        if mm.2 then
          let m2 := if (t + 1) * w = 64 then 0 else m >>> ((t + 1) * w)
          let r := findGtltFastLoop S w chunk mask1 base m2 (p2 + 1) fuel mm.1
          ⟨r.state, (p2 + base, val) :: r.reports, r.cont⟩
        else
          ⟨mm.1, [(p2 + base, val)], false⟩
    else
      ⟨s, [], true⟩

/-- `Array::find_gtlt_fast<gt, width>` (array.hpp): build the per-lane
greater/less indicator word with the magic constant (64-bit wraparound
arithmetic) and extract the marked lanes. -/
def find_gtlt_fast {σ : Type} (S : SinkOps σ) (gt : Bool) (w : Nat)
    (chunk magic : Nat) (base : Nat) (s : σ) : ScanRes σ :=
  let mask1 := maskW w
  let mask2 := mask1 >>> 1
  let m :=
    if gt then
      (((chunk + magic) % 2 ^ 64 ||| chunk) &&&
        ((2 ^ 64 - 1) / no0 mask1 * (mask2 + 1)) % 2 ^ 64)
    else
      (((chunk + 2 ^ 64 - magic) % 2 ^ 64) &&& bnot64 chunk &&&
        ((2 ^ 64 - 1) / no0 mask1 * (mask2 + 1)) % 2 ^ 64)
  findGtltFastLoop S w chunk mask1 base m 0 70 s

/-- The chunk loop of `Array::compare_relation` (array.hpp): for each whole
64-bit word, use the magic fast path when the guard allowed it and all
lanes have their top bit clear, else the per-lane `find_gtlt`; afterwards
fall through to the scalar tail from the recomputed index. -/
def chunkLoopRel {σ : Type} (S : SinkOps σ) (gt : Bool) (w : Nat) (data : Nat)
    (value : Int) (magic : Nat) (useMagic : Bool) (base endIdx eb : Nat)
    (pb : Nat) (s : σ) : ScanRes σ :=
  if h : pb < eb then
    let chunkv := read64 data pb
    let basei := pb / 8 * 64 / no0 w + base
    let r :=
      if useMagic then
        if (lower_bits w <<< (no0 w - 1)) % 2 ^ 64 &&& chunkv = 0 then
          find_gtlt_fast S gt w chunkv magic basei s
        else
          find_gtlt S gt w value chunkv basei s
      else
        find_gtlt S gt w value chunkv basei s
    seqScan r (fun s2 =>
      chunkLoopRel S gt w data value magic useMagic base endIdx eb (pb + 8) s2)
  else
    scalarLoop S w data (relPred gt value) base (pb / 8 * 64 / no0 w)
      (endIdx - pb / 8 * 64 / no0 w) s
termination_by eb - pb
decreasing_by omega

/-- `Array::compare_relation<gt, bitwidth>` (array.hpp): scalar head up to
a 64-bit boundary; for widths 1/2/4/8/16 a chunk loop (with the magic fast
path when the guard on `value` holds), then the scalar tail. -/
def compare_relation {σ : Type} (S : SinkOps σ) (gt : Bool) (w : Nat) (data : Nat)
    (value : Int) (start endIdx base : Nat) (s : σ) : ScanRes σ :=
  let mask := maskW w
  let ee0 := round_up start (64 / no0 w)
  let ee := if ee0 > endIdx then endIdx else ee0
  let r1 := scalarLoop S w data (relPred gt value) base start (ee - start) s
  seqScan r1 (fun s1 =>
    if ee ≥ endIdx then
      ⟨s1, [], true⟩
    else if w = 1 ∨ w = 2 ∨ w = 4 ∨ w = 8 ∨ w = 16 then
      let magic := find_gtlt_magic gt w value
      let useMagic :=
        decide (value ≠ ((magic &&& mask : Nat) : Int)) &&
          decide (0 ≤ value) && decide (2 ≤ w) &&
          decide (value ≤ ((mask >>> 1) - (if gt then 1 else 0) : Nat))
      chunkLoopRel S gt w data value magic useMagic base endIdx
        (endIdx * w / 8 - 8) (ee * w / 8) s1
    else
      scalarLoop S w data (relPred gt value) base ee (endIdx - ee) s1)

/-- `Array::compare<cond, bitwidth>` (array.hpp): dispatch the four
conditions onto `compare_equality` / `compare_relation`. -/
def compare {σ : Type} (S : SinkOps σ) (c : Cond) (w : Nat) (data : Nat)
    (value : Int) (start endIdx base : Nat) (s : σ) : ScanRes σ :=
  match c with
  | .equal => compare_equality S true w data value start endIdx base s
  | .notEqual => compare_equality S false w data value start endIdx base s
  | .greater => compare_relation S true w data value start endIdx base s
  | .less => compare_relation S false w data value start endIdx base s

/-- `Array::find_all_will_match<bitwidth>` (array.hpp), no-callback
instantiation: clip the range to the sink's remaining capacity
(`limit() - match_count()`), then report every element. -/
def find_all_will_match {σ : Type} (S : SinkOps σ) (w : Nat) (data : Nat)
    (start2 endIdx base : Nat) (s : σ) : ScanRes σ :=
  let process := S.sinkLimit s - S.match_count s
  let end2 := if endIdx - start2 > process then start2 + process else endIdx
  scalarLoop S w data (fun _ => true) base start2 (end2 - start2) s

/-- `Array::find_optimized<cond, bitwidth>` (array.hpp): resolve `npos`,
return early on an empty range, apply the `can_match` / `will_match`
early-outs against the width's representable bounds, and otherwise run
`compare`. -/
def find_optimized {σ : Type} (S : SinkOps σ) (c : Cond) (w : Nat) (data : Nat)
    (n : Nat) (value : Int) (start end0 base : Nat) (s : σ) : ScanRes σ :=
  let endIdx := if end0 = npos then n else end0
  if ¬(n > start ∧ start < endIdx) then
    ⟨s, [], true⟩
  else
    let lb := lbound_for_width w
    let ub := ubound_for_width w
    if ¬(can_match c value lb ub = true) then
      ⟨s, [], true⟩
    else if will_match c value lb ub = true then
      find_all_will_match S w data start endIdx base s
    else
      compare S c w data value start endIdx base s

/-- `Array::find_first<cond>` (array.hpp): run the width-dispatched finder
(`find_vtable`, i.e. `find_optimized` with the null callback) over a fresh
`QueryStateFindFirst` sink and return its recorded index. -/
def find_first (c : Cond) (w : Nat) (data : Nat) (n : Nat) (value : Int)
    (start endIdx : Nat) : Nat :=
  let r := find_optimized QueryStateFindFirst.ops c w data n value start endIdx 0
    QueryStateFindFirst.init
  r.state.m_state

/-- The naive reference scan, written from the spec: evaluate the predicate
on every element of `[start, start + cnt)` in order, report each match
`(index + base, value)` to the sink, and stop as soon as the sink declines
to continue. -/
def naive_scan {σ : Type} (S : SinkOps σ) (c : Cond) (w : Nat) (data : Nat)
    (value : Int) (base : Nat) : Nat → Nat → σ → ScanRes σ
  | _, 0, s => ⟨s, [], true⟩
  | start, cnt + 1, s =>
    if condSat c (getW w data start) value then
      let m := S.mmatch s (start + base) (getW w data start)
      if m.2 then
        let r := naive_scan S c w data value base (start + 1) cnt m.1
        ⟨r.state, (start + base, getW w data start) :: r.reports, r.cont⟩
      else
        ⟨m.1, [(start + base, getW w data start)], false⟩
    else
      naive_scan S c w data value base (start + 1) cnt s

/-- The list of matching `(index, value)` pairs of the naive scan, written
from the spec: the indices `i` in `[start, start + cnt)` whose element
satisfies the predicate, in increasing order, paired with the element. -/
def naive_matches (c : Cond) (w : Nat) (data : Nat) (value : Int)
    (base start cnt : Nat) : List (Nat × Int) :=
  ((List.range cnt).map (fun j => start + j)).filterMap (fun i =>
    if condSat c (getW w data i) value then some (i + base, getW w data i) else none)

/-- The `w`-bit pattern `x` replicated across `k` lanes (element 0 in the
lowest bits); the normal form used to reason about the replicated masks
(`lower_bits`, `valuemask`, magic constants) of the bit-trick paths. -/
def repN (w k x : Nat) : Nat :=
  match k with
  | 0 => 0
  | k + 1 => x + 2 ^ w * repN w k x

/-- The core of the `test_zero` bit trick at an arbitrary lane count `k`:
`(v - lowRep) & ~v & highRep` over `w * k` bits. -/
def tzCore (w k v : Nat) : Nat :=
  ((v + 2 ^ (w * k) - repN w k 1) % 2 ^ (w * k)) &&&
    ((2 ^ (w * k) - 1) ^^^ v) &&& repN w k (2 ^ (w - 1))

/-- The lane property `find_zero<eq, width>` searches for: a zero lane when
`eq`, a non-zero lane otherwise. -/
def fzMatch (eq : Bool) (w v j : Nat) : Prop :=
  if eq then laneBits w v j = 0 else laneBits w v j ≠ 0

instance (eq : Bool) (w v j : Nat) : Decidable (fzMatch eq w v j) := by
  unfold fzMatch
  split <;> infer_instance

/-- The replicated comparison word `valuemask` built by `compare_equality`
(array.hpp): the encoded value broadcast to every lane. -/
def valuemaskOf (w : Nat) (value : Int) : Nat :=
  ((2 ^ 64 - 1) / no0 (maskW w) * (u64ofInt value &&& maskW w)) % 2 ^ 64

/-- The condition implemented by `compare_equality<eq>`. -/
def eqCond (eq : Bool) : Cond := if eq then Cond.equal else Cond.notEqual

/-- The condition implemented by `compare_relation<gt>`. -/
def relCond (gt : Bool) : Cond := if gt then Cond.greater else Cond.less

/-! ### Serialization and deep destroy -/

/-- The accessor fields relevant to `write` and `destroy_deep`:
attachment (`m_data != nullptr`), the array's reference, and the cached
`has_refs` flag. -/
structure NodeState where
  attached : Bool
  m_ref : Nat
  m_has_refs : Bool

/-- `Array::write(out, deep, only_if_modified)` (array.hpp).  The external
writer is a byte list; the allocator's read-only classification `ro` and
the bodies of `do_write_shallow` / `do_write_deep` (not in the source under
examination) are passed as abstract functions, so the early-return theorem
holds for every implementation of them. -/
def Array.write (ro : Nat → Bool) (st : NodeState)
    (doWriteShallow : List Nat → Nat × List Nat)
    (doWriteDeep : Bool → List Nat → Nat × List Nat)
    (deep only_if_modified : Bool) (out : List Nat) : Nat × List Nat :=
  if only_if_modified && ro st.m_ref then
    (st.m_ref, out)
  else if !deep || !st.m_has_refs then
    doWriteShallow out
  else
    doWriteDeep only_if_modified out

/-- `Array::destroy_deep()` (array.hpp): a no-op when unattached; otherwise
destroy children when `m_has_refs` (the recursion into children, whose body
is not in the source under examination, is the abstract allocator effect
`dc`), free this buffer (append `m_ref` to the allocator's free log), and
clear `m_data` (detach). -/
def Array.destroy_deep (dc : List Nat → List Nat) (st : NodeState)
    (freeLog : List Nat) : NodeState × List Nat :=
  if !st.attached then
    (st, freeLog)
  else
    let log2 := if st.m_has_refs then dc freeLog else freeLog
    ({ st with attached := false }, log2 ++ [st.m_ref])

/-! ### Basic facts about sign decoding -/

theorem signedOfBits_lower {w raw : Nat} (hw : 1 ≤ w) (_hraw : raw < 2 ^ w) :
    -(2 ^ (w - 1) : Int) ≤ signedOfBits w raw := by
  unfold signedOfBits
  split
  · have h0 : (0 : Int) ≤ (raw : Int) := Int.natCast_nonneg raw
    have h1 : (0 : Int) < 2 ^ (w - 1) := by positivity
    omega
  · have h1 : (2 : Int) ^ w = 2 ^ (w - 1) * 2 := by
      rw [← pow_succ]
      congr 1
      omega
    have h2 : (raw : Int) ≥ 2 ^ (w - 1) := by
      exact_mod_cast Nat.le_of_not_lt (by assumption)
    omega

theorem signedOfBits_upper {w raw : Nat} (hw : 1 ≤ w) (hraw : raw < 2 ^ w) :
    signedOfBits w raw ≤ (2 ^ (w - 1) : Int) - 1 := by
  unfold signedOfBits
  split
  · have h2 : (raw : Int) < 2 ^ (w - 1) := by exact_mod_cast (by assumption)
    omega
  · have h3 : (raw : Int) < 2 ^ w := by exact_mod_cast hraw
    have h1 : (2 : Int) ^ w = 2 ^ (w - 1) * 2 := by
      rw [← pow_succ]
      congr 1
      omega
    omega

theorem and_le_of_le {x m b : Nat} (h : m ≤ b) : x &&& m ≤ b :=
  le_trans Nat.and_le_right h

theorem natCast_le_int {a b : Nat} (h : a ≤ b) : (a : Int) ≤ (b : Int) := by
  exact_mod_cast h

/-- Every `get_universal<w>` read lies within the width's representable
bounds, and sub-byte reads are nonnegative (the substance behind the C4
claim, shared with the scan development). -/
theorem get_universal_bounds (w data ndx : Nat) (hw : supportedWidth w) :
    lbound_for_width w ≤ get_universal w data ndx ∧
      get_universal w data ndx ≤ ubound_for_width w ∧
      (w < 8 → 0 ≤ get_universal w data ndx ∧ lbound_for_width w = 0) := by
  have hmod : ∀ k m : Nat, 0 < m → k % m < m := fun k m hm => Nat.mod_lt _ hm
  rcases hw with h | h | h | h | h | h | h | h <;> subst h
  · exact ⟨by norm_num [get_universal, lbound_for_width],
      by norm_num [get_universal, ubound_for_width],
      fun _ => ⟨by norm_num [get_universal], by norm_num [lbound_for_width]⟩⟩
  · have hv : get_universal 1 data ndx =
        ((((data >>> (8 * (ndx >>> 3))) % 2 ^ 8) >>> (ndx % 8)) &&& 0x01 : Nat) := rfl
    have hle := natCast_le_int (and_le_of_le (x := ((data >>> (8 * (ndx >>> 3))) % 2 ^ 8)
      >>> (ndx % 8)) (m := 0x01) (b := 1) le_rfl)
    refine ⟨?_, ?_, fun _ => ⟨?_, rfl⟩⟩
    · rw [hv, show lbound_for_width 1 = 0 from rfl]
      exact Int.natCast_nonneg _
    · rw [hv, show ubound_for_width 1 = 1 from rfl]
      exact le_trans hle (by norm_num)
    · rw [hv]
      exact Int.natCast_nonneg _
  · have hv : get_universal 2 data ndx =
        ((((data >>> (8 * (ndx >>> 2))) % 2 ^ 8) >>> ((ndx % 4) * 2)) &&& 0x03 : Nat) := rfl
    have hle := natCast_le_int (and_le_of_le (x := ((data >>> (8 * (ndx >>> 2))) % 2 ^ 8)
      >>> ((ndx % 4) * 2)) (m := 0x03) (b := 3) le_rfl)
    refine ⟨?_, ?_, fun _ => ⟨?_, rfl⟩⟩
    · rw [hv, show lbound_for_width 2 = 0 from rfl]
      exact Int.natCast_nonneg _
    · rw [hv, show ubound_for_width 2 = 3 from rfl]
      exact le_trans hle (by norm_num)
    · rw [hv]
      exact Int.natCast_nonneg _
  · have hv : get_universal 4 data ndx =
        ((((data >>> (8 * (ndx >>> 1))) % 2 ^ 8) >>> ((ndx % 2) * 4)) &&& 0x0F : Nat) := rfl
    have hle := natCast_le_int (and_le_of_le (x := ((data >>> (8 * (ndx >>> 1))) % 2 ^ 8)
      >>> ((ndx % 2) * 4)) (m := 0x0F) (b := 15) le_rfl)
    refine ⟨?_, ?_, fun _ => ⟨?_, rfl⟩⟩
    · rw [hv, show lbound_for_width 4 = 0 from rfl]
      exact Int.natCast_nonneg _
    · rw [hv, show ubound_for_width 4 = 15 from rfl]
      exact le_trans hle (by norm_num)
    · rw [hv]
      exact Int.natCast_nonneg _
  · have h1 := @signedOfBits_lower 8 ((data >>> (8 * ndx)) % 2 ^ 8)
      (by norm_num) (hmod _ _ (by norm_num))
    have h2 := @signedOfBits_upper 8 ((data >>> (8 * ndx)) % 2 ^ 8)
      (by norm_num) (hmod _ _ (by norm_num))
    have hv : get_universal 8 data ndx = signedOfBits 8 ((data >>> (8 * ndx)) % 2 ^ 8) := rfl
    rw [hv]
    exact ⟨by rw [show lbound_for_width 8 = -0x80 from rfl]; omega,
      by rw [show ubound_for_width 8 = 0x7F from rfl]; omega, fun hlt => absurd hlt (by norm_num)⟩
  · have h1 := @signedOfBits_lower 16 ((data >>> (8 * (ndx * 2))) % 2 ^ 16)
      (by norm_num) (hmod _ _ (by norm_num))
    have h2 := @signedOfBits_upper 16 ((data >>> (8 * (ndx * 2))) % 2 ^ 16)
      (by norm_num) (hmod _ _ (by norm_num))
    have hv : get_universal 16 data ndx =
        signedOfBits 16 ((data >>> (8 * (ndx * 2))) % 2 ^ 16) := rfl
    rw [hv]
    exact ⟨by rw [show lbound_for_width 16 = -0x8000 from rfl]; omega,
      by rw [show ubound_for_width 16 = 0x7FFF from rfl]; omega,
      fun hlt => absurd hlt (by norm_num)⟩
  · have h1 := @signedOfBits_lower 32 ((data >>> (8 * (ndx * 4))) % 2 ^ 32)
      (by norm_num) (hmod _ _ (by norm_num))
    have h2 := @signedOfBits_upper 32 ((data >>> (8 * (ndx * 4))) % 2 ^ 32)
      (by norm_num) (hmod _ _ (by norm_num))
    have hv : get_universal 32 data ndx =
        signedOfBits 32 ((data >>> (8 * (ndx * 4))) % 2 ^ 32) := rfl
    rw [hv]
    exact ⟨by rw [show lbound_for_width 32 = -0x80000000 from rfl]; omega,
      by rw [show ubound_for_width 32 = 0x7FFFFFFF from rfl]; omega,
      fun hlt => absurd hlt (by norm_num)⟩
  · have h1 := @signedOfBits_lower 64 ((data >>> (8 * (ndx * 8))) % 2 ^ 64)
      (by norm_num) (hmod _ _ (by norm_num))
    have h2 := @signedOfBits_upper 64 ((data >>> (8 * (ndx * 8))) % 2 ^ 64)
      (by norm_num) (hmod _ _ (by norm_num))
    have hv : get_universal 64 data ndx =
        signedOfBits 64 ((data >>> (8 * (ndx * 8))) % 2 ^ 64) := rfl
    rw [hv]
    exact ⟨by rw [show lbound_for_width 64 = -0x8000000000000000 from rfl]; omega,
      by rw [show ubound_for_width 64 = 0x7FFFFFFFFFFFFFFF from rfl]; omega,
      fun hlt => absurd hlt (by norm_num)⟩

/-- C4: for every supported width `w` and every index, the element value
returned by `get` (via `get_universal<w>`) lies in the inclusive range
`[lbound_for_width w, ubound_for_width w]`; for the sub-byte widths
0, 1, 2, 4 the lower bound is 0, so those widths never return a negative
value. -/
theorem getUniversal_within_bounds (w data ndx : Nat) (hw : supportedWidth w) :
    lbound_for_width w ≤ get_universal w data ndx ∧
      get_universal w data ndx ≤ ubound_for_width w ∧
      (w < 8 → 0 ≤ get_universal w data ndx ∧ lbound_for_width w = 0) :=
  get_universal_bounds w data ndx hw

/-- C4 witness: the bounds theorem evaluated at width 4 on a concrete
buffer. -/
theorem getUniversal_within_bounds_witness :
    lbound_for_width 4 ≤ get_universal 4 0xABCD 2 ∧
      get_universal 4 0xABCD 2 ≤ ubound_for_width 4 ∧
      (4 < 8 → 0 ≤ get_universal 4 0xABCD 2 ∧ lbound_for_width 4 = 0) :=
  getUniversal_within_bounds 4 0xABCD 2 (by decide)

/-- C3: tag/ref round trip.  `make_tagged i` succeeds exactly on `i < 2^63`
(`REALM_ASSERT` precondition), and the result is tagged and decodes back to
`i`; `make_ref r` on an (even-valued, per the data model) reference `r` is a
ref and decodes back to `r`; the least significant bit of the stored
pattern is the discriminant: 0 means reference, 1 means tagged integer. -/
theorem refOrTagged_round_trip :
    (∀ i : Nat, i < 2 ^ 63 →
      ∃ rt : RefOrTagged, RefOrTagged.make_tagged i = some rt ∧
        rt.is_tagged = true ∧ rt.get_as_int = i) ∧
    (∀ i : Nat, 2 ^ 63 ≤ i → RefOrTagged.make_tagged i = none) ∧
    (∀ r : Nat, ∀ h : r < 2 ^ 64, r % 2 = 0 →
      (RefOrTagged.make_ref r h).is_ref = true ∧
        (RefOrTagged.make_ref r h).get_as_ref = r) ∧
    (∀ rt : RefOrTagged,
      (rt.is_ref = true ↔ rt.m_value % 2 = 0) ∧
        (rt.is_tagged = true ↔ rt.m_value % 2 = 1)) := by
  refine ⟨?_, ?_, ?_, ?_⟩
  · intro i hi
    have hsh : i <<< 1 = 2 * i := by
      rw [Nat.shiftLeft_eq]
      ring
    have hlt : 2 * i < 2 ^ 64 := by
      have : (2 : Nat) ^ 64 = 2 * 2 ^ 63 := by norm_num
      omega
    have hmod : (i <<< 1) % 2 ^ 64 = 2 * i := by
      rw [hsh, Nat.mod_eq_of_lt hlt]
    have hor : 2 * i ||| 1 = 2 * i + 1 := by
      have := Nat.mul_add_lt_is_or (i := 1) (b := 1) (by norm_num) i
      simpa [Nat.pow_one, Nat.mul_comm] using this.symm
    refine ⟨⟨((i <<< 1) % 2 ^ 64) ||| 1, ?_⟩, ?_, ?_, ?_⟩
    · have h2 : (i <<< 1) % 2 ^ 64 < 2 ^ 64 := Nat.mod_lt _ (by norm_num)
      exact Nat.or_lt_two_pow h2 (by norm_num)
    · rw [RefOrTagged.make_tagged, dif_pos hi]
    · show (!(((i <<< 1) % 2 ^ 64 ||| 1) &&& 1 == 0)) = true
      rw [hmod, hor]
      have h21 : (2 * i + 1) &&& 1 = (2 * i + 1) % 2 := Nat.and_one_is_mod _
      have h22 : (2 * i + 1) % 2 = 1 := by omega
      rw [h21, h22]
      rfl
    · show ((((i <<< 1) % 2 ^ 64 ||| 1) &&& 0xFFFFFFFFFFFFFFFF) >>> 1) = i
      rw [hmod, hor]
      have hsmall : 2 * i + 1 < 2 ^ 64 := by
        have : (2 : Nat) ^ 64 = 2 * 2 ^ 63 := by norm_num
        omega
      have hand : (2 * i + 1) &&& 0xFFFFFFFFFFFFFFFF = 2 * i + 1 := by
        have : (0xFFFFFFFFFFFFFFFF : Nat) = 2 ^ 64 - 1 := by norm_num
        rw [this]
        exact Nat.and_pow_two_sub_one_of_lt_two_pow hsmall
      rw [hand, Nat.shiftRight_succ, Nat.shiftRight_zero]
      omega
  · intro i hi
    rw [RefOrTagged.make_tagged, dif_neg (by omega)]
  · intro r h hr
    constructor
    · show (r &&& 1 == 0) = true
      rw [Nat.and_one_is_mod, hr]
      rfl
    · rfl
  · intro rt
    constructor
    · show (rt.m_value &&& 1 == 0) = true ↔ rt.m_value % 2 = 0
      rw [Nat.and_one_is_mod]
      simp
    · show (!(rt.m_value &&& 1 == 0)) = true ↔ rt.m_value % 2 = 1
      rw [Nat.and_one_is_mod]
      simp


/-- C3 witness: the round-trip theorem applied at the concrete inputs
`i = 5` (tagged), `i = 2^63` (precondition violation) and `r = 8`. -/
theorem refOrTagged_round_trip_witness :
    (∃ rt : RefOrTagged, RefOrTagged.make_tagged 5 = some rt ∧
      rt.is_tagged = true ∧ rt.get_as_int = 5) ∧
    RefOrTagged.make_tagged (2 ^ 63) = none ∧
    (RefOrTagged.make_ref 8 (by norm_num)).is_ref = true ∧
    (RefOrTagged.make_ref 8 (by norm_num)).get_as_ref = 8 :=
  ⟨refOrTagged_round_trip.1 5 (by norm_num),
    refOrTagged_round_trip.2.1 (2 ^ 63) le_rfl,
    (refOrTagged_round_trip.2.2.1 8 (by norm_num) (by norm_num)).1,
    (refOrTagged_round_trip.2.2.1 8 (by norm_num) (by norm_num)).2⟩

/-- C9: `find_action_pattern` returns `false` for every index, pattern and
query state, so a pattern chunk offered during a scan is never consumed and
every match is reported individually through `find_action`. -/
theorem findActionPattern_always_false :
    ∀ (σ : Type) (index pattern : Nat) (st : σ),
      find_action_pattern index pattern st = false :=
  fun _ _ _ _ => rfl

/-- C10: the ranged `erase(b, b)` on an empty range leaves the accessor
state (element count, elements/buffer, header) entirely unchanged. -/
theorem erase_empty_range_noop (st : Arr) (b : Nat) (_hb : b ≤ st.m_size) :
    st.erase b b = st := by
  unfold Arr.erase
  simp

/-- C10 witness: the empty-range erase theorem at a concrete accessor. -/
theorem erase_empty_range_noop_witness :
    Arr.erase ⟨8, 3, 0x030201, -0x80, 0x7F⟩ 2 2 = ⟨8, 3, 0x030201, -0x80, 0x7F⟩ :=
  erase_empty_range_noop ⟨8, 3, 0x030201, -0x80, 0x7F⟩ 2 (by norm_num)

/-- C7: when `only_if_modified` is set and the allocator classifies the
array's reference as read-only (already persisted), `write` writes nothing
to the output writer and returns the existing reference, regardless of the
`deep` flag and of whatever the shallow/deep writers would do. -/
theorem write_read_only_noop (ro : Nat → Bool) (st : NodeState)
    (dws : List Nat → Nat × List Nat) (dwd : Bool → List Nat → Nat × List Nat)
    (deep : Bool) (out : List Nat) (hro : ro st.m_ref = true) :
    Array.write ro st dws dwd deep true out = (st.m_ref, out) := by
  unfold Array.write
  rw [hro]
  simp

/-- C7 witness: the read-only early return at a concrete state, for both
values of `deep`. -/
theorem write_read_only_noop_witness :
    Array.write (fun _ => true) ⟨true, 16, true⟩ (fun o => (0, o ++ [1]))
        (fun _ o => (0, o ++ [2])) true true [7] = (16, [7]) ∧
      Array.write (fun _ => true) ⟨true, 16, true⟩ (fun o => (0, o ++ [1]))
        (fun _ o => (0, o ++ [2])) false true [7] = (16, [7]) :=
  ⟨write_read_only_noop (fun _ => true) ⟨true, 16, true⟩ _ _ true [7] rfl,
    write_read_only_noop (fun _ => true) ⟨true, 16, true⟩ _ _ false [7] rfl⟩

/-- C8: `destroy_deep` is idempotent: on an already-unattached accessor it
performs no allocator call and changes nothing, and a first call detaches
the accessor, so a second call returns immediately without freeing again
(whatever the child-destruction effect `dc` does). -/
theorem destroyDeep_idempotent (dc : List Nat → List Nat) (st : NodeState)
    (freeLog : List Nat) (hdetached : st.attached = false) :
    Array.destroy_deep dc st freeLog = (st, freeLog) ∧
      (∀ st0 : NodeState, ∀ log0 : List Nat,
        Array.destroy_deep dc (Array.destroy_deep dc st0 log0).1
            (Array.destroy_deep dc st0 log0).2 =
          ((Array.destroy_deep dc st0 log0).1, (Array.destroy_deep dc st0 log0).2)) := by
  constructor
  · unfold Array.destroy_deep
    rw [hdetached]
    simp
  · intro st0 log0
    by_cases h : st0.attached = false
    · simp [Array.destroy_deep, h]
    · rw [Bool.not_eq_false] at h
      simp [Array.destroy_deep, h]

/-- C8 witness: the idempotence theorem applied to a concrete detached
accessor. -/
theorem destroyDeep_idempotent_witness :
    Array.destroy_deep (fun l => l ++ [99]) ⟨false, 24, true⟩ [5] = (⟨false, 24, true⟩, [5]) :=
  (destroyDeep_idempotent (fun l => l ++ [99]) ⟨false, 24, true⟩ [5] rfl).1

/-! ### Element codec lemmas -/

theorem mod_pow_shiftRight (a m k : Nat) (hk : k ≤ m) :
    (a % 2 ^ m) >>> k = (a >>> k) % 2 ^ (m - k) := by
  rw [Nat.shiftRight_eq_div_pow, Nat.shiftRight_eq_div_pow]
  have h : (2 : Nat) ^ m = 2 ^ k * 2 ^ (m - k) := by
    rw [← pow_add]
    congr 1
    omega
  rw [h, Nat.mod_mul_right_div_self]

theorem byte_extract (data q r w m : Nat) (hr : r + w ≤ 8) (hm : m = 2 ^ w - 1) :
    (((data >>> (8 * q)) % 2 ^ 8) >>> r) &&& m =
      (data >>> (8 * q + r)) % 2 ^ w := by
  subst hm
  rw [Nat.and_pow_two_sub_one_eq_mod]
  rw [mod_pow_shiftRight _ 8 r (by omega)]
  rw [Nat.mod_mod_of_dvd _ (pow_dvd_pow 2 (by omega))]
  rw [← Nat.shiftRight_add]

/-- `get_universal` reads exactly the `w`-bit lane at bit offset `w * ndx`
of the packed stream, decoded unsigned below width 8 and two's complement
at width 8 and above. -/
theorem getUniversal_eq_decode (w data ndx : Nat) (hw : supportedWidth w) :
    get_universal w data ndx = decodeVal w (laneBits w data ndx) := by
  rcases hw with h | h | h | h | h | h | h | h <;> subst h
  · show (0 : Int) = decodeVal 0 (laneBits 0 data ndx)
    simp [decodeVal, laneBits]
  · show ((((data >>> (8 * (ndx >>> 3))) % 2 ^ 8) >>> (ndx % 8)) &&& 0x01 : Nat) =
      decodeVal 1 (laneBits 1 data ndx)
    have hb := byte_extract data (ndx >>> 3) (ndx % 8) 1 0x01 (by omega) (by norm_num)
    have harg : 8 * (ndx >>> 3) + ndx % 8 = 1 * ndx := by
      rw [Nat.shiftRight_eq_div_pow]
      omega
    rw [hb, harg]
    simp [decodeVal, laneBits]
  · show ((((data >>> (8 * (ndx >>> 2))) % 2 ^ 8) >>> ((ndx % 4) * 2)) &&& 0x03 : Nat) =
      decodeVal 2 (laneBits 2 data ndx)
    have hb := byte_extract data (ndx >>> 2) ((ndx % 4) * 2) 2 0x03 (by omega) (by norm_num)
    have harg : 8 * (ndx >>> 2) + (ndx % 4) * 2 = 2 * ndx := by
      rw [Nat.shiftRight_eq_div_pow]
      omega
    rw [hb, harg]
    simp [decodeVal, laneBits]
  · show ((((data >>> (8 * (ndx >>> 1))) % 2 ^ 8) >>> ((ndx % 2) * 4)) &&& 0x0F : Nat) =
      decodeVal 4 (laneBits 4 data ndx)
    have hb := byte_extract data (ndx >>> 1) ((ndx % 2) * 4) 4 0x0F (by omega) (by norm_num)
    have harg : 8 * (ndx >>> 1) + (ndx % 2) * 4 = 4 * ndx := by
      rw [Nat.shiftRight_eq_div_pow]
      omega
    rw [hb, harg]
    simp [decodeVal, laneBits]
  · show signedOfBits 8 ((data >>> (8 * ndx)) % 2 ^ 8) = decodeVal 8 (laneBits 8 data ndx)
    simp [decodeVal, laneBits]
  · show signedOfBits 16 ((data >>> (8 * (ndx * 2))) % 2 ^ 16) =
      decodeVal 16 (laneBits 16 data ndx)
    have harg : 8 * (ndx * 2) = 16 * ndx := by ring
    rw [harg]
    simp [decodeVal, laneBits]
  · show signedOfBits 32 ((data >>> (8 * (ndx * 4))) % 2 ^ 32) =
      decodeVal 32 (laneBits 32 data ndx)
    have harg : 8 * (ndx * 4) = 32 * ndx := by ring
    rw [harg]
    simp [decodeVal, laneBits]
  · show signedOfBits 64 ((data >>> (8 * (ndx * 8))) % 2 ^ 64) =
      decodeVal 64 (laneBits 64 data ndx)
    have harg : 8 * (ndx * 8) = 64 * ndx := by ring
    rw [harg]
    simp [decodeVal, laneBits]

theorem encodeBits_lt (w : Nat) (v : Int) : encodeBits w v < 2 ^ w := by
  unfold encodeBits
  have h1 : (0 : Int) < 2 ^ w := by positivity
  have h2 := Int.emod_nonneg v (by omega : (2 : Int) ^ w ≠ 0)
  have h3 := Int.emod_lt_of_pos v h1
  have hc : ((2 ^ w : Nat) : Int) = (2 : Int) ^ w := by push_cast; rfl
  omega

/-- Writing with `setW` stores exactly the encoded pattern in the target
lane. -/
theorem laneBits_setW_self (w data ndx : Nat) (v : Int) :
    laneBits w (setW w data ndx v) ndx = encodeBits w v := by
  unfold laneBits setW
  have hpos : 0 < 2 ^ (w * ndx) := Nat.pos_pow_of_pos _ (by norm_num)
  rw [Nat.shiftRight_eq_div_pow]
  rw [Nat.add_mul_div_left _ _ hpos]
  rw [Nat.div_eq_of_lt (Nat.mod_lt _ hpos)]
  rw [Nat.zero_add]
  rw [Nat.add_mul_mod_self_left]
  exact Nat.mod_eq_of_lt (encodeBits_lt w v)

theorem lbound_eq_big {w : Nat} (hw : supportedWidth w) (h8 : 8 ≤ w) :
    lbound_for_width w = -(2 ^ (w - 1) : Int) := by
  rcases hw with h | h | h | h | h | h | h | h <;> subst h <;> first
  | omega
  | norm_num [lbound_for_width]

theorem ubound_eq_big {w : Nat} (hw : supportedWidth w) (h8 : 8 ≤ w) :
    ubound_for_width w = (2 ^ (w - 1) : Int) - 1 := by
  rcases hw with h | h | h | h | h | h | h | h <;> subst h <;> first
  | omega
  | norm_num [ubound_for_width]

theorem lbound_eq_small {w : Nat} (hw : supportedWidth w) (h8 : w < 8) :
    lbound_for_width w = 0 := by
  rcases hw with h | h | h | h | h | h | h | h <;> subst h <;> first
  | omega
  | norm_num [lbound_for_width]

theorem ubound_eq_small {w : Nat} (hw : supportedWidth w) (h8 : w < 8) :
    ubound_for_width w = (2 ^ w : Int) - 1 := by
  rcases hw with h | h | h | h | h | h | h | h <;> subst h <;> first
  | omega
  | norm_num [ubound_for_width]

/-- Decoding the two's-complement encoding of an in-range value gives back
the value. -/
theorem decode_encode {w : Nat} (v : Int) (hw : supportedWidth w)
    (h1 : lbound_for_width w ≤ v) (h2 : v ≤ ubound_for_width w) :
    decodeVal w (encodeBits w v) = v := by
  by_cases h8 : 8 ≤ w
  · rw [lbound_eq_big hw h8] at h1
    rw [ubound_eq_big hw h8] at h2
    have hsplit : (2 : Int) ^ w = 2 ^ (w - 1) * 2 := by
      rw [← pow_succ]
      congr 1
      omega
    have hcast : ((2 ^ (w - 1) : Nat) : Int) = (2 : Int) ^ (w - 1) := by push_cast; rfl
    have hple : (1 : Int) ≤ 2 ^ (w - 1) := one_le_pow₀ (by norm_num)
    unfold decodeVal
    rw [if_neg (by omega)]
    by_cases hv : 0 ≤ v
    · have hemod : v % ((2 : Int) ^ w) = v := Int.emod_eq_of_lt hv (by omega)
      unfold encodeBits signedOfBits
      rw [hemod]
      rw [if_pos (by omega)]
      omega
    · push_neg at hv
      have hemod : v % ((2 : Int) ^ w) = v + 2 ^ w := by
        have hstep : (v + 2 ^ w * 1) % ((2 : Int) ^ w) = v % ((2 : Int) ^ w) :=
          Int.add_mul_emod_self_left v (2 ^ w) 1
        have heq : v + 2 ^ w * 1 = v + 2 ^ w := by ring
        rw [heq] at hstep
        rw [← hstep]
        exact Int.emod_eq_of_lt (by omega) (by omega)
      unfold encodeBits signedOfBits
      rw [hemod]
      rw [if_neg (by omega)]
      rw [hsplit] at hemod
      omega
  · push_neg at h8
    rw [lbound_eq_small hw h8] at h1
    rw [ubound_eq_small hw h8] at h2
    have hemod : v % ((2 : Int) ^ w) = v := Int.emod_eq_of_lt h1 (by omega)
    unfold decodeVal encodeBits
    rw [if_pos h8, hemod]
    omega

/-- C2: round trip.  For every supported width `w` and every value `v` with
`lower_bound(w) ≤ v ≤ upper_bound(w)`, writing `v` at index `i` with the
width-`w` setter and reading it back with `get_universal<w>` returns `v`. -/
theorem set_get_round_trip (w data ndx : Nat) (v : Int) (hw : supportedWidth w)
    (h1 : lbound_for_width w ≤ v) (h2 : v ≤ ubound_for_width w) :
    get_universal w (setW w data ndx v) ndx = v := by
  rw [getUniversal_eq_decode w (setW w data ndx v) ndx hw]
  rw [laneBits_setW_self]
  exact decode_encode v hw h1 h2

/-- C2 witness: the round trip at width 8, index 1, value `-3`. -/
theorem set_get_round_trip_witness :
    get_universal 8 (setW 8 0xFFFF 1 (-3)) 1 = -3 :=
  set_get_round_trip 8 0xFFFF 1 (-3) (by decide)
    (by norm_num [lbound_for_width]) (by norm_num [ubound_for_width])

/-! ### Width-growth (`ensure_minimum_width`) -/

theorem headD_filter_le {p : Nat → Bool} :
    ∀ l : List Nat, l.Sorted (· ≤ ·) → ∀ w2 ∈ l, p w2 = true →
      ∀ d : Nat, (l.filter p).headD d ≤ w2 := by
  intro l
  induction l with
  | nil => intro _ w2 hmem
           cases hmem
  | cons a t ih =>
    intro hs w2 hmem hp d
    rw [List.sorted_cons] at hs
    by_cases hpa : p a = true
    · rw [List.filter_cons_of_pos hpa]
      show a ≤ w2
      rcases List.mem_cons.mp hmem with h | h
      · omega
      · exact hs.1 w2 h
    · rw [List.filter_cons_of_neg hpa]
      rcases List.mem_cons.mp hmem with h | h
      · rw [h] at hp
        exact absurd hp hpa
      · exact ih hs.2 w2 h hp d

theorem mem_widthCandidates_supported : ∀ w ∈ widthCandidates, supportedWidth w := by
  decide

theorem widthCandidates_sorted : widthCandidates.Sorted (· ≤ ·) := by
  decide

theorem lbound_ge_min64 {w : Nat} (hw : supportedWidth w) :
    lbound_for_width 64 ≤ lbound_for_width w := by
  rcases hw with h | h | h | h | h | h | h | h <;> subst h <;>
    norm_num [lbound_for_width]

theorem ubound_le_max64 {w : Nat} (hw : supportedWidth w) :
    ubound_for_width w ≤ ubound_for_width 64 := by
  rcases hw with h | h | h | h | h | h | h | h <;> subst h <;>
    norm_num [ubound_for_width]

theorem fitsWidth64 {lo hi v : Int} (hlo : lbound_for_width 64 ≤ lo)
    (hhi : hi ≤ ubound_for_width 64) (hv1 : lbound_for_width 64 ≤ v)
    (hv2 : v ≤ ubound_for_width 64) : fitsWidth 64 lo hi v = true := by
  unfold fitsWidth
  exact decide_eq_true ⟨hlo, hhi, hv1, hv2⟩

/-- The smallest fitting width fits and is minimal among the supported
widths that fit, provided some supported width fits at all. -/
theorem smallestFittingWidth_spec (lo hi v : Int)
    (h64 : fitsWidth 64 lo hi v = true) :
    fitsWidth (smallestFittingWidth lo hi v) lo hi v = true ∧
      supportedWidth (smallestFittingWidth lo hi v) ∧
      ∀ w2, supportedWidth w2 → fitsWidth w2 lo hi v = true →
        smallestFittingWidth lo hi v ≤ w2 := by
  have hmem64 : (64 : Nat) ∈ widthCandidates.filter (fun w => fitsWidth w lo hi v) :=
    List.mem_filter.mpr ⟨by decide, h64⟩
  have hne : widthCandidates.filter (fun w => fitsWidth w lo hi v) ≠ [] :=
    List.ne_nil_of_mem hmem64
  refine ⟨?_, ?_, ?_⟩
  · unfold smallestFittingWidth
    rcases hh : widthCandidates.filter (fun w => fitsWidth w lo hi v) with _ | ⟨a, t⟩
    · exact absurd hh hne
    · have ha : a ∈ widthCandidates.filter (fun w => fitsWidth w lo hi v) := by
        rw [hh]
        exact List.mem_cons_self a t
      exact (List.mem_filter.mp ha).2
  · unfold smallestFittingWidth
    rcases hh : widthCandidates.filter (fun w => fitsWidth w lo hi v) with _ | ⟨a, t⟩
    · exact absurd hh hne
    · have ha : a ∈ widthCandidates.filter (fun w => fitsWidth w lo hi v) := by
        rw [hh]
        exact List.mem_cons_self a t
      exact mem_widthCandidates_supported a (List.mem_filter.mp ha).1
  · intro w2 hw2 hfit
    have hw2mem : w2 ∈ widthCandidates := by
      rcases hw2 with h | h | h | h | h | h | h | h <;> subst h <;> decide
    exact headD_filter_le widthCandidates widthCandidates_sorted w2 hw2mem hfit 64

/-- C5: `ensure_minimum_width(value)` is a no-op (accessor and buffer
entirely unchanged) when `m_lbound ≤ value ≤ m_ubound` already holds;
otherwise it re-encodes the array at the smallest supported width fitting
both the existing representable bounds and the new value (stated with the
accessor width-cache invariant and `value` in the `int64_t` range). -/
theorem ensureMinimumWidth_correct (st : Arr) (value : Int)
    (hwf : supportedWidth st.m_width ∧
      st.m_lbound = lbound_for_width st.m_width ∧
      st.m_ubound = ubound_for_width st.m_width)
    (hv : lbound_for_width 64 ≤ value ∧ value ≤ ubound_for_width 64) :
    (st.m_lbound ≤ value ∧ value ≤ st.m_ubound →
      st.ensure_minimum_width value = st) ∧
    (¬(st.m_lbound ≤ value ∧ value ≤ st.m_ubound) →
      (st.ensure_minimum_width value).m_width =
          smallestFittingWidth st.m_lbound st.m_ubound value ∧
        fitsWidth (st.ensure_minimum_width value).m_width
            st.m_lbound st.m_ubound value = true ∧
        supportedWidth (st.ensure_minimum_width value).m_width ∧
        (st.ensure_minimum_width value).m_size = st.m_size ∧
        ∀ w2, supportedWidth w2 → fitsWidth w2 st.m_lbound st.m_ubound value = true →
          (st.ensure_minimum_width value).m_width ≤ w2) := by
  have h64 : fitsWidth 64 st.m_lbound st.m_ubound value = true := by
    apply fitsWidth64
    · rw [hwf.2.1]
      exact lbound_ge_min64 hwf.1
    · rw [hwf.2.2]
      exact ubound_le_max64 hwf.1
    · exact hv.1
    · exact hv.2
  have hspec := smallestFittingWidth_spec st.m_lbound st.m_ubound value h64
  constructor
  · intro hfits
    unfold Arr.ensure_minimum_width
    rw [if_pos hfits]
  · intro hnofit
    unfold Arr.ensure_minimum_width
    rw [if_neg hnofit]
    refine ⟨rfl, hspec.1, hspec.2.1, rfl, hspec.2.2⟩

/-- C5 witness: the theorem at a width-1 accessor: value 1 already fits
(no-op); value 2 forces the minimal upgrade to width 2. -/
theorem ensureMinimumWidth_correct_witness :
    (Arr.ensure_minimum_width ⟨1, 2, 0x3, 0, 1⟩ 1 = ⟨1, 2, 0x3, 0, 1⟩) ∧
      (Arr.ensure_minimum_width ⟨1, 2, 0x3, 0, 1⟩ 2).m_width = 2 := by
  constructor
  · exact (ensureMinimumWidth_correct ⟨1, 2, 0x3, 0, 1⟩ 1
      ⟨by decide, by norm_num [lbound_for_width], by norm_num [ubound_for_width]⟩
      ⟨by norm_num [lbound_for_width], by norm_num [ubound_for_width]⟩).1
      ⟨by norm_num, by norm_num⟩
  · have h := (ensureMinimumWidth_correct ⟨1, 2, 0x3, 0, 1⟩ 2
      ⟨by decide, by norm_num [lbound_for_width], by norm_num [ubound_for_width]⟩
      ⟨by norm_num [lbound_for_width], by norm_num [ubound_for_width]⟩).2
      (by norm_num)
    rw [h.1]
    decide

/-! ### Lane/concatenation infrastructure -/

theorem testBit_concat {t a : Nat} (r : Nat) (ha : a < 2 ^ t) (i : Nat) :
    (a + 2 ^ t * r).testBit i = if i < t then a.testBit i else r.testBit (i - t) := by
  rw [Nat.add_comm a (2 ^ t * r)]
  exact Nat.testBit_mul_pow_two_add r ha i

theorem concat_land {t a b : Nat} (r s : Nat) (ha : a < 2 ^ t) (hb : b < 2 ^ t) :
    (a + 2 ^ t * r) &&& (b + 2 ^ t * s) = (a &&& b) + 2 ^ t * (r &&& s) := by
  apply Nat.eq_of_testBit_eq
  intro i
  rw [Nat.testBit_and, testBit_concat r ha i, testBit_concat s hb i,
    testBit_concat (r &&& s) (Nat.and_lt_two_pow a hb) i, Nat.testBit_and,
    Nat.testBit_and]
  by_cases h : i < t <;> simp [h]

theorem concat_lor {t a b : Nat} (r s : Nat) (ha : a < 2 ^ t) (hb : b < 2 ^ t) :
    (a + 2 ^ t * r) ||| (b + 2 ^ t * s) = (a ||| b) + 2 ^ t * (r ||| s) := by
  apply Nat.eq_of_testBit_eq
  intro i
  rw [Nat.testBit_or, testBit_concat r ha i, testBit_concat s hb i,
    testBit_concat (r ||| s) (Nat.or_lt_two_pow ha hb) i, Nat.testBit_or,
    Nat.testBit_or]
  by_cases h : i < t <;> simp [h]

theorem concat_xor {t a b : Nat} (r s : Nat) (ha : a < 2 ^ t) (hb : b < 2 ^ t) :
    (a + 2 ^ t * r) ^^^ (b + 2 ^ t * s) = (a ^^^ b) + 2 ^ t * (r ^^^ s) := by
  apply Nat.eq_of_testBit_eq
  intro i
  rw [Nat.testBit_xor, testBit_concat r ha i, testBit_concat s hb i,
    testBit_concat (r ^^^ s) (Nat.xor_lt_two_pow ha hb) i, Nat.testBit_xor,
    Nat.testBit_xor]
  by_cases h : i < t <;> simp [h]

theorem lane_decomp (w v : Nat) : v = v % 2 ^ w + 2 ^ w * (v >>> w) := by
  rw [Nat.shiftRight_eq_div_pow]
  exact (Nat.mod_add_div v (2 ^ w)).symm

theorem laneBits_lt (w data ndx : Nat) : laneBits w data ndx < 2 ^ w :=
  Nat.mod_lt _ (Nat.pos_pow_of_pos _ (by norm_num))

theorem laneBits_zero_concat {w a : Nat} (r : Nat) (ha : a < 2 ^ w) :
    laneBits w (a + 2 ^ w * r) 0 = a := by
  unfold laneBits
  rw [Nat.mul_zero, Nat.shiftRight_zero, Nat.add_mul_mod_self_left,
    Nat.mod_eq_of_lt ha]

theorem laneBits_succ_concat {w a : Nat} (r : Nat) (ha : a < 2 ^ w) (j : Nat) :
    laneBits w (a + 2 ^ w * r) (j + 1) = laneBits w r j := by
  unfold laneBits
  rw [Nat.shiftRight_eq_div_pow, Nat.shiftRight_eq_div_pow]
  have h1 : (2 : Nat) ^ (w * (j + 1)) = 2 ^ w * 2 ^ (w * j) := by
    rw [← pow_add]
    congr 1
    ring
  rw [h1, ← Nat.div_div_eq_div_mul]
  congr 2
  rw [Nat.add_mul_div_left _ _ (Nat.pos_pow_of_pos w (by norm_num))]
  rw [Nat.div_eq_of_lt ha]
  omega

theorem laneBits_shiftRight (w v j k : Nat) :
    laneBits w (v >>> (w * k)) j = laneBits w v (k + j) := by
  unfold laneBits
  rw [← Nat.shiftRight_add]
  congr 2
  ring

theorem laneBits_of_lt {w v : Nat} (j : Nat) (hv : v < 2 ^ (w * j)) :
    ∀ i, j ≤ i → laneBits w v i = 0 := by
  intro i hi
  unfold laneBits
  have h1 : v < 2 ^ (w * i) :=
    lt_of_lt_of_le hv (Nat.pow_le_pow_right (by norm_num) (Nat.mul_le_mul_left w hi))
  rw [Nat.shiftRight_eq_div_pow, Nat.div_eq_of_lt h1]
  simp

theorem repN_lt {w x : Nat} (hx : x < 2 ^ w) : ∀ k, repN w k x < 2 ^ (w * k) := by
  intro k
  induction k with
  | zero => simp [repN]
  | succ k ih =>
    show x + 2 ^ w * repN w k x < 2 ^ (w * (k + 1))
    have h1 : (2 : Nat) ^ (w * (k + 1)) = 2 ^ w * 2 ^ (w * k) := by
      rw [← pow_add]
      congr 1
      ring
    have h2 : repN w k x ≤ 2 ^ (w * k) - 1 := by omega
    have h3 := Nat.mul_le_mul_left (2 ^ w) h2
    have h4 : 2 ^ w * (2 ^ (w * k) - 1) + 2 ^ w = 2 ^ w * 2 ^ (w * k) := by
      rw [← Nat.mul_succ]
      congr 1
      have : (1 : Nat) ≤ 2 ^ (w * k) := Nat.one_le_two_pow
      omega
    omega

theorem laneBits_repN {w x : Nat} (hx : x < 2 ^ w) :
    ∀ k j, j < k → laneBits w (repN w k x) j = x := by
  intro k
  induction k with
  | zero => omega
  | succ k ih =>
    intro j hj
    show laneBits w (x + 2 ^ w * repN w k x) j = x
    match j with
    | 0 => exact laneBits_zero_concat _ hx
    | j + 1 =>
      rw [laneBits_succ_concat _ hx]
      exact ih j (by omega)

theorem repN_mul {w x : Nat} (hx : x < 2 ^ w) (k : Nat) :
    repN w k 1 * x = repN w k x := by
  induction k with
  | zero => simp [repN]
  | succ k ih =>
    show (1 + 2 ^ w * repN w k 1) * x = x + 2 ^ w * repN w k x
    rw [Nat.add_mul, Nat.one_mul, Nat.mul_assoc, ih]

theorem and_single_bit (x i : Nat) :
    x &&& 2 ^ i = if x.testBit i then 2 ^ i else 0 := by
  apply Nat.eq_of_testBit_eq
  intro j
  rw [Nat.testBit_and]
  by_cases hji : j = i
  · subst hji
    cases h : x.testBit j
    · simp [h]
    · simp [h, Nat.testBit_two_pow_self]
  · rw [Nat.testBit_two_pow_of_ne (fun hh => hji hh.symm)]
    cases h : x.testBit i
    · simp [h, hji]
    · simp [h, Nat.testBit_two_pow_of_ne (fun hh => hji hh.symm)]

theorem testBit_msb_iff {w x : Nat} (hw : 1 ≤ w) (hx : x < 2 ^ w) :
    x.testBit (w - 1) = true ↔ 2 ^ (w - 1) ≤ x := by
  rw [Nat.testBit_to_div_mod, decide_eq_true_eq]
  have h2 : (2 : Nat) ^ w = 2 ^ (w - 1) * 2 := by
    rw [← pow_succ]
    congr 1
    omega
  have h4 : 0 < 2 ^ (w - 1) := Nat.pos_pow_of_pos _ (by norm_num)
  have hq2 : x / 2 ^ (w - 1) < 2 := by
    rw [Nat.div_lt_iff_lt_mul h4]
    omega
  have hq01 : x / 2 ^ (w - 1) = 0 ∨ x / 2 ^ (w - 1) = 1 := by
    rcases Nat.lt_succ_iff_lt_or_eq.mp hq2 with h | h
    · left
      exact Nat.lt_one_iff.mp h
    · right
      exact h
  constructor
  · intro h
    rcases hq01 with h0 | h1
    · rw [h0] at h
      simp at h
    · have h6 := (Nat.le_div_iff_mul_le h4).mp (le_of_eq h1.symm)
      omega
  · intro h
    have h5 : 1 ≤ x / 2 ^ (w - 1) := (Nat.le_div_iff_mul_le h4).mpr (by omega)
    have h6 : x / 2 ^ (w - 1) = 1 := by omega
    rw [h6]

/-! ### Exactness of the has-zero-lane bit trick -/

theorem mul_sub_distrib (A x y : Nat) (h : y ≤ x) : A * (x - y) = A * x - A * y := by
  have h1 : (x - y) + y = x := Nat.sub_add_cancel h
  have h2 : A * (x - y) + A * y = A * x := by
    rw [← Nat.mul_add, h1]
  omega

theorem mod_split_helper {A B : Nat} (c y : Nat) (hc : c < A) (hB : 0 < B) :
    (c + A * y) % (A * B) = c + A * (y % B) := by
  have hy := Nat.div_add_mod y B
  have h1 : c + A * y = (c + A * (y % B)) + (A * B) * (y / B) := by
    have h2 : A * y = A * (B * (y / B) + y % B) := by rw [hy]
    have h3 : A * (B * (y / B) + y % B) = A * (y % B) + (A * B) * (y / B) := by ring
    omega
  rw [h1, Nat.add_mul_mod_self_left]
  apply Nat.mod_eq_of_lt
  have h4 : y % B < B := Nat.mod_lt _ hB
  have h5 : y % B ≤ B - 1 := by omega
  have h6 := Nat.mul_le_mul_left A h5
  have h7 : A * (B - 1) = A * B - A := by
    rw [mul_sub_distrib A B 1 (by omega), Nat.mul_one]
  have hA : 0 < A := by omega
  have h8 : A ≤ A * B := Nat.le_mul_of_pos_right A hB
  omega

theorem xor_allones {n v : Nat} (hv : v < 2 ^ n) :
    (2 ^ n - 1) ^^^ v = 2 ^ n - 1 - v := by
  apply Nat.eq_of_testBit_eq
  intro i
  rw [Nat.testBit_xor, Nat.testBit_two_pow_sub_one]
  have h1 : 2 ^ n - 1 - v = 2 ^ n - (v + 1) := by omega
  rw [h1, Nat.testBit_two_pow_sub_succ hv]
  by_cases h : i < n
  · simp [h]
  · simp [h]
    exact Nat.testBit_lt_two_pow
      (lt_of_lt_of_le hv (Nat.pow_le_pow_right (by norm_num) (by omega)))

theorem tzCore_ne_zero_iff (w : Nat) (hw : 1 ≤ w) :
    ∀ k, ∀ v, v < 2 ^ (w * k) →
      (tzCore w k v ≠ 0 ↔ ∃ j, j < k ∧ laneBits w v j = 0) := by
  intro k
  induction k with
  | zero =>
    intro v hv
    have hv0 : v = 0 := by
      have h1 : (2 : Nat) ^ (w * 0) = 1 := by norm_num
      omega
    subst hv0
    have htz : tzCore w 0 0 = 0 := by
      unfold tzCore repN
      norm_num
    rw [htz]
    constructor
    · intro h
      exact absurd rfl h
    · rintro ⟨j, hj, _⟩
      omega
  | succ k ih =>
    intro v hv
    have hA1 : (1 : Nat) < 2 ^ w := by
      calc (1 : Nat) < 2 ^ 1 := by norm_num
      _ ≤ 2 ^ w := Nat.pow_le_pow_right (by norm_num) hw
    have hApos : (0 : Nat) < 2 ^ w := by omega
    have hBpos : (0 : Nat) < 2 ^ (w * k) := Nat.pos_pow_of_pos _ (by norm_num)
    have hAB : (2 : Nat) ^ (w * (k + 1)) = 2 ^ w * 2 ^ (w * k) := by
      rw [← pow_add]
      congr 1
      ring
    obtain ⟨a, r, hva, ha, hr⟩ :
        ∃ a r, v = a + 2 ^ w * r ∧ a < 2 ^ w ∧ r < 2 ^ (w * k) := by
      refine ⟨v % 2 ^ w, v / 2 ^ w, ?_, Nat.mod_lt _ hApos, ?_⟩
      · have := Nat.mod_add_div v (2 ^ w)
        omega
      · rw [Nat.div_lt_iff_lt_mul hApos]
        rw [hAB] at hv
        calc v < 2 ^ w * 2 ^ (w * k) := hv
        _ = 2 ^ (w * k) * 2 ^ w := by ring
    subst hva
    have hrep_lt : repN w k 1 < 2 ^ (w * k) := repN_lt hA1 k
    have hu_lt : (2 : Nat) ^ (w - 1) < 2 ^ w :=
      Nat.pow_lt_pow_right (by norm_num) (by omega)
    have hcP : 2 ^ w * r + 2 ^ w ≤ 2 ^ (w * (k + 1)) := by
      have h3 : r + 1 ≤ 2 ^ (w * k) := hr
      have h4 := Nat.mul_le_mul_left (2 ^ w) h3
      rw [Nat.mul_add, Nat.mul_one, ← hAB] at h4
      exact h4
    have hcrepP : 2 ^ w * repN w k 1 + 2 ^ w ≤ 2 ^ (w * (k + 1)) := by
      have h3 : repN w k 1 + 1 ≤ 2 ^ (w * k) := hrep_lt
      have h4 := Nat.mul_le_mul_left (2 ^ w) h3
      rw [Nat.mul_add, Nat.mul_one, ← hAB] at h4
      exact h4
    have hlane0 : laneBits w (a + 2 ^ w * r) 0 = a := laneBits_zero_concat r ha
    have hlanesucc : ∀ j, laneBits w (a + 2 ^ w * r) (j + 1) = laneBits w r j :=
      fun j => laneBits_succ_concat r ha j
    have hcomp : (2 ^ (w * (k + 1)) - 1) ^^^ (a + 2 ^ w * r) =
        (2 ^ w - 1 - a) + 2 ^ w * ((2 ^ (w * k) - 1) ^^^ r) := by
      rw [xor_allones hv, xor_allones hr]
      have h1 : 2 ^ w * (2 ^ (w * k) - 1 - r) =
          2 ^ (w * (k + 1)) - 2 ^ w - 2 ^ w * r := by
        rw [mul_sub_distrib (2 ^ w) (2 ^ (w * k) - 1) r (by omega),
          mul_sub_distrib (2 ^ w) (2 ^ (w * k)) 1 (by omega),
          Nat.mul_one, ← hAB]
      omega
    have hupper : repN w (k + 1) (2 ^ (w - 1)) =
        2 ^ (w - 1) + 2 ^ w * repN w k (2 ^ (w - 1)) := rfl
    have hrep1 : repN w (k + 1) 1 = 1 + 2 ^ w * repN w k 1 := rfl
    by_cases ha0 : a = 0
    · -- lane 0 is zero: the low lane of the AND has the MSB set
      have hsub : (a + 2 ^ w * r + 2 ^ (w * (k + 1)) - repN w (k + 1) 1) % 2 ^ (w * (k + 1)) =
          (2 ^ w - 1) + 2 ^ w * ((r + 2 ^ (w * k) - 1 - repN w k 1) % 2 ^ (w * k)) := by
        have h2 : 2 ^ w * (r + 2 ^ (w * k) - 1 - repN w k 1) =
            2 ^ w * r + 2 ^ (w * (k + 1)) - 2 ^ w - 2 ^ w * repN w k 1 := by
          rw [mul_sub_distrib (2 ^ w) (r + 2 ^ (w * k) - 1) (repN w k 1) (by omega),
            mul_sub_distrib (2 ^ w) (r + 2 ^ (w * k)) 1 (by omega),
            Nat.mul_add, Nat.mul_one, ← hAB]
        have h1 : a + 2 ^ w * r + 2 ^ (w * (k + 1)) - repN w (k + 1) 1 =
            (2 ^ w - 1) + 2 ^ w * (r + 2 ^ (w * k) - 1 - repN w k 1) := by
          rw [hrep1, h2]
          omega
        rw [h1, hAB, mod_split_helper _ _ (by omega) hBpos]
      have hbit : (2 ^ w - 1).testBit (w - 1) = true := by
        rw [Nat.testBit_two_pow_sub_one]
        simp
        omega
      have hlow0 : (2 ^ w - 1) &&& (2 ^ w - 1 - a) &&& 2 ^ (w - 1) = 2 ^ (w - 1) := by
        rw [ha0, Nat.sub_zero, Nat.and_self, and_single_bit, if_pos hbit]
      have htz : tzCore w (k + 1) (a + 2 ^ w * r) =
          2 ^ (w - 1) + 2 ^ w *
            (((r + 2 ^ (w * k) - 1 - repN w k 1) % 2 ^ (w * k)) &&&
              ((2 ^ (w * k) - 1) ^^^ r) &&& repN w k (2 ^ (w - 1))) := by
        unfold tzCore
        rw [hsub, hcomp, hupper]
        rw [concat_land _ _ (by omega) (by omega)]
        rw [concat_land _ _ (Nat.and_lt_two_pow _ (by omega)) hu_lt]
        rw [hlow0]
      constructor
      · intro _
        exact ⟨0, by omega, by rw [hlane0, ha0]⟩
      · intro _
        rw [htz]
        have h9 : (0 : Nat) < 2 ^ (w - 1) := Nat.pos_pow_of_pos _ (by norm_num)
        omega
    · -- lane 0 non-zero: the AND splits into 0 + 2^w * (tzCore of the high lanes)
      have ha1 : 1 ≤ a := by omega
      have hsub : (a + 2 ^ w * r + 2 ^ (w * (k + 1)) - repN w (k + 1) 1) % 2 ^ (w * (k + 1)) =
          (a - 1) + 2 ^ w * ((r + 2 ^ (w * k) - repN w k 1) % 2 ^ (w * k)) := by
        have h2 : 2 ^ w * (r + 2 ^ (w * k) - repN w k 1) =
            2 ^ w * r + 2 ^ (w * (k + 1)) - 2 ^ w * repN w k 1 := by
          rw [mul_sub_distrib (2 ^ w) (r + 2 ^ (w * k)) (repN w k 1) (by omega),
            Nat.mul_add, ← hAB]
        have h1 : a + 2 ^ w * r + 2 ^ (w * (k + 1)) - repN w (k + 1) 1 =
            (a - 1) + 2 ^ w * (r + 2 ^ (w * k) - repN w k 1) := by
          rw [hrep1, h2]
          omega
        rw [h1, hAB, mod_split_helper _ _ (by omega) hBpos]
      have hAsplit : (2 : Nat) ^ w = 2 ^ (w - 1) * 2 := by
        rw [← pow_succ]
        congr 1
        omega
      have hlow : (a - 1) &&& (2 ^ w - 1 - a) &&& 2 ^ (w - 1) = 0 := by
        by_cases hmsb : a < 2 ^ (w - 1)
        · have h1 : (a - 1) &&& (2 ^ w - 1 - a) < 2 ^ (w - 1) :=
            lt_of_le_of_lt Nat.and_le_left (by omega)
          rw [and_single_bit, if_neg]
          rw [Nat.testBit_lt_two_pow h1]
          simp
        · have h1 : (a - 1) &&& (2 ^ w - 1 - a) < 2 ^ (w - 1) :=
            lt_of_le_of_lt Nat.and_le_right (by omega)
          rw [and_single_bit, if_neg]
          rw [Nat.testBit_lt_two_pow h1]
          simp
      have htz : tzCore w (k + 1) (a + 2 ^ w * r) = 2 ^ w * tzCore w k r := by
        unfold tzCore
        rw [hsub, hcomp, hupper]
        rw [concat_land _ _ (by omega) (by omega)]
        rw [concat_land _ _ (Nat.and_lt_two_pow _ (by omega)) hu_lt]
        rw [hlow, Nat.zero_add]
      rw [htz]
      have hiff := ih r hr
      constructor
      · intro h
        have h2 : tzCore w k r ≠ 0 := by
          intro hz
          rw [hz, Nat.mul_zero] at h
          exact h rfl
        rcases hiff.mp h2 with ⟨j, hj, hlz⟩
        exact ⟨j + 1, by omega, by rw [hlanesucc j]; exact hlz⟩
      · rintro ⟨j, hj, hlz⟩
        match j with
        | 0 =>
          rw [hlane0] at hlz
          exact absurd hlz ha0
        | j + 1 =>
          rw [hlanesucc j] at hlz
          have h2 := hiff.mpr ⟨j, by omega, hlz⟩
          intro hz
          have h3 : tzCore w k r = 0 := by
            rcases Nat.mul_eq_zero.mp hz with h | h
            · omega
            · exact h
          exact h2 h3

/-- The bit-trick widths of the equality fast path. -/
def trickWidth (w : Nat) : Prop := w = 1 ∨ w = 2 ∨ w = 4 ∨ w = 8 ∨ w = 16

instance (w : Nat) : Decidable (trickWidth w) := by
  unfold trickWidth
  infer_instance

theorem trickWidth_pos {w : Nat} (hw : trickWidth w) : 1 ≤ w := by
  rcases hw with h | h | h | h | h <;> omega

theorem trickWidth_mul_div {w : Nat} (hw : trickWidth w) : w * (64 / w) = 64 := by
  rcases hw with h | h | h | h | h <;> subst h <;> norm_num

theorem lower_bits_eq_repN {w : Nat} (hw : trickWidth w) :
    lower_bits w = repN w (64 / w) 1 := by
  rcases hw with h | h | h | h | h <;> subst h <;> decide

theorem upper_bits_eq_repN {w : Nat} (hw : trickWidth w) :
    (lower_bits w * 1 <<< (if w = 0 then 0 else w - 1)) % 2 ^ 64 =
      repN w (64 / w) (2 ^ (w - 1)) := by
  rcases hw with h | h | h | h | h <;> subst h <;> decide

theorem test_zero_eq_tzCore {w : Nat} (hw : trickWidth w) (v : Nat) :
    test_zero w v = decide (tzCore w (64 / w) v ≠ 0) := by
  have h1 := lower_bits_eq_repN hw
  have h2 := upper_bits_eq_repN hw
  have h3 : (2 : Nat) ^ (w * (64 / w)) = 2 ^ 64 := by
    rw [trickWidth_mul_div hw]
  simp only [test_zero, tzCore, bnot64]
  rw [h2, h1]
  simp only [h3, Nat.xor_comm v (2 ^ 64 - 1)]

/-- Exactness of the `test_zero` bit trick: it reports precisely the
presence of a zero `w`-bit lane in the 64-bit chunk. -/
theorem test_zero_iff {w : Nat} (hw : trickWidth w) (v : Nat) (hv : v < 2 ^ 64) :
    test_zero w v = true ↔ ∃ j, j < 64 / w ∧ laneBits w v j = 0 := by
  rw [test_zero_eq_tzCore hw v, decide_eq_true_eq]
  exact tzCore_ne_zero_iff w (trickWidth_pos hw) (64 / w) v
    (by rw [trickWidth_mul_div hw]; exact hv)

/-! ### Correctness of find_zero -/

theorem maskW_eq (w : Nat) : maskW w = 2 ^ w - 1 := by
  unfold maskW
  by_cases h : w = 64
  · simp [h]
  · rw [if_neg h, if_neg h, Nat.shiftLeft_eq, Nat.one_mul]

theorem and_maskW (v k w : Nat) : (v >>> (w * k)) &&& maskW w = laneBits w v k := by
  rw [maskW_eq, Nat.and_pow_two_sub_one_eq_mod]
  rfl

theorem shiftRight_lor (x y k : Nat) : (x ||| y) >>> k = (x >>> k) ||| (y >>> k) := by
  apply Nat.eq_of_testBit_eq
  intro i
  rw [Nat.testBit_shiftRight, Nat.testBit_or, Nat.testBit_or,
    Nat.testBit_shiftRight, Nat.testBit_shiftRight]

theorem laneBits_lor (w x y j : Nat) :
    laneBits w (x ||| y) j = laneBits w x j ||| laneBits w y j := by
  unfold laneBits
  rw [← Nat.and_pow_two_sub_one_eq_mod, ← Nat.and_pow_two_sub_one_eq_mod,
    ← Nat.and_pow_two_sub_one_eq_mod, shiftRight_lor, Nat.and_distrib_right]

theorem lane_zero_of_low_zero {w m v : Nat} (h : v % 2 ^ m = 0) (j : Nat)
    (hj : w * j + w ≤ m) : laneBits w v j = 0 := by
  have hdvd : 2 ^ m ∣ v := Nat.dvd_of_mod_eq_zero h
  obtain ⟨q, hq⟩ := hdvd
  unfold laneBits
  rw [hq, Nat.shiftRight_eq_div_pow]
  have h1 : (2 : Nat) ^ m = 2 ^ (w * j) * 2 ^ (m - w * j) := by
    rw [← pow_add]
    congr 1
    omega
  rw [h1, Nat.mul_assoc, Nat.mul_div_cancel_left _ (Nat.pos_pow_of_pos _ (by norm_num))]
  have h2 : (2 : Nat) ^ (m - w * j) = 2 ^ w * 2 ^ (m - w * j - w) := by
    rw [← pow_add]
    congr 1
    omega
  rw [h2, Nat.mul_assoc, Nat.mul_mod_right]

theorem all_lanes_zero {w : Nat} (hw : 1 ≤ w) :
    ∀ k v, v < 2 ^ (w * k) → (∀ j, j < k → laneBits w v j = 0) → v = 0 := by
  intro k
  induction k with
  | zero =>
    intro v hv _
    have h1 : (2 : Nat) ^ (w * 0) = 1 := by norm_num
    omega
  | succ k ih =>
    intro v hv hall
    have hApos : (0 : Nat) < 2 ^ w := Nat.pos_pow_of_pos _ (by norm_num)
    have hAB : (2 : Nat) ^ (w * (k + 1)) = 2 ^ w * 2 ^ (w * k) := by
      rw [← pow_add]
      congr 1
      ring
    obtain ⟨a, r, hva, ha, hr⟩ :
        ∃ a r, v = a + 2 ^ w * r ∧ a < 2 ^ w ∧ r < 2 ^ (w * k) := by
      refine ⟨v % 2 ^ w, v / 2 ^ w, ?_, Nat.mod_lt _ hApos, ?_⟩
      · have := Nat.mod_add_div v (2 ^ w)
        omega
      · rw [Nat.div_lt_iff_lt_mul hApos]
        rw [hAB] at hv
        calc v < 2 ^ w * 2 ^ (w * k) := hv
        _ = 2 ^ (w * k) * 2 ^ w := by ring
    subst hva
    have ha0 : a = 0 := by
      have := hall 0 (by omega)
      rw [laneBits_zero_concat r ha] at this
      exact this
    have hr0 : r = 0 := by
      apply ih r hr
      intro j hj
      have := hall (j + 1) (by omega)
      rw [laneBits_succ_concat r ha] at this
      exact this
    rw [ha0, hr0, Nat.mul_zero]

theorem exists_nonzero_lane {w v : Nat} (hw : trickWidth w) (hv : v < 2 ^ 64)
    (hnz : v ≠ 0) : ∃ j, j < 64 / w ∧ laneBits w v j ≠ 0 := by
  by_contra hc
  push_neg at hc
  apply hnz
  apply all_lanes_zero (trickWidth_pos hw) (64 / w) v
  · rw [trickWidth_mul_div hw]
    exact hv
  · intro j hj
    exact hc j hj

theorem findZeroLinear_eq_least (eq : Bool) (w v : Nat) :
    ∀ fuel start j0, start ≤ j0 → fzMatch eq w v j0 →
      (∀ j, start ≤ j → j < j0 → ¬fzMatch eq w v j) → j0 - start < fuel →
      findZeroLinear eq w v (maskW w) start fuel = j0 := by
  intro fuel
  induction fuel with
  | zero => omega
  | succ fuel ih =>
    intro start j0 hle hP hmin hfuel
    show (if eq == decide ((v >>> (w * start)) &&& maskW w ≠ 0) then
      findZeroLinear eq w v (maskW w) (start + 1) fuel else start) = j0
    have hcond : (eq == decide ((v >>> (w * start)) &&& maskW w ≠ 0)) =
        !decide (fzMatch eq w v start) := by
      rw [and_maskW]
      unfold fzMatch
      cases eq <;> by_cases hl : laneBits w v start = 0 <;> simp [hl]
    rw [hcond]
    by_cases hstart : start = j0
    · subst hstart
      rw [decide_eq_true hP]
      rfl
    · have hlt : start < j0 := by omega
      have hnp : ¬fzMatch eq w v start := hmin start le_rfl hlt
      rw [decide_eq_false hnp]
      show findZeroLinear eq w v (maskW w) (start + 1) fuel = j0
      exact ih (start + 1) j0 (by omega) hP (fun j hj1 hj2 => hmin j (by omega) hj2)
        (by omega)

theorem lanes_hi32 {w : Nat} (hw : trickWidth w) :
    ∀ j, j < 32 / w → laneBits w 0xffffffff00000000 j = 0 := by
  rcases hw with h | h | h | h | h <;> subst h <;> decide

theorem lanes_hi48 {w : Nat} (hw : w = 1 ∨ w = 2 ∨ w = 4) :
    ∀ j, j < 48 / w → laneBits w 0xffff000000000000 j = 0 := by
  rcases hw with h | h | h <;> subst h <;> decide

theorem lanes_hi16 {w : Nat} (hw : w = 1 ∨ w = 2 ∨ w = 4) :
    ∀ j, j < 16 / w → laneBits w 0xffffffffffff0000 j = 0 := by
  rcases hw with h | h | h <;> subst h <;> decide

theorem no0_pos (w : Nat) (hw : 1 ≤ w) : no0 w = w := by
  unfold no0
  rw [if_neg (by omega)]

theorem trickWidth_mul32 {w : Nat} (hw : trickWidth w) : w * (32 / w) = 32 := by
  rcases hw with h | h | h | h | h <;> subst h <;> norm_num

theorem smallWidth_mul48 {w : Nat} (hw : w = 1 ∨ w = 2 ∨ w = 4) : w * (48 / w) = 48 := by
  rcases hw with h | h | h <;> subst h <;> norm_num

theorem smallWidth_mul16 {w : Nat} (hw : w = 1 ∨ w = 2 ∨ w = 4) : w * (16 / w) = 16 := by
  rcases hw with h | h | h <;> subst h <;> norm_num

theorem bound_of_nolow {w v m j0 : Nat} {eq : Bool}
    (hnone : ∀ j, j < m → ¬fzMatch eq w v j)
    (hP : fzMatch eq w v j0) : m ≤ j0 := by
  by_contra hc
  push_neg at hc
  exact hnone j0 hc hP

/-- The 32-bit bisection test rules out matches in the low 32 bits. -/
theorem fz_test32 {w : Nat} (hw : trickWidth w) (eq : Bool) (v : Nat) (hv : v < 2 ^ 64)
    (h : (if eq then !test_zero w (v ||| 0xffffffff00000000)
          else decide (v &&& 0x00000000ffffffff = 0)) = true) :
    ∀ j, j < 32 / w → ¬fzMatch eq w v j := by
  intro j hj
  have hj64 : j < 64 / w := by
    have h1 : (32 : Nat) / w ≤ 64 / w := Nat.div_le_div_right (by norm_num)
    omega
  cases eq
  · -- not-equal case: the low 32 bits are all zero
    simp only [Bool.false_eq_true, if_false, decide_eq_true_eq] at h
    have hlow : v % 2 ^ 32 = 0 := by
      have h32 : (0x00000000ffffffff : Nat) = 2 ^ 32 - 1 := by norm_num
      rw [h32, Nat.and_pow_two_sub_one_eq_mod] at h
      exact h
    have hz : laneBits w v j = 0 := by
      apply lane_zero_of_low_zero hlow
      have h1 : j + 1 ≤ 32 / w := hj
      have h2 := Nat.mul_le_mul_left w h1
      rw [trickWidth_mul32 hw, Nat.mul_succ] at h2
      exact h2
    unfold fzMatch
    simp [hz]
  · -- equal case: test_zero on the masked value found no zero lane
    simp only [if_true] at h
    have htz : test_zero w (v ||| 0xffffffff00000000) = false := by
      cases hh : test_zero w (v ||| 0xffffffff00000000)
      · rfl
      · rw [hh] at h
        simp at h
    have hvor : v ||| 0xffffffff00000000 < 2 ^ 64 :=
      Nat.or_lt_two_pow hv (by norm_num)
    have hnoz : ¬∃ jj, jj < 64 / w ∧ laneBits w (v ||| 0xffffffff00000000) jj = 0 := by
      intro hexz
      have hzz := (test_zero_iff hw _ hvor).mpr hexz
      rw [htz] at hzz
      exact Bool.false_ne_true hzz
    unfold fzMatch
    simp only [if_true]
    intro hzero
    apply hnoz
    refine ⟨j, hj64, ?_⟩
    rw [laneBits_lor, lanes_hi32 hw j hj, Nat.or_zero, hzero]

theorem smallWidth_trick {w : Nat} (hw : w = 1 ∨ w = 2 ∨ w = 4) : trickWidth w := by
  rcases hw with h | h | h <;> subst h <;> decide

/-- The 48-bit bisection test rules out matches in the low 48 bits. -/
theorem fz_test48 {w : Nat} (hw : w = 1 ∨ w = 2 ∨ w = 4) (eq : Bool) (v : Nat)
    (hv : v < 2 ^ 64)
    (h : (if eq then !test_zero w (v ||| 0xffff000000000000)
          else decide (v &&& 0x0000ffffffffffff = 0)) = true) :
    ∀ j, j < 48 / w → ¬fzMatch eq w v j := by
  have hwt := smallWidth_trick hw
  intro j hj
  have hj64 : j < 64 / w := by
    have h1 : (48 : Nat) / w ≤ 64 / w := Nat.div_le_div_right (by norm_num)
    omega
  cases eq
  · simp only [Bool.false_eq_true, if_false, decide_eq_true_eq] at h
    have hlow : v % 2 ^ 48 = 0 := by
      have h48 : (0x0000ffffffffffff : Nat) = 2 ^ 48 - 1 := by norm_num
      rw [h48, Nat.and_pow_two_sub_one_eq_mod] at h
      exact h
    have hz : laneBits w v j = 0 := by
      apply lane_zero_of_low_zero hlow
      have h1 : j + 1 ≤ 48 / w := hj
      have h2 := Nat.mul_le_mul_left w h1
      rw [smallWidth_mul48 hw, Nat.mul_succ] at h2
      exact h2
    unfold fzMatch
    simp [hz]
  · simp only [if_true] at h
    have htz : test_zero w (v ||| 0xffff000000000000) = false := by
      cases hh : test_zero w (v ||| 0xffff000000000000)
      · rfl
      · rw [hh] at h
        simp at h
    have hvor : v ||| 0xffff000000000000 < 2 ^ 64 :=
      Nat.or_lt_two_pow hv (by norm_num)
    have hnoz : ¬∃ jj, jj < 64 / w ∧ laneBits w (v ||| 0xffff000000000000) jj = 0 := by
      intro hexz
      have hzz := (test_zero_iff hwt _ hvor).mpr hexz
      rw [htz] at hzz
      exact Bool.false_ne_true hzz
    unfold fzMatch
    simp only [if_true]
    intro hzero
    apply hnoz
    refine ⟨j, hj64, ?_⟩
    rw [laneBits_lor, lanes_hi48 hw j hj, Nat.or_zero, hzero]

/-- The 16-bit bisection test rules out matches in the low 16 bits. -/
theorem fz_test16 {w : Nat} (hw : w = 1 ∨ w = 2 ∨ w = 4) (eq : Bool) (v : Nat)
    (hv : v < 2 ^ 64)
    (h : (if eq then !test_zero w (v ||| 0xffffffffffff0000)
          else decide (v &&& 0x000000000000ffff = 0)) = true) :
    ∀ j, j < 16 / w → ¬fzMatch eq w v j := by
  have hwt := smallWidth_trick hw
  intro j hj
  have hj64 : j < 64 / w := by
    have h1 : (16 : Nat) / w ≤ 64 / w := Nat.div_le_div_right (by norm_num)
    omega
  cases eq
  · simp only [Bool.false_eq_true, if_false, decide_eq_true_eq] at h
    have hlow : v % 2 ^ 16 = 0 := by
      have h16 : (0x000000000000ffff : Nat) = 2 ^ 16 - 1 := by norm_num
      rw [h16, Nat.and_pow_two_sub_one_eq_mod] at h
      exact h
    have hz : laneBits w v j = 0 := by
      apply lane_zero_of_low_zero hlow
      have h1 : j + 1 ≤ 16 / w := hj
      have h2 := Nat.mul_le_mul_left w h1
      rw [smallWidth_mul16 hw, Nat.mul_succ] at h2
      exact h2
    unfold fzMatch
    simp [hz]
  · simp only [if_true] at h
    have htz : test_zero w (v ||| 0xffffffffffff0000) = false := by
      cases hh : test_zero w (v ||| 0xffffffffffff0000)
      · rfl
      · rw [hh] at h
        simp at h
    have hvor : v ||| 0xffffffffffff0000 < 2 ^ 64 :=
      Nat.or_lt_two_pow hv (by norm_num)
    have hnoz : ¬∃ jj, jj < 64 / w ∧ laneBits w (v ||| 0xffffffffffff0000) jj = 0 := by
      intro hexz
      have hzz := (test_zero_iff hwt _ hvor).mpr hexz
      rw [htz] at hzz
      exact Bool.false_ne_true hzz
    unfold fzMatch
    simp only [if_true]
    intro hzero
    apply hnoz
    refine ⟨j, hj64, ?_⟩
    rw [laneBits_lor, lanes_hi16 hw j hj, Nat.or_zero, hzero]

/-- `find_zero` returns the first matching lane position, assuming a match
exists within the chunk (the function's documented precondition). -/
theorem find_zero_least {w : Nat} (hw : trickWidth w) (eq : Bool) (v : Nat)
    (hv : v < 2 ^ 64) (hex : ∃ j, j ≤ 64 ∧ fzMatch eq w v j) :
    fzMatch eq w v (find_zero eq w v) ∧
      ∀ j, j < find_zero eq w v → ¬fzMatch eq w v j := by
  obtain ⟨m, hm64, hmP⟩ := hex
  have hexP : ∃ j, fzMatch eq w v j := ⟨m, hmP⟩
  have hPj0 := Nat.find_spec hexP
  have hmin : ∀ j, j < Nat.find hexP → ¬fzMatch eq w v j :=
    fun j hj => Nat.find_min hexP hj
  have hj0m : Nat.find hexP ≤ m := Nat.find_min' hexP hmP
  suffices hfz : find_zero eq w v = Nat.find hexP by
    rw [hfz]
    exact ⟨hPj0, hmin⟩
  unfold find_zero
  have hcond0 : (eq == decide ((v >>> (w * 0)) &&& maskW w = 0)) =
      decide (fzMatch eq w v 0) := by
    rw [and_maskW]
    unfold fzMatch
    cases eq <;> by_cases hl : laneBits w v 0 = 0 <;> simp [hl]
  rw [hcond0]
  by_cases hP0 : fzMatch eq w v 0
  · rw [decide_eq_true hP0, if_pos rfl]
    have hf0 : Nat.find hexP = 0 := by
      have := Nat.find_min' hexP hP0
      omega
    omega
  · rw [decide_eq_false hP0]
    rw [if_neg (by simp)]
    apply findZeroLinear_eq_least eq w v 70 _ (Nat.find hexP) ?hle hPj0
      (fun j _ hj2 => hmin j hj2) (by omega)
    case hle =>
      by_cases hw8 : w ≤ 8
      · rw [if_pos hw8]
        by_cases hC32 : (if eq then !test_zero w (v ||| 0xffffffff00000000)
            else decide (v &&& 0x00000000ffffffff = 0)) = true
        · rw [if_pos hC32]
          have hb32 := bound_of_nolow (fz_test32 hw eq v hv hC32) hPj0
          by_cases hw4 : w ≤ 4
          · rw [if_pos hw4]
            have hw124 : w = 1 ∨ w = 2 ∨ w = 4 := by
              rcases hw with h | h | h | h | h <;> omega
            by_cases hC48 : (if eq then !test_zero w (v ||| 0xffff000000000000)
                else decide (v &&& 0x0000ffffffffffff = 0)) = true
            · rw [if_pos hC48]
              have hb48 := bound_of_nolow (fz_test48 hw124 eq v hv hC48) hPj0
              rw [no0_pos w (by omega)]
              rcases hw124 with h | h | h <;> subst h <;> omega
            · rw [if_neg hC48, Nat.add_zero, no0_pos w (by omega)]
              rcases hw124 with h | h | h <;> subst h <;> omega
          · rw [if_neg hw4, Nat.add_zero, no0_pos w (by omega)]
            have hw8eq : w = 8 := by
              rcases hw with h | h | h | h | h <;> omega
            subst hw8eq
            omega
        · rw [if_neg hC32]
          by_cases hw4 : w ≤ 4
          · rw [if_pos hw4]
            have hw124 : w = 1 ∨ w = 2 ∨ w = 4 := by
              rcases hw with h | h | h | h | h <;> omega
            by_cases hC16 : (if eq then !test_zero w (v ||| 0xffffffffffff0000)
                else decide (v &&& 0x000000000000ffff = 0)) = true
            · rw [if_pos hC16]
              have hb16 := bound_of_nolow (fz_test16 hw124 eq v hv hC16) hPj0
              rw [no0_pos w (by omega)]
              rcases hw124 with h | h | h <;> subst h <;> omega
            · rw [if_neg hC16]
              exact Nat.zero_le _
          · rw [if_neg hw4]
            exact Nat.zero_le _
      · rw [if_neg hw8]
        exact Nat.zero_le _

/-! ### Naive-scan algebra -/

theorem trickWidth_supported {w : Nat} (hw : trickWidth w) : supportedWidth w := by
  rcases hw with h | h | h | h | h <;> subst h <;> decide

theorem seqScan_skip {σ : Type} (s : σ) (f : σ → ScanRes σ) :
    seqScan ⟨s, [], true⟩ f = f s := by
  unfold seqScan
  simp

theorem seqScan_stop {σ : Type} (r : ScanRes σ) (f : σ → ScanRes σ)
    (h : r.cont = false) : seqScan r f = r := by
  unfold seqScan
  rw [h]
  simp

theorem naive_zero {σ : Type} (S : SinkOps σ) (c : Cond) (w data : Nat) (value : Int)
    (base start : Nat) (s : σ) :
    naive_scan S c w data value base start 0 s = ⟨s, [], true⟩ := rfl

theorem naive_succ {σ : Type} (S : SinkOps σ) (c : Cond) (w data : Nat) (value : Int)
    (base start cnt : Nat) (s : σ) :
    naive_scan S c w data value base start (cnt + 1) s =
      if condSat c (getW w data start) value then
        let m := S.mmatch s (start + base) (getW w data start)
        if m.2 then
          let r := naive_scan S c w data value base (start + 1) cnt m.1
          ⟨r.state, (start + base, getW w data start) :: r.reports, r.cont⟩
        else
          ⟨m.1, [(start + base, getW w data start)], false⟩
      else
        naive_scan S c w data value base (start + 1) cnt s := rfl

theorem naive_no_match {σ : Type} (S : SinkOps σ) (c : Cond) (w data : Nat)
    (value : Int) (base : Nat) :
    ∀ cnt start s, (∀ i, start ≤ i → i < start + cnt →
        condSat c (getW w data i) value = false) →
      naive_scan S c w data value base start cnt s = ⟨s, [], true⟩ := by
  intro cnt
  induction cnt with
  | zero => intro start s _; rfl
  | succ cnt ih =>
    intro start s hno
    rw [naive_succ, if_neg]
    · exact ih (start + 1) s (fun i h1 h2 => hno i (by omega) (by omega))
    · rw [hno start le_rfl (by omega)]
      simp

theorem naive_skip {σ : Type} (S : SinkOps σ) (c : Cond) (w data : Nat)
    (value : Int) (base : Nat) :
    ∀ k cnt start s, k ≤ cnt →
      (∀ i, start ≤ i → i < start + k → condSat c (getW w data i) value = false) →
      naive_scan S c w data value base start cnt s =
        naive_scan S c w data value base (start + k) (cnt - k) s := by
  intro k
  induction k with
  | zero => intro cnt start s _ _; rfl
  | succ k ih =>
    intro cnt start s hk hno
    match cnt with
    | cnt + 1 =>
      rw [naive_succ, if_neg]
      · have := ih cnt (start + 1) s (by omega)
          (fun i h1 h2 => hno i (by omega) (by omega))
        rw [this, show start + 1 + k = start + (k + 1) from by omega,
          show cnt - k = cnt + 1 - (k + 1) from by omega]
      · rw [hno start le_rfl (by omega)]
        simp

theorem naive_append {σ : Type} (S : SinkOps σ) (c : Cond) (w data : Nat)
    (value : Int) (base : Nat) :
    ∀ c1 c2 start s,
      naive_scan S c w data value base start (c1 + c2) s =
        seqScan (naive_scan S c w data value base start c1 s)
          (fun s2 => naive_scan S c w data value base (start + c1) c2 s2) := by
  intro c1
  induction c1 with
  | zero =>
    intro c2 start s
    rw [naive_zero, seqScan_skip]
    simp
  | succ c1 ih =>
    intro c2 start s
    have harith : c1 + 1 + c2 = (c1 + c2) + 1 := by omega
    rw [harith, naive_succ, naive_succ]
    by_cases hc : condSat c (getW w data start) value
    · rw [if_pos hc, if_pos hc]
      simp only []
      rcases hm : S.mmatch s (start + base) (getW w data start) with ⟨s2, cont⟩
      cases cont
      · rw [seqScan_stop _ _ rfl]
        simp
      · simp only [ih c2 (start + 1) s2]
        unfold seqScan
        rcases hr : naive_scan S c w data value base (start + 1) c1 s2 with ⟨st1, rep1, co1⟩
        cases co1
        · simp
        · simp only []
          have harith2 : start + 1 + c1 = start + (c1 + 1) := by omega
          rw [harith2]
          simp
    · rw [if_neg hc, if_neg hc]
      have harith2 : start + 1 + c1 = start + (c1 + 1) := by omega
      rw [ih c2 (start + 1) s, harith2]

theorem scalarLoop_zero {σ : Type} (S : SinkOps σ) (w data : Nat) (p : Int → Bool)
    (base start : Nat) (s : σ) : scalarLoop S w data p base start 0 s = ⟨s, [], true⟩ := rfl

theorem scalarLoop_eq_naive {σ : Type} (S : SinkOps σ) (c : Cond) (w data : Nat)
    (p : Int → Bool) (value : Int) (base : Nat)
    (hp : ∀ x, p x = condSat c x value) :
    ∀ cnt start s, scalarLoop S w data p base start cnt s =
      naive_scan S c w data value base start cnt s := by
  intro cnt
  induction cnt with
  | zero => intro start s; rfl
  | succ cnt ih =>
    intro start s
    show (if p (getW w data start) then _ else _) = _
    rw [naive_succ, hp]
    by_cases hc : condSat c (getW w data start) value
    · rw [if_pos hc, if_pos hc]
      simp only [ih]
    · rw [if_neg hc, if_neg hc]
      exact ih (start + 1) s

theorem eqPred_eq_condSat (eq : Bool) (value : Int) :
    ∀ x, eqPred eq value x = condSat (if eq then Cond.equal else Cond.notEqual) x value := by
  intro x
  unfold eqPred condSat
  cases eq
  · simp
  · simp

theorem relPred_eq_condSat (gt : Bool) (value : Int) :
    ∀ x, relPred gt value x = condSat (if gt then Cond.greater else Cond.less) x value := by
  intro x
  unfold relPred condSat
  cases gt
  · simp
  · simp

/-! ### Lane bridges for the chunked scans -/

theorem encode_decode {w raw : Nat} (hraw : raw < 2 ^ w) :
    encodeBits w (decodeVal w raw) = raw := by
  have hcast : ((raw : Int)) % ((2 : Int) ^ w) = (raw : Int) := by
    apply Int.emod_eq_of_lt (by positivity)
    exact_mod_cast hraw
  unfold encodeBits decodeVal
  by_cases h8 : w < 8
  · rw [if_pos h8, hcast]
    simp
  · rw [if_neg h8]
    unfold signedOfBits
    by_cases hlo : raw < 2 ^ (w - 1)
    · rw [if_pos hlo, hcast]
      simp
    · rw [if_neg hlo]
      have hstep : ((raw : Int) - 2 ^ w) % ((2 : Int) ^ w) = (raw : Int) % 2 ^ w := by
        have h1 : ((raw : Int) + 2 ^ w * (-1)) % ((2 : Int) ^ w) =
            (raw : Int) % ((2 : Int) ^ w) := Int.add_mul_emod_self_left (raw : Int) (2 ^ w) (-1)
        have h2 : (raw : Int) + 2 ^ w * (-1) = (raw : Int) - 2 ^ w := by ring
        rwa [h2] at h1
      rw [hstep, hcast]
      simp

theorem laneBits_read64 (w data pb startC j : Nat) (hsc : w * startC = 8 * pb)
    (hj : w * (j + 1) ≤ 64) :
    laneBits w (read64 data pb) j = laneBits w data (startC + j) := by
  unfold laneBits read64
  have hwj : w * j + w ≤ 64 := by rw [Nat.mul_succ] at hj; omega
  rw [mod_pow_shiftRight (data >>> (8 * pb)) 64 (w * j) (by omega)]
  rw [Nat.mod_mod_of_dvd _ (pow_dvd_pow 2 (by omega : w ≤ 64 - w * j))]
  rw [← Nat.shiftRight_add]
  congr 2
  rw [Nat.mul_add, hsc]

theorem shiftRight_xor (x y k : Nat) : (x ^^^ y) >>> k = (x >>> k) ^^^ (y >>> k) := by
  apply Nat.eq_of_testBit_eq
  intro i
  rw [Nat.testBit_shiftRight, Nat.testBit_xor, Nat.testBit_xor,
    Nat.testBit_shiftRight, Nat.testBit_shiftRight]

theorem laneBits_xor (w x y j : Nat) :
    laneBits w (x ^^^ y) j = laneBits w x j ^^^ laneBits w y j := by
  unfold laneBits
  rw [← Nat.and_pow_two_sub_one_eq_mod, ← Nat.and_pow_two_sub_one_eq_mod,
    ← Nat.and_pow_two_sub_one_eq_mod, shiftRight_xor, Nat.and_xor_distrib_right]

theorem u64_and_maskW (w : Nat) (hw : w ≤ 64) (value : Int) :
    u64ofInt value &&& maskW w = encodeBits w value := by
  rw [maskW_eq, Nat.and_pow_two_sub_one_eq_mod]
  unfold u64ofInt encodeBits
  have h0 : (0 : Int) ≤ value % 2 ^ 64 := Int.emod_nonneg _ (by positivity)
  have hdvd : ((2 : Int) ^ w) ∣ 2 ^ 64 := pow_dvd_pow 2 hw
  have hc : ((2 ^ w : Nat) : Int) = (2 : Int) ^ w := by push_cast; rfl
  have h1 : (((value % 2 ^ 64).toNat % 2 ^ w : Nat) : Int) = value % 2 ^ w := by
    rw [Int.natCast_mod, Int.toNat_of_nonneg h0, hc, Int.emod_emod_of_dvd value hdvd]
  have h2 := congrArg Int.toNat h1
  rw [Int.toNat_natCast] at h2
  exact h2

theorem valuemask_lanes {w : Nat} (hw : trickWidth w) (value : Int) (j : Nat)
    (hj : j < 64 / w) :
    laneBits w (((2 ^ 64 - 1) / no0 (maskW w) * (u64ofInt value &&& maskW w)) % 2 ^ 64) j
      = encodeBits w value := by
  have he := encodeBits_lt w value
  have hw64 : w ≤ 64 := by rcases hw with h | h | h | h | h <;> subst h <;> norm_num
  rw [u64_and_maskW w hw64 value]
  have hrep : (2 ^ 64 - 1) / no0 (maskW w) = repN w (64 / w) 1 := by
    rcases hw with h | h | h | h | h <;> subst h <;> decide
  rw [hrep, repN_mul he]
  have hlt : repN w (64 / w) (encodeBits w value) < 2 ^ 64 := by
    have h := repN_lt he (64 / w)
    rwa [trickWidth_mul_div hw] at h
  rw [Nat.mod_eq_of_lt hlt]
  exact laneBits_repN he (64 / w) j hj

theorem lane_count_mul_le {w : Nat} (hw : trickWidth w) {j : Nat} (hj : j < 64 / w) :
    w * (j + 1) ≤ 64 := by
  calc w * (j + 1) ≤ w * (64 / w) := Nat.mul_le_mul_left w (by omega)
    _ = 64 := trickWidth_mul_div hw

theorem lane_value_iff {w : Nat} (hw : trickWidth w) (data : Nat) (value : Int)
    (pb startC j : Nat) (hsc : w * startC = 8 * pb) (hj : j < 64 / w)
    (hlb : lbound_for_width w ≤ value) (hub : value ≤ ubound_for_width w) :
    (laneBits w (read64 data pb ^^^
        ((2 ^ 64 - 1) / no0 (maskW w) * (u64ofInt value &&& maskW w)) % 2 ^ 64) j = 0)
      ↔ getW w data (startC + j) = value := by
  rw [laneBits_xor, valuemask_lanes hw value j hj,
    laneBits_read64 w data pb startC j hsc (lane_count_mul_le hw hj),
    Nat.xor_eq_zero]
  rw [getW, getUniversal_eq_decode _ _ _ (trickWidth_supported hw)]
  constructor
  · intro h
    rw [h]
    exact decode_encode value (trickWidth_supported hw) hlb hub
  · intro h
    have h2 := congrArg (encodeBits w) h
    rwa [encode_decode (laneBits_lt _ _ _)] at h2

theorem laneBits_zero (w j : Nat) : laneBits w 0 j = 0 := by
  unfold laneBits
  simp

theorem lane_value_iff_vm {w : Nat} (hw : trickWidth w) (data : Nat) (value : Int)
    (pb startC j : Nat) (hsc : w * startC = 8 * pb) (hj : j < 64 / w)
    (hlb : lbound_for_width w ≤ value) (hub : value ≤ ubound_for_width w) :
    (laneBits w (read64 data pb ^^^ valuemaskOf w value) j = 0)
      ↔ getW w data (startC + j) = value :=
  lane_value_iff hw data value pb startC j hsc hj hlb hub

theorem condSat_eqCond_iff {w : Nat} (hw : trickWidth w) (data : Nat) (value : Int)
    (pb startC : Nat) (hsc : w * startC = 8 * pb)
    (hlb : lbound_for_width w ≤ value) (hub : value ≤ ubound_for_width w)
    (eq : Bool) (a j : Nat) (hj : a + j < 64 / w) :
    (condSat (eqCond eq) (getW w data (startC + (a + j))) value = true) ↔
      fzMatch eq w ((read64 data pb ^^^ valuemaskOf w value) >>> (a * w)) j := by
  have hlane : laneBits w ((read64 data pb ^^^ valuemaskOf w value) >>> (a * w)) j =
      laneBits w (read64 data pb ^^^ valuemaskOf w value) (a + j) := by
    rw [show a * w = w * a from Nat.mul_comm a w]
    exact laneBits_shiftRight w _ j a
  have hlv := lane_value_iff_vm hw data value pb startC (a + j) hsc hj hlb hub
  unfold fzMatch
  rw [hlane]
  cases eq
  · rw [if_neg (by simp)]
    unfold eqCond condSat
    rw [if_neg (by simp)]
    rw [decide_eq_true_eq]
    exact not_congr hlv.symm
  · rw [if_pos rfl]
    unfold eqCond condSat
    rw [if_pos rfl]
    rw [decide_eq_true_eq]
    exact hlv.symm

theorem innerLoopEq_spec {σ : Type} (S : SinkOps σ) (eq : Bool) {w : Nat}
    (hw : trickWidth w) (data : Nat) (value : Int) (base pb startC : Nat)
    (hsc : w * startC = 8 * pb)
    (hlb : lbound_for_width w ≤ value) (hub : value ≤ ubound_for_width w) :
    ∀ n a s, n = 64 / w - a →
      innerLoopEq S eq w data base startC
        ((read64 data pb ^^^ valuemaskOf w value) >>> (a * w)) a s =
      naive_scan S (eqCond eq) w data value base (startC + a) (64 / w - a) s := by
  intro n
  induction n using Nat.strong_induction_on with
  | _ n ih =>
  intro a s hn
  have hw1 := trickWidth_pos hw
  have hX : read64 data pb ^^^ valuemaskOf w value < 2 ^ 64 := by
    apply Nat.xor_lt_two_pow
    · exact Nat.mod_lt _ (by positivity)
    · exact Nat.mod_lt _ (by positivity)
  have hv2 : (read64 data pb ^^^ valuemaskOf w value) >>> (a * w) < 2 ^ 64 :=
    lt_of_le_of_lt
      (by rw [Nat.shiftRight_eq_div_pow]; exact Nat.div_le_self _ _) hX
  have hguard : ((if eq then
        test_zero w ((read64 data pb ^^^ valuemaskOf w value) >>> (a * w))
      else
        decide ((read64 data pb ^^^ valuemaskOf w value) >>> (a * w) ≠ 0)) = true) ↔
      ∃ j, j < 64 / w ∧
        fzMatch eq w ((read64 data pb ^^^ valuemaskOf w value) >>> (a * w)) j := by
    cases eq
    · rw [if_neg (by simp), decide_eq_true_eq]
      unfold fzMatch
      constructor
      · intro hnz
        obtain ⟨j, hj, hl⟩ := exists_nonzero_lane hw hv2 hnz
        exact ⟨j, hj, by rw [if_neg (by simp)]; exact hl⟩
      · rintro ⟨j, hj, hl⟩ h0
        rw [if_neg (by simp)] at hl
        rw [h0, laneBits_zero] at hl
        exact hl rfl
    · rw [if_pos rfl]
      rw [test_zero_iff hw _ hv2]
      unfold fzMatch
      constructor
      · rintro ⟨j, hj, hl⟩
        exact ⟨j, hj, by rw [if_pos rfl]; exact hl⟩
      · rintro ⟨j, hj, hl⟩
        rw [if_pos rfl] at hl
        exact ⟨j, hj, hl⟩
  rw [innerLoopEq]
  by_cases hc : (if eq then
      test_zero w ((read64 data pb ^^^ valuemaskOf w value) >>> (a * w))
    else
      decide ((read64 data pb ^^^ valuemaskOf w value) >>> (a * w) ≠ 0)) = true
  · rw [if_pos hc]
    rw [if_neg (by simp [find_action_pattern])]
    simp only [no0_pos w hw1]
    obtain ⟨j0, hj0, hfz0⟩ := hguard.mp hc
    have hex : ∃ j, j ≤ 64 ∧
        fzMatch eq w ((read64 data pb ^^^ valuemaskOf w value) >>> (a * w)) j :=
      ⟨j0, le_trans (le_of_lt hj0) (Nat.div_le_self 64 w), hfz0⟩
    obtain ⟨hft, hmin⟩ := find_zero_least hw eq _ hv2 hex
    by_cases hbr : 64 / w ≤ a +
        find_zero eq w ((read64 data pb ^^^ valuemaskOf w value) >>> (a * w))
    · rw [dif_pos hbr]
      symm
      apply naive_no_match
      intro i h1 h2
      obtain ⟨j, rfl, hjlt⟩ : ∃ j, i = startC + (a + j) ∧ a + j < 64 / w :=
        ⟨i - startC - a, by omega, by omega⟩
      rcases hcc : condSat (eqCond eq) (getW w data (startC + (a + j))) value
      · rfl
      · exfalso
        have hfz := (condSat_eqCond_iff hw data value pb startC hsc hlb hub
          eq a j hjlt).mp hcc
        exact hmin j (by omega) hfz
    · rw [dif_neg hbr]
      have htlt : a + find_zero eq w
          ((read64 data pb ^^^ valuemaskOf w value) >>> (a * w)) < 64 / w := by omega
      have hskip : naive_scan S (eqCond eq) w data value base (startC + a)
          (64 / w - a) s = naive_scan S (eqCond eq) w data value base
          (startC + a + find_zero eq w
            ((read64 data pb ^^^ valuemaskOf w value) >>> (a * w)))
          (64 / w - a - find_zero eq w
            ((read64 data pb ^^^ valuemaskOf w value) >>> (a * w))) s := by
        apply naive_skip
        · omega
        · intro i h1 h2
          obtain ⟨j, rfl, hjlt⟩ : ∃ j, i = startC + (a + j) ∧
              j < find_zero eq w
                ((read64 data pb ^^^ valuemaskOf w value) >>> (a * w)) :=
            ⟨i - startC - a, by omega, by omega⟩
          rcases hcc : condSat (eqCond eq) (getW w data (startC + (a + j))) value
          · rfl
          · exfalso
            have hfz := (condSat_eqCond_iff hw data value pb startC hsc hlb hub
              eq a j (by omega)).mp hcc
            exact hmin j hjlt hfz
      rw [hskip]
      rw [show startC + a + find_zero eq w
            ((read64 data pb ^^^ valuemaskOf w value) >>> (a * w)) =
          startC + (a + find_zero eq w
            ((read64 data pb ^^^ valuemaskOf w value) >>> (a * w))) from by omega]
      rw [show 64 / w - a - find_zero eq w
            ((read64 data pb ^^^ valuemaskOf w value) >>> (a * w)) =
          (64 / w - (a + find_zero eq w
            ((read64 data pb ^^^ valuemaskOf w value) >>> (a * w)) + 1)) + 1 from
        by omega]
      rw [naive_succ]
      have hcs : condSat (eqCond eq) (getW w data (startC + (a + find_zero eq w
          ((read64 data pb ^^^ valuemaskOf w value) >>> (a * w))))) value = true :=
        (condSat_eqCond_iff hw data value pb startC hsc hlb hub eq a _ htlt).mpr hft
      rw [if_pos hcs]
      rw [show a + find_zero eq w
            ((read64 data pb ^^^ valuemaskOf w value) >>> (a * w)) + startC + base =
          startC + (a + find_zero eq w
            ((read64 data pb ^^^ valuemaskOf w value) >>> (a * w))) + base from
        by omega]
      simp only []
      rcases hm : S.mmatch s (startC + (a + find_zero eq w
          ((read64 data pb ^^^ valuemaskOf w value) >>> (a * w))) + base)
          (getW w data (startC + (a + find_zero eq w
            ((read64 data pb ^^^ valuemaskOf w value) >>> (a * w))))) with ⟨s2, cont⟩
      cases cont
      · simp
      · simp only [if_pos rfl]
        rw [show ((read64 data pb ^^^ valuemaskOf w value) >>> (a * w)) >>>
              ((find_zero eq w ((read64 data pb ^^^ valuemaskOf w value) >>> (a * w))
                + 1) * w) =
            (read64 data pb ^^^ valuemaskOf w value) >>>
              ((a + find_zero eq w
                ((read64 data pb ^^^ valuemaskOf w value) >>> (a * w)) + 1) * w) from
          by rw [← Nat.shiftRight_add]; ring_nf]
        rw [ih (64 / w - (a + find_zero eq w
            ((read64 data pb ^^^ valuemaskOf w value) >>> (a * w)) + 1)) (by omega)
          _ s2 rfl]
        rw [show startC + (a + find_zero eq w
              ((read64 data pb ^^^ valuemaskOf w value) >>> (a * w))) + 1 =
            startC + (a + find_zero eq w
              ((read64 data pb ^^^ valuemaskOf w value) >>> (a * w)) + 1) from
          by omega]
  · rw [if_neg hc]
    symm
    apply naive_no_match
    intro i h1 h2
    obtain ⟨j, rfl, hjlt⟩ : ∃ j, i = startC + (a + j) ∧ a + j < 64 / w :=
      ⟨i - startC - a, by omega, by omega⟩
    rcases hcc : condSat (eqCond eq) (getW w data (startC + (a + j))) value
    · rfl
    · exfalso
      have hfz := (condSat_eqCond_iff hw data value pb startC hsc hlb hub
        eq a j hjlt).mp hcc
      exact hc (hguard.mpr ⟨j, by omega, hfz⟩)

theorem round_up_ge (p a : Nat) : p ≤ round_up p a := by
  unfold round_up
  split
  · exact le_refl p
  · omega

theorem round_up_dvd {a : Nat} (p : Nat) (ha : 0 < a) : a ∣ round_up p a := by
  unfold round_up
  split
  · exact Nat.dvd_of_mod_eq_zero (by assumption)
  · have h1 : p % a < a := Nat.mod_lt _ ha
    have h2 : p % a + a * (p / a) = p := Nat.mod_add_div p a
    refine ⟨p / a + 1, ?_⟩
    rw [Nat.mul_add, Nat.mul_one]
    omega

theorem q_chunk_arith {w : Nat} (hw : trickWidth w) (q : Nat) :
    8 * q / 8 * 64 / w = q * (64 / w) ∧ w * (q * (64 / w)) = 8 * (8 * q) := by
  have hdvd : w ∣ 64 := by rcases hw with h | h | h | h | h <;> subst h <;> decide
  have hq8 : 8 * q / 8 = q := Nat.mul_div_cancel_left q (by norm_num)
  constructor
  · rw [hq8, Nat.mul_div_assoc q hdvd]
  · calc w * (q * (64 / w)) = q * (w * (64 / w)) := by ring
      _ = q * 64 := by rw [trickWidth_mul_div hw]
      _ = 8 * (8 * q) := by ring

theorem naive_glue {σ : Type} (S : SinkOps σ) (c : Cond) (w data : Nat)
    (value : Int) (base start mid endIdx : Nat) (s : σ)
    (h1 : start ≤ mid) (h2 : mid ≤ endIdx) :
    seqScan (naive_scan S c w data value base start (mid - start) s)
      (fun s2 => naive_scan S c w data value base mid (endIdx - mid) s2) =
    naive_scan S c w data value base start (endIdx - start) s := by
  have h3 := naive_append S c w data value base (mid - start) (endIdx - mid) start s
  rw [show start + (mid - start) = mid from by omega] at h3
  rw [show endIdx - start = (mid - start) + (endIdx - mid) from by omega, h3]

theorem seqScan_triv {σ : Type} (r : ScanRes σ) :
    seqScan r (fun s => ⟨s, [], true⟩) = r := by
  unfold seqScan
  rcases r with ⟨st, rep, co⟩
  cases co <;> simp

theorem chunkLoopEq_spec {σ : Type} (S : SinkOps σ) (eq : Bool) {w : Nat}
    (hw : trickWidth w) (data : Nat) (value : Int) (base endIdx : Nat)
    (hlb : lbound_for_width w ≤ value) (hub : value ≤ ubound_for_width w) :
    ∀ n pb s, n = endIdx * w / 8 - 8 - pb → pb % 8 = 0 →
      pb / 8 * 64 / no0 w ≤ endIdx →
      chunkLoopEq S eq w data value (valuemaskOf w value) base endIdx
        (endIdx * w / 8 - 8) pb s =
      naive_scan S (eqCond eq) w data value base (pb / 8 * 64 / no0 w)
        (endIdx - pb / 8 * 64 / no0 w) s := by
  intro n
  induction n using Nat.strong_induction_on with
  | _ n ih =>
  intro pb s hn h8 hle
  have hw1 := trickWidth_pos hw
  obtain ⟨q, rfl⟩ : ∃ q, pb = 8 * q := ⟨pb / 8, by omega⟩
  obtain ⟨hsc1, hsc2⟩ := q_chunk_arith hw q
  rw [chunkLoopEq]
  by_cases h : 8 * q < endIdx * w / 8 - 8
  · rw [dif_pos h]
    have hE8 : endIdx * w / 8 * 8 ≤ endIdx * w := Nat.div_mul_le_self (endIdx * w) 8
    have hmul : w * (q * (64 / w) + 64 / w) = 8 * (8 * q + 8) := by
      rw [Nat.mul_add, hsc2, trickWidth_mul_div hw]
      ring
    have hbound : q * (64 / w) + 64 / w ≤ endIdx := by
      have h2 : w * (q * (64 / w) + 64 / w) ≤ w * endIdx := by
        rw [hmul]
        calc 8 * (8 * q + 8) ≤ 8 * (endIdx * w / 8) := by omega
          _ = endIdx * w / 8 * 8 := by ring
          _ ≤ endIdx * w := hE8
          _ = w * endIdx := Nat.mul_comm _ _
      exact Nat.le_of_mul_le_mul_left h2 hw1
    simp only [no0_pos w hw1]
    rw [hsc1]
    rw [show read64 data (8 * q) ^^^ valuemaskOf w value =
        (read64 data (8 * q) ^^^ valuemaskOf w value) >>> (0 * w) from by
      rw [Nat.zero_mul, Nat.shiftRight_zero]]
    rw [innerLoopEq_spec S eq hw data value base (8 * q) (q * (64 / w))
      hsc2 hlb hub (64 / w) 0 s (Nat.sub_zero (64 / w)).symm]
    rw [Nat.add_zero, Nat.sub_zero]
    have hcont : (fun s2 => chunkLoopEq S eq w data value (valuemaskOf w value) base
        endIdx (endIdx * w / 8 - 8) (8 * q + 8) s2) =
        (fun s2 => naive_scan S (eqCond eq) w data value base
          (q * (64 / w) + 64 / w) (endIdx - (q * (64 / w) + 64 / w)) s2) := by
      funext s2
      have h8b : (8 * q + 8) % 8 = 0 := by omega
      have harr : 8 * q + 8 = 8 * (q + 1) := by ring
      have hsucc : (q + 1) * (64 / w) = q * (64 / w) + 64 / w := by
        rw [Nat.add_mul, Nat.one_mul]
      have hle2 : (8 * q + 8) / 8 * 64 / no0 w ≤ endIdx := by
        rw [no0_pos w hw1, harr, (q_chunk_arith hw (q + 1)).1, hsucc]
        exact hbound
      rw [ih (endIdx * w / 8 - 8 - (8 * q + 8)) (by omega) (8 * q + 8) s2 rfl
        h8b hle2]
      rw [no0_pos w hw1, harr, (q_chunk_arith hw (q + 1)).1, hsucc]
    rw [hcont]
    rw [← naive_append]
    have hfin : 64 / w + (endIdx - (q * (64 / w) + 64 / w)) = endIdx - q * (64 / w) := by
      obtain ⟨k, hk⟩ : ∃ k, 64 / w = k := ⟨_, rfl⟩
      rw [hk] at hbound ⊢
      omega
    rw [hfin]
  · rw [dif_neg h]
    exact scalarLoop_eq_naive S (eqCond eq) w data (eqPred eq value) value base
      (fun x => eqPred_eq_condSat eq value x) _ _ s

theorem compare_equality_spec {σ : Type} (S : SinkOps σ) (eq : Bool) {w : Nat}
    (hw : supportedWidth w) (hw0 : w ≠ 0) (data : Nat) (value : Int)
    (start endIdx base : Nat) (s : σ)
    (hlb : lbound_for_width w ≤ value) (hub : value ≤ ubound_for_width w)
    (hse : start ≤ endIdx) :
    compare_equality S eq w data value start endIdx base s =
      naive_scan S (eqCond eq) w data value base start (endIdx - start) s := by
  have hw1 : 1 ≤ w := by omega
  unfold compare_equality
  simp only [no0_pos w hw1]
  rw [scalarLoop_eq_naive S (eqCond eq) w data (eqPred eq value) value base
    (fun x => eqPred_eq_condSat eq value x)]
  set ee := if round_up start (64 / w) > endIdx then endIdx
    else round_up start (64 / w) with hee
  have hstart_le : start ≤ ee := by
    rw [hee]
    split
    · exact hse
    · exact round_up_ge start (64 / w)
  have hee_le : ee ≤ endIdx := by
    rw [hee]
    split
    · exact le_refl endIdx
    · omega
  by_cases hcase : ee ≥ endIdx
  · have heq : ee = endIdx := by omega
    simp only [eq_true hcase, if_true]
    rw [seqScan_triv, heq]
  · simp only [eq_false hcase, if_false]
    by_cases hform : w ≠ 32 ∧ w ≠ 64
    · have htrick : trickWidth w := by
        rcases hw with h | h | h | h | h | h | h | h <;> subst h <;>
          first
          | exact absurd rfl hw0
          | exact absurd rfl hform.1
          | exact absurd rfl hform.2
          | simp [trickWidth]
      have hkpos : 0 < 64 / w := by
        rcases htrick with h | h | h | h | h <;> subst h <;> norm_num
      have hee_ru : ee = round_up start (64 / w) := by
        by_cases hgt : round_up start (64 / w) > endIdx
        · exfalso
          have hx : ee = endIdx := by rw [hee, if_pos hgt]
          omega
        · rw [hee, if_neg hgt]
      obtain ⟨m, hm⟩ : 64 / w ∣ ee := by
        rw [hee_ru]
        exact round_up_dvd start hkpos
      have hpb : ee * w / 8 = 8 * m := by
        rw [hm]
        have hmm : 64 / w * m * w = 8 * m * 8 := by
          calc 64 / w * m * w = m * (w * (64 / w)) := by ring
            _ = m * 64 := by rw [trickWidth_mul_div htrick]
            _ = 8 * m * 8 := by ring
        rw [hmm, Nat.mul_div_cancel _ (by norm_num)]
      simp only [eq_true hform, if_true, hpb]
      have hcont : (fun s1 => chunkLoopEq S eq w data value
          (((2 ^ 64 - 1) / no0 (maskW w) * (u64ofInt value &&& maskW w)) % 2 ^ 64)
          base endIdx (endIdx * w / 8 - 8) (8 * m) s1) =
          (fun s1 => naive_scan S (eqCond eq) w data value base ee
            (endIdx - ee) s1) := by
        funext s1
        show chunkLoopEq S eq w data value (valuemaskOf w value) base endIdx
          (endIdx * w / 8 - 8) (8 * m) s1 = _
        have hle2 : 8 * m / 8 * 64 / no0 w ≤ endIdx := by
          rw [no0_pos w hw1, (q_chunk_arith htrick m).1,
            show m * (64 / w) = ee from by rw [hm]; ring]
          exact hee_le
        have hstep := chunkLoopEq_spec S eq htrick data value base endIdx hlb hub
          (endIdx * w / 8 - 8 - 8 * m) (8 * m) s1 rfl (by omega) hle2
        rw [hstep, no0_pos w hw1, (q_chunk_arith htrick m).1,
          show m * (64 / w) = ee from by rw [hm]; ring]
      rw [hcont]
      exact naive_glue S (eqCond eq) w data value base start ee endIdx s
        hstart_le hee_le
    · simp only [eq_false hform, if_false]
      have hcont2 : (fun s1 => scalarLoop S w data (eqPred eq value) base ee
          (endIdx - ee) s1) =
          (fun s1 => naive_scan S (eqCond eq) w data value base ee
            (endIdx - ee) s1) := by
        funext s1
        exact scalarLoop_eq_naive S (eqCond eq) w data (eqPred eq value) value base
          (fun x => eqPred_eq_condSat eq value x) _ _ s1
      rw [hcont2]
      exact naive_glue S (eqCond eq) w data value base start ee endIdx s
        hstart_le hee_le

/-! ### The relation scan: per-lane loop -/

theorem getW_lane {w : Nat} (hw : trickWidth w) (data pb startC j : Nat)
    (hsc : w * startC = 8 * pb) (hj : j < 64 / w) :
    decodeVal w (laneBits w (read64 data pb) j) = getW w data (startC + j) := by
  rw [laneBits_read64 w data pb startC j hsc (lane_count_mul_le hw hj)]
  rw [getW, getUniversal_eq_decode _ _ _ (trickWidth_supported hw)]

theorem relTest_eq_condSat (gt : Bool) (value x : Int) :
    (if gt then decide (x > value) else decide (x < value)) =
      condSat (relCond gt) x value := by
  cases gt <;> simp [relCond, condSat]

theorem findGtltLoop_spec {σ : Type} (S : SinkOps σ) (gt : Bool) {w : Nat}
    (hw : trickWidth w) (data : Nat) (value : Int) (base pb startC : Nat)
    (hsc : w * startC = 8 * pb) :
    ∀ cnt i s, i + cnt ≤ 64 / w →
      findGtltLoop S gt w value (startC + base) (read64 data pb >>> (w * i)) i cnt s =
      naive_scan S (relCond gt) w data value base (startC + i) cnt s := by
  intro cnt
  induction cnt with
  | zero => intro i s _; rfl
  | succ cnt ih =>
    intro i s hle
    simp only [findGtltLoop]
    rw [and_maskW, getW_lane hw data pb startC i hsc (by omega)]
    rw [relTest_eq_condSat gt value]
    rw [naive_succ]
    by_cases hc : condSat (relCond gt) (getW w data (startC + i)) value
    · rw [if_pos hc, if_pos hc]
      rw [show i + (startC + base) = startC + i + base from by omega]
      rcases hm : S.mmatch s (startC + i + base) (getW w data (startC + i))
        with ⟨s2, cont⟩
      cases cont
      · simp
      · simp only [if_pos rfl]
        rw [← Nat.shiftRight_add, show w * i + w = w * (i + 1) from by
          rw [Nat.mul_succ]]
        rw [ih (i + 1) s2 (by omega)]
        rw [show startC + i + 1 = startC + (i + 1) from by omega]
    · rw [if_neg hc, if_neg hc]
      rw [← Nat.shiftRight_add, show w * i + w = w * (i + 1) from by
        rw [Nat.mul_succ]]
      rw [ih (i + 1) s (by omega)]
      rw [show startC + i + 1 = startC + (i + 1) from by omega]

theorem find_gtlt_spec {σ : Type} (S : SinkOps σ) (gt : Bool) {w : Nat}
    (hw : trickWidth w) (data : Nat) (value : Int) (base pb startC : Nat)
    (hsc : w * startC = 8 * pb) (s : σ) :
    find_gtlt S gt w value (read64 data pb) (startC + base) s =
      naive_scan S (relCond gt) w data value base startC (64 / w) s := by
  unfold find_gtlt
  rw [no0_pos w (trickWidth_pos hw)]
  rw [show read64 data pb = read64 data pb >>> (w * 0) from by
    rw [Nat.mul_zero, Nat.shiftRight_zero]]
  have h := findGtltLoop_spec S gt hw data value base pb startC hsc (64 / w) 0 s
    (by omega)
  rw [h, Nat.add_zero]

/-! ### Lane views of bitwise operations -/

theorem testBit_laneBits (w v j i : Nat) :
    (laneBits w v j).testBit i = (decide (i < w) && v.testBit (w * j + i)) := by
  unfold laneBits
  rw [← Nat.and_pow_two_sub_one_eq_mod, Nat.testBit_and,
    Nat.testBit_shiftRight, Nat.testBit_two_pow_sub_one, Bool.and_comm]

theorem laneBits_and (w x y j : Nat) :
    laneBits w (x &&& y) j = laneBits w x j &&& laneBits w y j := by
  apply Nat.eq_of_testBit_eq
  intro i
  rw [Nat.testBit_and, testBit_laneBits, testBit_laneBits, testBit_laneBits,
    Nat.testBit_and]
  cases hd : decide (i < w) <;> simp

theorem lane_add_no_carry {w : Nat} (hw : 1 ≤ w) :
    ∀ k a b, a < 2 ^ (w * k) → b < 2 ^ (w * k) →
      (∀ j, j < k → laneBits w a j + laneBits w b j < 2 ^ w) →
      a + b < 2 ^ (w * k) ∧
        ∀ j, j < k → laneBits w (a + b) j = laneBits w a j + laneBits w b j := by
  intro k
  induction k with
  | zero =>
    intro a b ha hb _
    rw [Nat.mul_zero, pow_zero] at ha hb
    constructor
    · rw [Nat.mul_zero, pow_zero]
      omega
    · intro j hj
      omega
  | succ k ih =>
    intro a b ha hb hlanes
    have ha0 : a % 2 ^ w < 2 ^ w := Nat.mod_lt _ (by positivity)
    have hb0 : b % 2 ^ w < 2 ^ w := Nat.mod_lt _ (by positivity)
    have hda := lane_decomp w a
    have hdb := lane_decomp w b
    have hsplit : (2 : Nat) ^ (w * (k + 1)) = 2 ^ w * 2 ^ (w * k) := by
      rw [← pow_add]
      congr 1
      ring
    have ha' : a >>> w < 2 ^ (w * k) := by
      rw [Nat.shiftRight_eq_div_pow]
      apply Nat.div_lt_of_lt_mul
      rw [← hsplit]
      exact ha
    have hb' : b >>> w < 2 ^ (w * k) := by
      rw [Nat.shiftRight_eq_div_pow]
      apply Nat.div_lt_of_lt_mul
      rw [← hsplit]
      exact hb
    have hl0 : a % 2 ^ w + b % 2 ^ w < 2 ^ w := by
      have h := hlanes 0 (by omega)
      unfold laneBits at h
      rw [Nat.mul_zero, Nat.shiftRight_zero, Nat.shiftRight_zero] at h
      exact h
    have hlanes' : ∀ j, j < k →
        laneBits w (a >>> w) j + laneBits w (b >>> w) j < 2 ^ w := by
      intro j hj
      have h := hlanes (j + 1) (by omega)
      rw [hda] at h
      rw [laneBits_succ_concat (a >>> w) ha0 j] at h
      conv at h =>
        rw [hdb, laneBits_succ_concat (b >>> w) hb0 j]
      exact h
    obtain ⟨hbd, hln⟩ := ih (a >>> w) (b >>> w) ha' hb' hlanes'
    have hform : a + b = (a % 2 ^ w + b % 2 ^ w) + 2 ^ w * (a >>> w + b >>> w) := by
      conv =>
        lhs
        rw [hda, hdb]
      ring
    constructor
    · rw [hform, hsplit]
      have h1 : a >>> w + b >>> w ≤ 2 ^ (w * k) - 1 := by omega
      have h2 := Nat.mul_le_mul_left (2 ^ w) h1
      have h3 : (2 : Nat) ^ w * (2 ^ (w * k) - 1) + 2 ^ w = 2 ^ w * 2 ^ (w * k) := by
        rw [← Nat.mul_succ]
        congr 1
        have h4 : (1 : Nat) ≤ 2 ^ (w * k) := Nat.one_le_two_pow
        omega
      omega
    · intro j hj
      match j with
      | 0 =>
        rw [hform, laneBits_zero_concat _ hl0]
        unfold laneBits
        rw [Nat.mul_zero, Nat.shiftRight_zero, Nat.shiftRight_zero]
      | j + 1 =>
        rw [hform, laneBits_succ_concat _ hl0 j, hln j (by omega)]
        conv =>
          rhs
          rw [hda, hdb, laneBits_succ_concat (a >>> w) ha0 j,
            laneBits_succ_concat (b >>> w) hb0 j]

/-! ### first_set_bit64 -/

theorem fsbAux_spec : ∀ fuel v, v ≠ 0 → v < 2 ^ fuel →
    v.testBit (fsbAux v fuel) = true ∧
      ∀ i, i < fsbAux v fuel → v.testBit i = false := by
  intro fuel
  induction fuel with
  | zero =>
    intro v hv hlt
    rw [pow_zero] at hlt
    omega
  | succ fuel ih =>
    intro v hv hlt
    simp only [fsbAux]
    by_cases h2 : v % 2 = 1
    · rw [if_pos h2]
      constructor
      · rw [Nat.testBit_zero]
        simp [h2]
      · intro i hi
        omega
    · rw [if_neg h2]
      have hv2 : v / 2 ≠ 0 := by omega
      have hlt2 : v / 2 < 2 ^ fuel := by
        rw [pow_succ] at hlt
        omega
      obtain ⟨h1, hmin⟩ := ih (v / 2) hv2 hlt2
      constructor
      · rw [show 1 + fsbAux (v / 2) fuel = fsbAux (v / 2) fuel + 1 from by omega]
        rw [Nat.testBit_succ]
        exact h1
      · intro i hi
        match i with
        | 0 =>
          rw [Nat.testBit_zero]
          simp
          omega
        | i + 1 =>
          rw [Nat.testBit_succ]
          exact hmin i (by omega)

theorem first_set_bit64_spec {v : Nat} (hv : v ≠ 0) (hlt : v < 2 ^ 64) :
    v.testBit (first_set_bit64 v) = true ∧
      ∀ i, i < first_set_bit64 v → v.testBit i = false :=
  fsbAux_spec 64 v hv hlt

/-! ### The magic-constant fast path: word structure -/

theorem mask2_eq {w : Nat} (hw : 1 ≤ w) : maskW w >>> 1 = 2 ^ (w - 1) - 1 := by
  rw [maskW_eq]
  rw [Nat.shiftRight_eq_div_pow, pow_one]
  have h : (2 : Nat) ^ w = 2 * 2 ^ (w - 1) := by
    rw [← pow_succ']
    congr 1
    omega
  have h1 : (1 : Nat) ≤ 2 ^ (w - 1) := Nat.one_le_two_pow
  rw [h]
  omega

theorem ones_div_mask {w : Nat} (hw : trickWidth w) :
    (2 ^ 64 - 1) / no0 (maskW w) = repN w (64 / w) 1 := by
  rcases hw with h | h | h | h | h <;> subst h <;> decide

theorem msb_word_eq {w : Nat} (hw : trickWidth w) :
    ((2 ^ 64 - 1) / no0 (maskW w) * (maskW w >>> 1 + 1)) % 2 ^ 64 =
      repN w (64 / w) (2 ^ (w - 1)) := by
  rcases hw with h | h | h | h | h <;> subst h <;> decide

theorem guard_word_eq {w : Nat} (hw : trickWidth w) :
    (lower_bits w <<< (no0 w - 1)) % 2 ^ 64 = repN w (64 / w) (2 ^ (w - 1)) := by
  rcases hw with h | h | h | h | h <;> subst h <;> decide

theorem half_lt_pow {w : Nat} (hw : 1 ≤ w) : 2 ^ (w - 1) < 2 ^ w :=
  Nat.pow_lt_pow_right (by norm_num) (by omega)

theorem msb_clear_lanes {w : Nat} (hw : trickWidth w) (v : Nat)
    (hguard : repN w (64 / w) (2 ^ (w - 1)) &&& v = 0) :
    ∀ j, j < 64 / w → laneBits w v j < 2 ^ (w - 1) := by
  intro j hj
  have hw1 := trickWidth_pos hw
  have h1 : laneBits w (repN w (64 / w) (2 ^ (w - 1)) &&& v) j = 0 := by
    rw [hguard, laneBits_zero]
  rw [laneBits_and, laneBits_repN (half_lt_pow hw1) (64 / w) j hj] at h1
  rw [Nat.and_comm, and_single_bit] at h1
  by_cases hb : (laneBits w v j).testBit (w - 1)
  · rw [if_pos hb] at h1
    exfalso
    have hp : (0 : Nat) < 2 ^ (w - 1) := Nat.pos_pow_of_pos _ (by norm_num)
    omega
  · have h2 := testBit_msb_iff hw1 (laneBits_lt w v j)
    rcases hbb : (laneBits w v j).testBit (w - 1)
    · by_contra hcon
      push_neg at hcon
      have := h2.mpr hcon
      rw [hbb] at this
      exact Bool.false_ne_true this
    · exact absurd hbb hb

theorem magic_gt_eq {w : Nat} (hw : trickWidth w) (value : Int) (vu : Nat)
    (hvu : value = (vu : Int)) (hle : vu ≤ 2 ^ (w - 1) - 1) :
    find_gtlt_magic true w value = repN w (64 / w) (2 ^ (w - 1) - 1 - vu) := by
  have hw1 := trickWidth_pos hw
  have hw16 : w ≤ 16 := by rcases hw with h | h | h | h | h <;> subst h <;> norm_num
  have hhalf : (2 : Nat) ^ (w - 1) ≤ 2 ^ 15 :=
    Nat.pow_le_pow_right (by norm_num) (by omega)
  have hvu64 : vu < 2 ^ 64 := by
    have : (2 : Nat) ^ 15 < 2 ^ 64 := by norm_num
    omega
  unfold find_gtlt_magic
  simp only [if_pos rfl]
  rw [mask2_eq hw1]
  have hu : u64ofInt value = vu := by
    rw [hvu]
    unfold u64ofInt
    rw [Int.emod_eq_of_lt (by positivity) (by exact_mod_cast hvu64)]
    simp
  rw [hu]
  have hb1 : (1 : Nat) ≤ 2 ^ (w - 1) := Nat.one_le_two_pow
  have hmod : (2 ^ (w - 1) - 1 + 2 ^ 64 - vu) % 2 ^ 64 = 2 ^ (w - 1) - 1 - vu := by
    omega
  rw [hmod, ones_div_mask hw]
  have hlt : 2 ^ (w - 1) - 1 - vu < 2 ^ w := by
    have := half_lt_pow hw1
    omega
  rw [repN_mul hlt]
  have hbd : repN w (64 / w) (2 ^ (w - 1) - 1 - vu) < 2 ^ 64 := by
    have h := repN_lt hlt (64 / w)
    rwa [trickWidth_mul_div hw] at h
  exact Nat.mod_eq_of_lt hbd

theorem and_msb_eq {w x : Nat} (hw : 1 ≤ w) (hx : x < 2 ^ w) :
    x &&& 2 ^ (w - 1) = if 2 ^ (w - 1) ≤ x then 2 ^ (w - 1) else 0 := by
  rw [and_single_bit]
  by_cases h : 2 ^ (w - 1) ≤ x
  · rw [if_pos ((testBit_msb_iff hw hx).mpr h), if_pos h]
  · have hb : x.testBit (w - 1) = false := by
      rcases hbb : x.testBit (w - 1)
      · rfl
      · exact absurd ((testBit_msb_iff hw hx).mp hbb) h
    rw [hb, if_neg h]
    simp

theorem gt_indicator {w : Nat} (hw : trickWidth w) (chunkv : Nat)
    (hcv : chunkv < 2 ^ 64) (vu : Nat) (hle : vu + 1 ≤ 2 ^ (w - 1) - 1)
    (hclear : ∀ j, j < 64 / w → laneBits w chunkv j < 2 ^ (w - 1)) (M : Nat)
    (hM : M = ((chunkv + repN w (64 / w) (2 ^ (w - 1) - 1 - vu)) % 2 ^ 64 ||| chunkv)
      &&& repN w (64 / w) (2 ^ (w - 1))) :
    (∀ j, j < 64 / w → laneBits w M j =
      if vu < laneBits w chunkv j then 2 ^ (w - 1) else 0) ∧
    (∀ j, 64 / w ≤ j → laneBits w M j = 0) ∧ M < 2 ^ 64 := by
  have hw1 := trickWidth_pos hw
  have h64 : (2 : Nat) ^ (w * (64 / w)) = 2 ^ 64 := by rw [trickWidth_mul_div hw]
  have hb1 : (1 : Nat) ≤ 2 ^ (w - 1) := Nat.one_le_two_pow
  have hpow : (2 : Nat) ^ w = 2 ^ (w - 1) + 2 ^ (w - 1) := by
    have h : (2 : Nat) ^ w = 2 * 2 ^ (w - 1) := by
      rw [← pow_succ']
      congr 1
      omega
    omega
  have hmv : 2 ^ (w - 1) - 1 - vu < 2 ^ w := by omega
  have hms : (2 : Nat) ^ (w - 1) < 2 ^ w := half_lt_pow hw1
  obtain ⟨hsum_lt, hsum_lanes⟩ := lane_add_no_carry hw1 (64 / w) chunkv
    (repN w (64 / w) (2 ^ (w - 1) - 1 - vu)) (by rw [h64]; exact hcv)
    (repN_lt hmv (64 / w))
    (by
      intro j hj
      rw [laneBits_repN hmv (64 / w) j hj]
      have h := hclear j hj
      omega)
  have hmod : (chunkv + repN w (64 / w) (2 ^ (w - 1) - 1 - vu)) % 2 ^ 64 =
      chunkv + repN w (64 / w) (2 ^ (w - 1) - 1 - vu) := by
    rw [← h64]
    exact Nat.mod_eq_of_lt hsum_lt
  have hMle : M < 2 ^ 64 := by
    rw [hM]
    calc _ ≤ repN w (64 / w) (2 ^ (w - 1)) := Nat.and_le_right
      _ < 2 ^ (w * (64 / w)) := repN_lt hms (64 / w)
      _ = 2 ^ 64 := h64
  refine ⟨?_, ?_, hMle⟩
  · intro j hj
    rw [hM, hmod, laneBits_and, laneBits_lor, laneBits_repN hms (64 / w) j hj,
      Nat.and_distrib_right, hsum_lanes j hj, laneBits_repN hmv (64 / w) j hj]
    have hcl := hclear j hj
    have hsumb : laneBits w chunkv j + (2 ^ (w - 1) - 1 - vu) < 2 ^ w := by omega
    rw [and_msb_eq hw1 hsumb, and_msb_eq hw1 (lt_trans hcl hms)]
    have hnotc : ¬ (2 ^ (w - 1) ≤ laneBits w chunkv j) := by omega
    rw [if_neg hnotc]
    have hiff : (2 ^ (w - 1) ≤ laneBits w chunkv j + (2 ^ (w - 1) - 1 - vu)) ↔
        (vu < laneBits w chunkv j) := by omega
    by_cases hcnd : vu < laneBits w chunkv j
    · rw [if_pos (hiff.mpr hcnd), if_pos hcnd]
      simp
    · rw [if_neg (fun hcc => hcnd (hiff.mp hcc)), if_neg hcnd]
      simp
  · intro j hj
    have hlt : M < 2 ^ (w * (64 / w)) := by rw [h64]; exact hMle
    exact laneBits_of_lt (64 / w) hlt j hj

theorem div_lane_idx {w j r : Nat} (hw : 1 ≤ w) (hr : r < w) :
    (w * j + r) / w = j := by
  rw [Nat.add_comm, Nat.add_mul_div_left r j hw, Nat.div_eq_of_lt hr]
  omega

theorem findGtltFastLoop_spec {σ : Type} (S : SinkOps σ) {w : Nat}
    (hw : trickWidth w) (data : Nat) (value : Int) (base pb startC : Nat)
    (hsc : w * startC = 8 * pb) (M : Nat) (hM64 : M < 2 ^ 64)
    (hlane : ∀ j, j < 64 / w → laneBits w M j =
      if condSat Cond.greater (getW w data (startC + j)) value = true then 2 ^ (w - 1)
      else 0)
    (hlane0 : ∀ j, 64 / w ≤ j → laneBits w M j = 0)
    (hval : ∀ j, j < 64 / w →
      ((laneBits w (read64 data pb) j : Nat) : Int) = getW w data (startC + j)) :
    ∀ n p fuel s, n = 64 / w - p → 64 / w - p < fuel →
      findGtltFastLoop S w (read64 data pb) (maskW w) (startC + base)
        (M >>> (w * p)) p fuel s =
      naive_scan S Cond.greater w data value base (startC + p) (64 / w - p) s := by
  have hw1 := trickWidth_pos hw
  have hb1 : (1 : Nat) ≤ 2 ^ (w - 1) := Nat.one_le_two_pow
  have hLsh : ∀ p j, laneBits w (M >>> (w * p)) j = laneBits w M (p + j) :=
    fun p j => laneBits_shiftRight w M j p
  intro n
  induction n using Nat.strong_induction_on with
  | _ n ih =>
  intro p fuel s hn hfuel
  match fuel with
  | fuel + 1 =>
  simp only [findGtltFastLoop]
  by_cases hm0 : M >>> (w * p) = 0
  · rw [if_neg (not_not_intro hm0)]
    symm
    apply naive_no_match
    intro i h1 h2
    obtain ⟨j, rfl, hjlt⟩ : ∃ j, i = startC + (p + j) ∧ p + j < 64 / w :=
      ⟨i - startC - p, by omega, by omega⟩
    rcases hcc : condSat Cond.greater (getW w data (startC + (p + j))) value
    · rfl
    · exfalso
      have hl := hlane (p + j) hjlt
      rw [hcc, if_pos rfl] at hl
      have hz : laneBits w M (p + j) = 0 := by
        rw [← hLsh p j, hm0, laneBits_zero]
      omega
  · rw [if_pos hm0]
    rw [if_neg (by simp [find_action_pattern])]
    have hmlt : M >>> (w * p) < 2 ^ 64 :=
      lt_of_le_of_lt
        (by rw [Nat.shiftRight_eq_div_pow]; exact Nat.div_le_self _ _) hM64
    obtain ⟨hfb, hfbmin⟩ := first_set_bit64_spec hm0 hmlt
    have hLvals : ∀ i, laneBits w M i = 2 ^ (w - 1) ∨ laneBits w M i = 0 := by
      intro i
      by_cases hi : i < 64 / w
      · have h := hlane i hi
        rcases hcc : condSat Cond.greater (getW w data (startC + i)) value
        · rw [hcc] at h
          right
          rw [h, if_neg (by simp)]
        · rw [hcc] at h
          left
          rw [h, if_pos rfl]
      · right
        exact hlane0 i (by omega)
    have hdm := Nat.div_add_mod (first_set_bit64 (M >>> (w * p))) w
    have hrlt : first_set_bit64 (M >>> (w * p)) % w < w := Nat.mod_lt _ (by omega)
    have htb : (laneBits w (M >>> (w * p))
        (first_set_bit64 (M >>> (w * p)) / w)).testBit
        (first_set_bit64 (M >>> (w * p)) % w) = true := by
      rw [testBit_laneBits, hdm, hfb]
      simp [hrlt]
    have hlne : laneBits w (M >>> (w * p)) (first_set_bit64 (M >>> (w * p)) / w) =
        2 ^ (w - 1) := by
      rcases hLvals (p + first_set_bit64 (M >>> (w * p)) / w) with h | h
      · rw [hLsh]
        exact h
      · exfalso
        rw [← hLsh p] at h
        rw [h] at htb
        simp at htb
    have hrw : first_set_bit64 (M >>> (w * p)) % w = w - 1 := by
      rw [hlne] at htb
      by_contra hne
      rw [Nat.testBit_two_pow_of_ne (fun hh => hne hh.symm)] at htb
      exact Bool.false_ne_true htb
    have hmin_lane : ∀ j, j < first_set_bit64 (M >>> (w * p)) / w →
        laneBits w (M >>> (w * p)) j = 0 := by
      intro j hj
      rcases hLvals (p + j) with h | h
      · exfalso
        have htb2 : (M >>> (w * p)).testBit (w * j + (w - 1)) = true := by
          have h3 : (laneBits w (M >>> (w * p)) j).testBit (w - 1) = true := by
            rw [hLsh, h, Nat.testBit_two_pow_self]
          rw [testBit_laneBits] at h3
          simp only [Bool.and_eq_true, decide_eq_true_eq] at h3
          exact h3.2
        have hlt2 : w * j + (w - 1) < first_set_bit64 (M >>> (w * p)) := by
          have h4 : w * j + w ≤ w * (first_set_bit64 (M >>> (w * p)) / w) := by
            rw [← Nat.mul_succ]
            exact Nat.mul_le_mul_left w hj
          omega
        rw [hfbmin _ hlt2] at htb2
        exact Bool.false_ne_true htb2
      · rw [← hLsh p] at h
        exact h
    have hT : first_set_bit64 (M >>> (w * p)) / no0 w =
        first_set_bit64 (M >>> (w * p)) / w := by rw [no0_pos w hw1]
    have hplt : p + first_set_bit64 (M >>> (w * p)) / w < 64 / w := by
      by_contra hge
      push_neg at hge
      have h := hlane0 _ hge
      rw [← hLsh p] at h
      rw [h] at hlne
      omega
    have hmatch : condSat Cond.greater
        (getW w data (startC + (p + first_set_bit64 (M >>> (w * p)) / w))) value =
        true := by
      have h := hlane _ hplt
      rw [← hLsh p] at h
      rw [hlne] at h
      rcases hcc : condSat Cond.greater
        (getW w data (startC + (p + first_set_bit64 (M >>> (w * p)) / w))) value
      · rw [hcc, if_neg (by simp)] at h
        omega
      · rfl
    rw [hT]
    have hskip : naive_scan S Cond.greater w data value base (startC + p)
        (64 / w - p) s = naive_scan S Cond.greater w data value base
        (startC + p + first_set_bit64 (M >>> (w * p)) / w)
        (64 / w - p - first_set_bit64 (M >>> (w * p)) / w) s := by
      apply naive_skip
      · omega
      · intro i h1 h2
        obtain ⟨j, rfl, hjlt⟩ : ∃ j, i = startC + (p + j) ∧
            j < first_set_bit64 (M >>> (w * p)) / w :=
          ⟨i - startC - p, by omega, by omega⟩
        rcases hcc : condSat Cond.greater (getW w data (startC + (p + j))) value
        · rfl
        · exfalso
          have h := hlane (p + j) (by omega)
          rw [hcc, if_pos rfl, ← hLsh p, hmin_lane j hjlt] at h
          omega
    rw [hskip]
    rw [show startC + p + first_set_bit64 (M >>> (w * p)) / w =
        startC + (p + first_set_bit64 (M >>> (w * p)) / w) from by omega]
    rw [show 64 / w - p - first_set_bit64 (M >>> (w * p)) / w =
        (64 / w - (p + first_set_bit64 (M >>> (w * p)) / w + 1)) + 1 from by omega]
    rw [naive_succ, if_pos hmatch]
    have hvv : ((read64 data pb >>>
        ((p + first_set_bit64 (M >>> (w * p)) / w) * w)) &&& maskW w : Nat) =
        laneBits w (read64 data pb) (p + first_set_bit64 (M >>> (w * p)) / w) := by
      rw [show (p + first_set_bit64 (M >>> (w * p)) / w) * w =
          w * (p + first_set_bit64 (M >>> (w * p)) / w) from Nat.mul_comm _ _]
      exact and_maskW _ _ _
    rw [hvv, hval _ hplt]
    rw [show p + first_set_bit64 (M >>> (w * p)) / w + (startC + base) =
        startC + (p + first_set_bit64 (M >>> (w * p)) / w) + base from by omega]
    rcases hmm : S.mmatch s
        (startC + (p + first_set_bit64 (M >>> (w * p)) / w) + base)
        (getW w data (startC + (p + first_set_bit64 (M >>> (w * p)) / w)))
      with ⟨s2, cont⟩
    cases cont
    · simp
    · simp only [if_pos rfl]
      have hm2 : (if (first_set_bit64 (M >>> (w * p)) / w + 1) * w = 64 then 0
          else M >>> (w * p) >>> ((first_set_bit64 (M >>> (w * p)) / w + 1) * w)) =
          M >>> (w * (p + first_set_bit64 (M >>> (w * p)) / w + 1)) := by
        by_cases hccc : (first_set_bit64 (M >>> (w * p)) / w + 1) * w = 64
        · rw [if_pos hccc]
          symm
          rw [Nat.shiftRight_eq_div_pow]
          apply Nat.div_eq_of_lt
          calc M < 2 ^ 64 := hM64
            _ ≤ 2 ^ (w * (p + first_set_bit64 (M >>> (w * p)) / w + 1)) := by
              apply Nat.pow_le_pow_right (by norm_num)
              have : w * (p + first_set_bit64 (M >>> (w * p)) / w + 1) =
                  w * p + (first_set_bit64 (M >>> (w * p)) / w + 1) * w := by ring
              omega
        · rw [if_neg hccc, ← Nat.shiftRight_add]
          congr 1
          ring
      rw [hm2]
      rw [ih (64 / w - (p + first_set_bit64 (M >>> (w * p)) / w + 1))
        (by
          obtain ⟨T, hT2⟩ : ∃ T, first_set_bit64 (M >>> (w * p)) / w = T := ⟨_, rfl⟩
          obtain ⟨K, hK2⟩ : ∃ K, 64 / w = K := ⟨_, rfl⟩
          rw [hT2, hK2] at hplt ⊢
          rw [hK2] at hn
          omega)
        (p + first_set_bit64 (M >>> (w * p)) / w + 1) fuel s2 rfl
        (by
          obtain ⟨T, hT2⟩ : ∃ T, first_set_bit64 (M >>> (w * p)) / w = T := ⟨_, rfl⟩
          obtain ⟨K, hK2⟩ : ∃ K, 64 / w = K := ⟨_, rfl⟩
          rw [hT2, hK2] at hplt ⊢
          rw [hK2] at hfuel
          omega)]
      rw [show startC + (p + first_set_bit64 (M >>> (w * p)) / w) + 1 =
          startC + (p + first_set_bit64 (M >>> (w * p)) / w + 1) from by omega]

theorem decodeVal_of_msb_clear {w raw : Nat} (h : raw < 2 ^ (w - 1)) :
    decodeVal w raw = (raw : Int) := by
  unfold decodeVal signedOfBits
  by_cases h8 : w < 8
  · rw [if_pos h8]
  · rw [if_neg h8, if_pos h]

theorem find_gtlt_fast_spec {σ : Type} (S : SinkOps σ) {w : Nat} (hw : trickWidth w)
    (data : Nat) (value : Int) (base pb startC : Nat) (hsc : w * startC = 8 * pb)
    (vu : Nat) (hvu : value = (vu : Int)) (hle : vu + 1 ≤ 2 ^ (w - 1) - 1)
    (hclear : repN w (64 / w) (2 ^ (w - 1)) &&& read64 data pb = 0) (s : σ) :
    find_gtlt_fast S true w (read64 data pb) (find_gtlt_magic true w value)
      (startC + base) s =
    naive_scan S Cond.greater w data value base startC (64 / w) s := by
  have hw1 := trickWidth_pos hw
  have hcv : read64 data pb < 2 ^ 64 := Nat.mod_lt _ (by positivity)
  have hclear' := msb_clear_lanes hw (read64 data pb) hclear
  unfold find_gtlt_fast
  simp only [eq_self_iff_true, if_true]
  rw [msb_word_eq hw, magic_gt_eq hw value vu hvu (by omega)]
  obtain ⟨hlane', hlane0', hM64⟩ := gt_indicator hw (read64 data pb) hcv vu hle
    hclear' _ rfl
  have hval : ∀ j, j < 64 / w →
      ((laneBits w (read64 data pb) j : Nat) : Int) = getW w data (startC + j) := by
    intro j hj
    rw [← getW_lane hw data pb startC j hsc hj,
      decodeVal_of_msb_clear (hclear' j hj)]
  have hlane : ∀ j, j < 64 / w →
      laneBits w (((read64 data pb + repN w (64 / w) (2 ^ (w - 1) - 1 - vu)) % 2 ^ 64
          ||| read64 data pb) &&& repN w (64 / w) (2 ^ (w - 1))) j =
      if condSat Cond.greater (getW w data (startC + j)) value = true then 2 ^ (w - 1)
      else 0 := by
    intro j hj
    rw [hlane' j hj]
    have hcast : condSat Cond.greater (getW w data (startC + j)) value = true ↔
        vu < laneBits w (read64 data pb) j := by
      unfold condSat
      rw [← hval j hj, hvu, decide_eq_true_eq]
      exact ⟨fun h => by exact_mod_cast h, fun h => by exact_mod_cast h⟩
    by_cases hcnd : vu < laneBits w (read64 data pb) j
    · rw [if_pos hcnd, if_pos (hcast.mpr hcnd)]
    · rw [if_neg hcnd, if_neg (fun hcc => hcnd (hcast.mp hcc))]
  have hloop := findGtltFastLoop_spec S hw data value base pb startC hsc _ hM64
    hlane hlane0' hval (64 / w) 0 70 s (Nat.sub_zero (64 / w)).symm
    (by
      have h := Nat.div_le_self 64 w
      omega)
  rw [show (((read64 data pb + repN w (64 / w) (2 ^ (w - 1) - 1 - vu)) % 2 ^ 64
      ||| read64 data pb) &&& repN w (64 / w) (2 ^ (w - 1))) =
      (((read64 data pb + repN w (64 / w) (2 ^ (w - 1) - 1 - vu)) % 2 ^ 64
      ||| read64 data pb) &&& repN w (64 / w) (2 ^ (w - 1))) >>> (w * 0) from by
    rw [Nat.mul_zero, Nat.shiftRight_zero]]
  rw [hloop, Nat.add_zero, Nat.sub_zero]

theorem guard_word_eq2 {w : Nat} (hw : trickWidth w) :
    (lower_bits w <<< (w - 1)) % 2 ^ 64 = repN w (64 / w) (2 ^ (w - 1)) := by
  rcases hw with h | h | h | h | h <;> subst h <;> decide

theorem lanes_pos {w : Nat} (hw : trickWidth w) : 0 < 64 / w := by
  rcases hw with h | h | h | h | h <;> subst h <;> norm_num

theorem useMagic_cases {w : Nat} (hw : trickWidth w) (gt : Bool) (value : Int)
    (h : (decide (value ≠ ((find_gtlt_magic gt w value &&& maskW w : Nat) : Int)) &&
        decide (0 ≤ value) && decide (2 ≤ w) &&
        decide (value ≤ (((maskW w >>> 1) - (if gt then 1 else 0) : Nat) : Int))) =
        true) :
    gt = true ∧ ∃ vu : Nat, value = (vu : Int) ∧ vu + 1 ≤ 2 ^ (w - 1) - 1 := by
  have hw1 := trickWidth_pos hw
  have hmask2 := mask2_eq hw1
  simp only [Bool.and_eq_true, decide_eq_true_eq] at h
  obtain ⟨⟨⟨h1, h2⟩, h3⟩, h4⟩ := h
  have hb2 : (2 : Nat) ≤ 2 ^ (w - 1) := by
    calc (2 : Nat) = 2 ^ 1 := by norm_num
      _ ≤ 2 ^ (w - 1) := Nat.pow_le_pow_right (by norm_num) (by omega)
  cases gt
  · exfalso
    apply h1
    rw [hmask2] at h4
    simp only [if_neg (by simp : ¬ (false = true)), Nat.sub_zero] at h4
    have hvu : value = ((value.toNat : Nat) : Int) := (Int.toNat_of_nonneg h2).symm
    have hvule : value.toNat ≤ 2 ^ (w - 1) - 1 := Int.toNat_le.mpr h4
    have hvu2w : value.toNat < 2 ^ w := by
      have := half_lt_pow hw1
      omega
    have hvu64 : value.toNat < 2 ^ 64 := by
      have hw16 : w ≤ 16 := by rcases hw with h | h | h | h | h <;> subst h <;> norm_num
      have hmono : (2 : Nat) ^ w ≤ 2 ^ 64 := Nat.pow_le_pow_right (by norm_num) (by omega)
      omega
    have hu : u64ofInt value = value.toNat := by
      unfold u64ofInt
      rw [hvu]
      rw [Int.emod_eq_of_lt (by positivity) (by exact_mod_cast hvu64)]
    have hmagic : find_gtlt_magic false w value = repN w (64 / w) value.toNat := by
      unfold find_gtlt_magic
      simp only [if_neg (by simp : ¬ (false = true))]
      rw [hu, ones_div_mask hw, repN_mul hvu2w]
      apply Nat.mod_eq_of_lt
      have h := repN_lt hvu2w (64 / w)
      rwa [trickWidth_mul_div hw] at h
    rw [hmagic, maskW_eq, Nat.and_pow_two_sub_one_eq_mod]
    have hlane0 : repN w (64 / w) value.toNat % 2 ^ w =
        laneBits w (repN w (64 / w) value.toNat) 0 := by
      unfold laneBits
      rw [Nat.mul_zero, Nat.shiftRight_zero]
    rw [hlane0, laneBits_repN hvu2w (64 / w) 0 (lanes_pos hw)]
    exact hvu
  · refine ⟨rfl, value.toNat, (Int.toNat_of_nonneg h2).symm, ?_⟩
    rw [hmask2] at h4
    simp only [if_pos rfl] at h4
    have hvule : value.toNat ≤ 2 ^ (w - 1) - 1 - 1 := Int.toNat_le.mpr h4
    omega

theorem chunkLoopRel_spec {σ : Type} (S : SinkOps σ) (gt : Bool) {w : Nat}
    (hw : trickWidth w) (data : Nat) (value : Int) (base endIdx : Nat)
    (magic : Nat) (useMagic : Bool)
    (hmagic : magic = find_gtlt_magic gt w value)
    (hUM : useMagic = true →
      gt = true ∧ ∃ vu : Nat, value = (vu : Int) ∧ vu + 1 ≤ 2 ^ (w - 1) - 1) :
    ∀ n pb s, n = endIdx * w / 8 - 8 - pb → pb % 8 = 0 →
      pb / 8 * 64 / no0 w ≤ endIdx →
      chunkLoopRel S gt w data value magic useMagic base endIdx
        (endIdx * w / 8 - 8) pb s =
      naive_scan S (relCond gt) w data value base (pb / 8 * 64 / no0 w)
        (endIdx - pb / 8 * 64 / no0 w) s := by
  intro n
  induction n using Nat.strong_induction_on with
  | _ n ih =>
  intro pb s hn h8 hle
  have hw1 := trickWidth_pos hw
  obtain ⟨q, rfl⟩ : ∃ q, pb = 8 * q := ⟨pb / 8, by omega⟩
  obtain ⟨hsc1, hsc2⟩ := q_chunk_arith hw q
  rw [chunkLoopRel]
  by_cases h : 8 * q < endIdx * w / 8 - 8
  · rw [dif_pos h]
    have hE8 : endIdx * w / 8 * 8 ≤ endIdx * w := Nat.div_mul_le_self (endIdx * w) 8
    have hmul : w * (q * (64 / w) + 64 / w) = 8 * (8 * q + 8) := by
      rw [Nat.mul_add, hsc2, trickWidth_mul_div hw]
      ring
    have hbound : q * (64 / w) + 64 / w ≤ endIdx := by
      have h2 : w * (q * (64 / w) + 64 / w) ≤ w * endIdx := by
        rw [hmul]
        calc 8 * (8 * q + 8) ≤ 8 * (endIdx * w / 8) := by omega
          _ = endIdx * w / 8 * 8 := by ring
          _ ≤ endIdx * w := hE8
          _ = w * endIdx := Nat.mul_comm _ _
      exact Nat.le_of_mul_le_mul_left h2 hw1
    simp only [no0_pos w hw1]
    rw [hsc1]
    have hrr : (if useMagic = true then
        (if (lower_bits w <<< (w - 1)) % 2 ^ 64 &&& read64 data (8 * q) = 0 then
          find_gtlt_fast S gt w (read64 data (8 * q)) magic (q * (64 / w) + base) s
        else find_gtlt S gt w value (read64 data (8 * q)) (q * (64 / w) + base) s)
      else find_gtlt S gt w value (read64 data (8 * q)) (q * (64 / w) + base) s) =
        naive_scan S (relCond gt) w data value base (q * (64 / w)) (64 / w) s := by
      by_cases hum : useMagic = true
      · rw [if_pos hum]
        obtain ⟨hgt, vu, hvu, hvule⟩ := hUM hum
        subst hgt
        by_cases hgd : (lower_bits w <<< (w - 1)) % 2 ^ 64 &&& read64 data (8 * q) = 0
        · rw [if_pos hgd]
          rw [guard_word_eq2 hw] at hgd
          rw [hmagic]
          rw [find_gtlt_fast_spec S hw data value base (8 * q) (q * (64 / w))
            hsc2 vu hvu hvule hgd s]
          rfl
        · rw [if_neg hgd]
          rw [find_gtlt_spec S true hw data value base (8 * q) (q * (64 / w)) hsc2 s]
      · rw [if_neg hum]
        rw [find_gtlt_spec S gt hw data value base (8 * q) (q * (64 / w)) hsc2 s]
    rw [hrr]
    have hcont : (fun s2 => chunkLoopRel S gt w data value magic useMagic base
        endIdx (endIdx * w / 8 - 8) (8 * q + 8) s2) =
        (fun s2 => naive_scan S (relCond gt) w data value base
          (q * (64 / w) + 64 / w) (endIdx - (q * (64 / w) + 64 / w)) s2) := by
      funext s2
      have h8b : (8 * q + 8) % 8 = 0 := by omega
      have harr : 8 * q + 8 = 8 * (q + 1) := by ring
      have hsucc : (q + 1) * (64 / w) = q * (64 / w) + 64 / w := by
        rw [Nat.add_mul, Nat.one_mul]
      have hle2 : (8 * q + 8) / 8 * 64 / no0 w ≤ endIdx := by
        rw [no0_pos w hw1, harr, (q_chunk_arith hw (q + 1)).1, hsucc]
        exact hbound
      rw [ih (endIdx * w / 8 - 8 - (8 * q + 8)) (by omega) (8 * q + 8) s2 rfl
        h8b hle2]
      rw [no0_pos w hw1, harr, (q_chunk_arith hw (q + 1)).1, hsucc]
    rw [hcont]
    rw [← naive_append]
    have hfin : 64 / w + (endIdx - (q * (64 / w) + 64 / w)) =
        endIdx - q * (64 / w) := by
      obtain ⟨k, hk⟩ : ∃ k, 64 / w = k := ⟨_, rfl⟩
      rw [hk] at hbound ⊢
      omega
    rw [hfin]
  · rw [dif_neg h]
    exact scalarLoop_eq_naive S (relCond gt) w data (relPred gt value) value base
      (fun x => relPred_eq_condSat gt value x) _ _ s

theorem compare_relation_spec {σ : Type} (S : SinkOps σ) (gt : Bool) {w : Nat}
    (hw0 : w ≠ 0) (data : Nat) (value : Int) (start endIdx base : Nat) (s : σ)
    (hse : start ≤ endIdx) :
    compare_relation S gt w data value start endIdx base s =
      naive_scan S (relCond gt) w data value base start (endIdx - start) s := by
  have hw1 : 1 ≤ w := by omega
  unfold compare_relation
  simp only [no0_pos w hw1]
  rw [scalarLoop_eq_naive S (relCond gt) w data (relPred gt value) value base
    (fun x => relPred_eq_condSat gt value x)]
  set ee := if round_up start (64 / w) > endIdx then endIdx
    else round_up start (64 / w) with hee
  have hstart_le : start ≤ ee := by
    rw [hee]
    split
    · exact hse
    · exact round_up_ge start (64 / w)
  have hee_le : ee ≤ endIdx := by
    rw [hee]
    split
    · exact le_refl endIdx
    · omega
  by_cases hcase : ee ≥ endIdx
  · have heq : ee = endIdx := by omega
    simp only [eq_true hcase, if_true]
    rw [seqScan_triv, heq]
  · simp only [eq_false hcase, if_false]
    by_cases hform : w = 1 ∨ w = 2 ∨ w = 4 ∨ w = 8 ∨ w = 16
    · have htrick : trickWidth w := hform
      have hkpos : 0 < 64 / w := lanes_pos htrick
      have hee_ru : ee = round_up start (64 / w) := by
        by_cases hgt : round_up start (64 / w) > endIdx
        · exfalso
          have hx : ee = endIdx := by rw [hee, if_pos hgt]
          omega
        · rw [hee, if_neg hgt]
      obtain ⟨m, hm⟩ : 64 / w ∣ ee := by
        rw [hee_ru]
        exact round_up_dvd start hkpos
      have hpb : ee * w / 8 = 8 * m := by
        rw [hm]
        have hmm : 64 / w * m * w = 8 * m * 8 := by
          calc 64 / w * m * w = m * (w * (64 / w)) := by ring
            _ = m * 64 := by rw [trickWidth_mul_div htrick]
            _ = 8 * m * 8 := by ring
        rw [hmm, Nat.mul_div_cancel _ (by norm_num)]
      simp only [eq_true hform, if_true, hpb]
      have hcont : (fun s1 => chunkLoopRel S gt w data value
          (find_gtlt_magic gt w value)
          (decide (value ≠ ((find_gtlt_magic gt w value &&& maskW w : Nat) : Int)) &&
            decide (0 ≤ value) && decide (2 ≤ w) &&
            decide (value ≤ (((maskW w >>> 1) - (if gt then 1 else 0) : Nat) : Int)))
          base endIdx (endIdx * w / 8 - 8) (8 * m) s1) =
          (fun s1 => naive_scan S (relCond gt) w data value base ee
            (endIdx - ee) s1) := by
        funext s1
        have hle2 : 8 * m / 8 * 64 / no0 w ≤ endIdx := by
          rw [no0_pos w hw1, (q_chunk_arith htrick m).1,
            show m * (64 / w) = ee from by rw [hm]; ring]
          exact hee_le
        have hstep := chunkLoopRel_spec S gt htrick data value base endIdx
          (find_gtlt_magic gt w value) _ rfl
          (fun hum => useMagic_cases htrick gt value hum)
          (endIdx * w / 8 - 8 - 8 * m) (8 * m) s1 rfl (by omega) hle2
        rw [hstep, no0_pos w hw1, (q_chunk_arith htrick m).1,
          show m * (64 / w) = ee from by rw [hm]; ring]
      rw [hcont]
      exact naive_glue S (relCond gt) w data value base start ee endIdx s
        hstart_le hee_le
    · simp only [eq_false hform, if_false]
      have hcont2 : (fun s1 => scalarLoop S w data (relPred gt value) base ee
          (endIdx - ee) s1) =
          (fun s1 => naive_scan S (relCond gt) w data value base ee
            (endIdx - ee) s1) := by
        funext s1
        exact scalarLoop_eq_naive S (relCond gt) w data (relPred gt value) value base
          (fun x => relPred_eq_condSat gt value x) _ _ s1
      rw [hcont2]
      exact naive_glue S (relCond gt) w data value base start ee endIdx s
        hstart_le hee_le

/-! ### Dispatch, early-outs, find_all -/

theorem compare_spec {σ : Type} (S : SinkOps σ) (c : Cond) {w : Nat}
    (hw : supportedWidth w) (hw0 : w ≠ 0) (data : Nat) (value : Int)
    (start endIdx base : Nat) (s : σ)
    (hlb : lbound_for_width w ≤ value) (hub : value ≤ ubound_for_width w)
    (hse : start ≤ endIdx) :
    compare S c w data value start endIdx base s =
      naive_scan S c w data value base start (endIdx - start) s := by
  cases c
  · exact compare_equality_spec S true hw hw0 data value start endIdx base s hlb hub hse
  · exact compare_equality_spec S false hw hw0 data value start endIdx base s hlb hub hse
  · exact compare_relation_spec S true hw0 data value start endIdx base s hse
  · exact compare_relation_spec S false hw0 data value start endIdx base s hse

theorem can_match_sound (c : Cond) (v lb ub x : Int) (hx1 : lb ≤ x) (hx2 : x ≤ ub)
    (h : can_match c v lb ub = false) : condSat c x v = false := by
  cases c
  case equal =>
    simp only [can_match, decide_eq_false_iff_not] at h
    simp only [condSat, decide_eq_false_iff_not]
    omega
  case notEqual =>
    have h2 : decide (v = lb ∧ v = ub) = true := by
      rcases hd : decide (v = lb ∧ v = ub)
      · unfold can_match at h
        rw [hd] at h
        simp at h
      · rfl
    rw [decide_eq_true_eq] at h2
    simp only [condSat, decide_eq_false_iff_not, ne_eq, not_not]
    omega
  case greater =>
    simp only [can_match, decide_eq_false_iff_not, not_lt] at h
    simp only [condSat, decide_eq_false_iff_not, gt_iff_lt, not_lt]
    omega
  case less =>
    simp only [can_match, decide_eq_false_iff_not, not_lt] at h
    simp only [condSat, decide_eq_false_iff_not, not_lt]
    omega

theorem will_match_sound (c : Cond) (v lb ub x : Int) (hx1 : lb ≤ x) (hx2 : x ≤ ub)
    (h : will_match c v lb ub = true) : condSat c x v = true := by
  cases c <;>
    simp only [will_match, condSat, decide_eq_true_eq, gt_iff_lt, ne_eq] at h ⊢ <;>
    omega

theorem compare_bounds (c : Cond) (v lb ub : Int) (hcan : can_match c v lb ub = true)
    (hwill : will_match c v lb ub = false) : lb ≤ v ∧ v ≤ ub := by
  cases c <;>
    simp only [can_match, will_match, decide_eq_true_eq, decide_eq_false_iff_not,
      Bool.not_eq_false, not_and, not_or, not_lt, not_le] at hcan hwill <;>
    omega

theorem width0_no_compare (c : Cond) (v : Int) (hcan : can_match c v 0 0 = true)
    (hwill : will_match c v 0 0 = false) : False := by
  cases c
  case equal =>
    simp only [can_match, decide_eq_true_eq] at hcan
    simp only [will_match, decide_eq_false_iff_not, not_and] at hwill
    omega
  case notEqual =>
    have h2 : decide (v = 0 ∧ v = 0) = false := by
      rcases hd : decide (v = 0 ∧ v = 0)
      · rfl
      · unfold can_match at hcan
        rw [hd] at hcan
        simp at hcan
    rw [decide_eq_false_iff_not] at h2
    simp only [will_match, decide_eq_false_iff_not, not_or, not_lt] at hwill
    omega
  case greater =>
    simp only [can_match, decide_eq_true_eq] at hcan
    simp only [will_match, decide_eq_false_iff_not, not_lt] at hwill
    omega
  case less =>
    simp only [can_match, decide_eq_true_eq] at hcan
    simp only [will_match, decide_eq_false_iff_not, not_lt] at hwill
    omega

theorem scalarLoop_eq_naive_idx {σ : Type} (S : SinkOps σ) (c : Cond) (w data : Nat)
    (p : Int → Bool) (value : Int) (base : Nat) :
    ∀ cnt start s, (∀ i, start ≤ i → i < start + cnt →
        p (getW w data i) = condSat c (getW w data i) value) →
      scalarLoop S w data p base start cnt s =
        naive_scan S c w data value base start cnt s := by
  intro cnt
  induction cnt with
  | zero => intro start s _; rfl
  | succ cnt ih =>
    intro start s hp
    show (if p (getW w data start) then _ else _) = _
    rw [naive_succ, hp start le_rfl (by omega)]
    by_cases hc : condSat c (getW w data start) value
    · rw [if_pos hc, if_pos hc]
      rcases hm : S.mmatch s (start + base) (getW w data start) with ⟨s2, cont⟩
      cases cont
      · simp
      · simp only [if_pos rfl]
        rw [ih (start + 1) s2 (fun i h1 h2 => hp i (by omega) (by omega))]
    · rw [if_neg hc, if_neg hc]
      exact ih (start + 1) s (fun i h1 h2 => hp i (by omega) (by omega))

theorem scalarTrue_clipped {σ : Type} (S : SinkOps σ) (hlaw : SinkLawful S)
    (c : Cond) (w data : Nat) (value : Int) (base : Nat) :
    ∀ process cnt start s,
      process = S.sinkLimit s - S.match_count s →
      S.match_count s < S.sinkLimit s →
      process ≤ cnt →
      (∀ i, start ≤ i → i < start + cnt → condSat c (getW w data i) value = true) →
      scalarLoop S w data (fun _ => true) base start process s =
        naive_scan S c w data value base start cnt s := by
  intro process
  induction process with
  | zero =>
    intro cnt start s h1 h2 h3 h4
    exact absurd h2 (by omega)
  | succ process ih =>
    intro cnt start s h1 h2 h3 h4
    match cnt, h3 with
    | cnt + 1, h3 =>
    show (if (fun (_ : Int) => true) (getW w data start) = true then _ else _) = _
    rw [naive_succ, if_pos (h4 start le_rfl (by omega))]
    rw [if_pos (rfl : ((fun (_ : Int) => true) (getW w data start)) = true)]
    obtain ⟨hc1, hc2, hc3⟩ := hlaw s (start + base) (getW w data start)
    rcases hm : S.mmatch s (start + base) (getW w data start) with ⟨s2, cont⟩
    rw [hm] at hc1 hc2 hc3
    cases cont
    · simp
    · have hc3b := hc3 rfl
      simp only [] at hc1 hc2 hc3b
      simp only [if_pos rfl]
      rw [ih cnt (start + 1) s2 (by omega) (by omega) (by omega)
        (fun i hh1 hh2 => h4 i (by omega) (by omega))]

theorem find_all_will_match_spec {σ : Type} (S : SinkOps σ) (hlaw : SinkLawful S)
    (c : Cond) (w data : Nat) (value : Int) (base start2 endIdx : Nat) (s : σ)
    (hcnt : S.match_count s < S.sinkLimit s)
    (hall : ∀ i, start2 ≤ i → i < endIdx → condSat c (getW w data i) value = true) :
    find_all_will_match S w data start2 endIdx base s =
      naive_scan S c w data value base start2 (endIdx - start2) s := by
  unfold find_all_will_match
  simp only []
  by_cases hcl : endIdx - start2 > S.sinkLimit s - S.match_count s
  · rw [if_pos hcl]
    rw [show start2 + (S.sinkLimit s - S.match_count s) - start2 =
        S.sinkLimit s - S.match_count s from by omega]
    exact scalarTrue_clipped S hlaw c w data value base _ _ start2 s rfl hcnt
      (by omega) (fun i h1 h2 => hall i h1 (by omega))
  · rw [if_neg hcl]
    exact scalarLoop_eq_naive_idx S c w data (fun _ => true) value base _ start2 s
      (fun i h1 h2 => (hall i h1 (by omega)).symm)

/-! ### The reference scan reports exactly the matching indices -/

theorem naive_matches_succ (c : Cond) (w data : Nat) (value : Int)
    (base start cnt : Nat) :
    naive_matches c w data value base start (cnt + 1) =
      (if condSat c (getW w data start) value then [(start + base, getW w data start)]
        else []) ++ naive_matches c w data value base (start + 1) cnt := by
  unfold naive_matches
  rw [List.range_succ_eq_map, List.map_cons, List.filterMap_cons, List.map_map]
  have hfun : ((fun j => start + j) ∘ Nat.succ) = fun j => start + 1 + j := by
    funext j
    simp only [Function.comp_apply]
    omega
  rw [hfun, Nat.add_zero]
  by_cases hc : condSat c (getW w data start) value
  · simp [hc]
  · simp [hc]

theorem naive_reports_of_cont {σ : Type} (S : SinkOps σ) (c : Cond) (w data : Nat)
    (value : Int) (base : Nat) :
    ∀ cnt start s, (naive_scan S c w data value base start cnt s).cont = true →
      (naive_scan S c w data value base start cnt s).reports =
        naive_matches c w data value base start cnt := by
  intro cnt
  induction cnt with
  | zero => intro start s _; rfl
  | succ cnt ih =>
    intro start s hcont
    rw [naive_succ] at hcont ⊢
    rw [naive_matches_succ]
    by_cases hc : condSat c (getW w data start) value
    · rw [if_pos hc] at hcont ⊢
      rw [if_pos hc]
      rcases hm : S.mmatch s (start + base) (getW w data start) with ⟨s2, cont⟩
      rw [hm] at hcont
      cases cont
      · simp at hcont
      · simp only [if_pos rfl] at hcont ⊢
        rw [ih (start + 1) s2 hcont]
        simp
    · rw [if_neg hc] at hcont ⊢
      rw [if_neg hc]
      rw [ih (start + 1) s hcont]
      simp

/-! ### find_optimized against the naive scan -/

theorem find_optimized_spec {σ : Type} (S : SinkOps σ) (hlaw : SinkLawful S)
    (c : Cond) {w : Nat} (hw : supportedWidth w) (data n : Nat) (value : Int)
    (start end0 base : Nat) (s : σ)
    (hcnt : S.match_count s < S.sinkLimit s)
    (hent : (if end0 = npos then n else end0) ≤ n)
    (hse : start ≤ (if end0 = npos then n else end0)) :
    find_optimized S c w data n value start end0 base s =
      naive_scan S c w data value base start
        ((if end0 = npos then n else end0) - start) s := by
  unfold find_optimized
  simp only []
  by_cases hempty : ¬(n > start ∧ start < (if end0 = npos then n else end0))
  · rw [if_pos hempty]
    have hz : (if end0 = npos then n else end0) - start = 0 := by omega
    rw [hz]
    exact (naive_zero S c w data value base start s).symm
  · rw [if_neg hempty]
    push_neg at hempty
    by_cases hcan : ¬(can_match c value (lbound_for_width w) (ubound_for_width w)
        = true)
    · rw [if_pos hcan]
      symm
      apply naive_no_match
      intro i h1 h2
      have hx := get_universal_bounds w data i hw
      exact can_match_sound c value _ _ _ hx.1 hx.2.1 (Bool.eq_false_iff.mpr hcan)
    · rw [if_neg hcan]
      rw [not_not] at hcan
      by_cases hwill : will_match c value (lbound_for_width w) (ubound_for_width w)
          = true
      · rw [if_pos hwill]
        apply find_all_will_match_spec S hlaw c w data value base start _ s hcnt
        intro i h1 h2
        have hx := get_universal_bounds w data i hw
        exact will_match_sound c value _ _ _ hx.1 hx.2.1 hwill
      · rw [if_neg hwill]
        have hw0 : w ≠ 0 := by
          intro h0
          subst h0
          rw [show lbound_for_width 0 = (0 : Int) from rfl,
            show ubound_for_width 0 = (0 : Int) from rfl] at hcan hwill
          exact width0_no_compare c value hcan (Bool.eq_false_iff.mpr hwill)
        obtain ⟨hlb, hub⟩ := compare_bounds c value _ _ hcan
          (Bool.eq_false_iff.mpr hwill)
        exact compare_spec S c hw hw0 data value start _ base s hlb hub hse

/-- C1: for every predicate in {Equal, NotEqual, Greater, Less}, every
supported width, every buffer, every search value, every range `[start, end)`
with `start ≤ end ≤ n` (`end = npos` selecting the element count `n`), and
every lawful aggregate sink that is not yet full, the accelerated scan
`find_optimized` — including the `can_match`/`will_match` early-outs, the
clipped `find_all_will_match`, and the bit-trick `compare_equality` /
`compare_relation` chunk paths — produces exactly the result of the naive
per-element linear scan over the same sink: the same final sink state, the
same `(index, value)` match reports in the same order, and the same
continue flag; moreover, whenever the scan is not stopped by the sink, the
report list is precisely the increasing list of matching indices of
`[start, end)` paired with their element values. -/
theorem find_optimized_matches_naive {σ : Type} (S : SinkOps σ) (c : Cond)
    (w : Nat) (hw : supportedWidth w) (data n : Nat) (value : Int)
    (start end0 base : Nat) (s : σ) (hlaw : SinkLawful S)
    (hcnt : S.match_count s < S.sinkLimit s)
    (hent : (if end0 = npos then n else end0) ≤ n)
    (hse : start ≤ (if end0 = npos then n else end0)) :
    find_optimized S c w data n value start end0 base s =
      naive_scan S c w data value base start
        ((if end0 = npos then n else end0) - start) s ∧
    ((naive_scan S c w data value base start
        ((if end0 = npos then n else end0) - start) s).cont = true →
      (find_optimized S c w data n value start end0 base s).reports =
        naive_matches c w data value base start
          ((if end0 = npos then n else end0) - start)) := by
  have h1 := find_optimized_spec S hlaw c hw data n value start end0 base s
    hcnt hent hse
  refine ⟨h1, fun hc => ?_⟩
  rw [h1]
  exact naive_reports_of_cont S c w data value base _ start s hc

/-- The single-result sink obeys the aggregate-sink contract. -/
theorem findFirst_ops_lawful : SinkLawful QueryStateFindFirst.ops :=
  fun _ _ _ => ⟨rfl, rfl, fun h => Bool.noConfusion h⟩

/-- C1 witness: the scan equivalence at width 2 on the four-element buffer
`0xB1` (elements 1, 0, 3, 2), searching `Equal 3` over the whole array with
the single-result sink. -/
theorem find_optimized_matches_naive_witness :
    QueryStateFindFirst.ops.match_count QueryStateFindFirst.init <
      QueryStateFindFirst.ops.sinkLimit QueryStateFindFirst.init ∧
    find_optimized QueryStateFindFirst.ops Cond.equal 2 0xB1 4 3 0 npos 0
        QueryStateFindFirst.init =
      naive_scan QueryStateFindFirst.ops Cond.equal 2 0xB1 3 0 0
        ((if npos = npos then 4 else npos) - 0) QueryStateFindFirst.init :=
  ⟨by decide,
    (find_optimized_matches_naive QueryStateFindFirst.ops Cond.equal 2 (by decide)
      0xB1 4 3 0 npos 0 QueryStateFindFirst.init findFirst_ops_lawful (by decide)
      (by decide) (by decide)).1⟩

/-- The single step of the reference scan at a matching element records the
index in the `QueryStateFindFirst` sink and stops. -/
theorem naive_ff_step (c : Cond) (w data : Nat) (value : Int) (i cnt : Nat)
    (q : QueryStateFindFirst) (hsat : condSat c (getW w data i) value = true) :
    (naive_scan QueryStateFindFirst.ops c w data value 0 i (cnt + 1) q).state.m_state
      = i := by
  rw [naive_succ, if_pos hsat]
  simp [QueryStateFindFirst.ops]

/-- C6: `find_first<cond>(value, start, end)` (the width-dispatched
`find_optimized` run over a fresh `QueryStateFindFirst` sink with limit 1)
returns the smallest index of `[start, end)` whose element satisfies the
predicate against `value` — the sink records that index and tells the scan
to stop — and returns `not_found` when no index of the range matches. -/
theorem find_first_least (c : Cond) (w : Nat) (hw : supportedWidth w)
    (data n : Nat) (value : Int) (start end0 : Nat)
    (hent : (if end0 = npos then n else end0) ≤ n)
    (hse : start ≤ (if end0 = npos then n else end0)) :
    ((∀ j, start ≤ j → j < (if end0 = npos then n else end0) →
        condSat c (getW w data j) value = false) →
      find_first c w data n value start end0 = not_found) ∧
    (∀ i, start ≤ i → i < (if end0 = npos then n else end0) →
      condSat c (getW w data i) value = true →
      (∀ j, start ≤ j → j < i → condSat c (getW w data j) value = false) →
      find_first c w data n value start end0 = i) := by
  unfold find_first
  simp only []
  rw [find_optimized_spec QueryStateFindFirst.ops findFirst_ops_lawful c hw data n
    value start end0 0 QueryStateFindFirst.init (by decide) hent hse]
  constructor
  · intro hno
    rw [naive_no_match QueryStateFindFirst.ops c w data value 0 _ start
      QueryStateFindFirst.init (fun i h1 h2 => hno i h1 (by omega))]
    rfl
  · intro i hi1 hi2 hsat hmin
    rw [naive_skip QueryStateFindFirst.ops c w data value 0 (i - start) _ start
      QueryStateFindFirst.init (by omega)
      (fun j hj1 hj2 => hmin j hj1 (by omega))]
    rw [show start + (i - start) = i from by omega]
    rw [show (if end0 = npos then n else end0) - start - (i - start) =
        ((if end0 = npos then n else end0) - i - 1) + 1 from by omega]
    exact naive_ff_step c w data value i _ QueryStateFindFirst.init hsat

/-- C6 witness: on the width-2 buffer `0xB1` (elements 1, 0, 3, 2),
`find_first<Greater>(1, 0, npos)` returns 2, the least index whose element
exceeds 1. -/
theorem find_first_least_witness :
    condSat Cond.greater (getW 2 0xB1 2) 1 = true ∧
      find_first Cond.greater 2 0xB1 4 1 0 npos = 2 :=
  ⟨by decide,
    (find_first_least Cond.greater 2 (by decide) 0xB1 4 1 0 npos (by decide)
      (by decide)).2 2 (by decide) (by decide) (by decide)
      (fun j _ hj2 =>
        (by decide : ∀ j, j < 2 → condSat Cond.greater (getW 2 0xB1 j) 1 = false)
          j hj2)⟩

end Realm

